import Mathlib

/-!
mirrormediad: path utilities, logical path resolver, MM01 producer and consumer

A shallow embedding of `system/mirrormedia/daemon/mirrormediad.cpp`.

* A byte is a natural number (below 256 on a real descriptor); a `std::string`
  and a byte buffer are lists of bytes (`Str`).
* Fixed width integers are naturals reduced modulo `2 ^ w` where the source casts.
* Loops that are not structurally recursive carry a fuel argument; `none` means
  the fuel ran out, and the theorems show that the fuel supplied is enough.
-/

namespace Mirrormediad

/-! ## Strings -/

/-- A `std::string`: a sequence of bytes. -/
abbrev Str := List Nat

/-- The bytes of an ASCII literal of the source. -/
def ascii (s : String) : Str := s.toList.map Char.toNat

/-- The separator byte. -/
abbrev SLASH : Nat := 47

/-- The dot byte. -/
abbrev DOT : Nat := 46

/-- `std::string::find(pat)`: index of the first occurrence of `pat`, `none` for `npos`. -/
def str_find (pat : Str) : Str → Option Nat
  | [] => if pat = [] then some 0 else none
  | c :: cs =>
    if pat.isPrefixOf (c :: cs) then some 0
    else (str_find pat cs).map (· + 1)

/-- `std::string::rfind(c)`: index of the last occurrence of the byte `c`. -/
def str_rfind_char (c : Nat) : Str → Option Nat
  | [] => none
  | d :: ds =>
    match str_rfind_char c ds with
    | some i => some (i + 1)
    | none => if d = c then some 0 else none

/-- The lambda `starts_with` of `logical_to_real_root`; also `s.rfind(p, 0) == 0`. -/
def starts_with (s p : Str) : Bool :=
  decide (p.length ≤ s.length) && (s.take p.length == p)

/-! ## Path utilities (source lines 64-85) -/

/-- `join_path(base, rel)`. -/
def join_path (base rel : Str) : Str :=
  if base = [] then rel
  else if rel = [] then base
  else if rel.head? = some SLASH then base ++ rel
  else base ++ ascii "/" ++ rel

/-- `dirname_of(p)`. -/
def dirname_of (p : Str) : Str :=
  match str_rfind_char SLASH p with
  | none => ascii "."
  | some 0 => ascii "/"
  | some pos => p.take pos

/-- First loop of `sanitize_rel`: erase the first byte while it is a separator. -/
def strip_leading : Str → Str
  | [] => []
  | c :: cs => if c = SLASH then strip_leading cs else c :: cs

/-- Second loop of `sanitize_rel`: while `"//"` is found, erase one byte at the
position found. `none`: the fuel ran out before the loop condition became false. -/
def collapse_loop : Nat → Str → Option Str
  | fuel, rel =>
    match str_find (ascii "//") rel with
    | none => some rel
    | some i =>
      match fuel with
      | 0 => none
      | n + 1 => collapse_loop n (rel.eraseIdx i)

/-- `sanitize_rel(&rel)`: the returned flag together with the final value of `*rel`
(the argument is modified in place, also when the function returns false).
`none`: the collapse loop ran out of the fuel `rel.length`. -/
def sanitize_rel (rel : Str) : Option (Bool × Str) :=
  let r1 := strip_leading rel
  if (str_find (ascii "..") r1).isSome then some (false, r1)
  else (collapse_loop r1.length r1).map (fun r2 => (true, r2))

/-! ## Logical path resolver (source lines 220-261) -/

/-- `logical_to_real_root(logical, &out_root, &out_rel_base)`: `none` when it
returns false, else `(out_root, out_rel_base)`. -/
def logical_to_real_root (logical : Str) : Option (Str × Str) :=
  let LOG_DATA := ascii "/data/data"
  let REAL_DATA_BASE := ascii "/data/user/0"
  let LOG_EXT := ascii "/sdcard/Android/data"
  let REAL_EXT_BASE := ascii "/data/media/0/Android/data"
  if logical = LOG_DATA then some (REAL_DATA_BASE, [])
  else if starts_with logical (ascii "/data/data/") then
    some (REAL_DATA_BASE, logical.drop (ascii "/data/data/").length)
  else if logical = LOG_EXT then some (REAL_EXT_BASE, [])
  else if starts_with logical (ascii "/sdcard/Android/data/") then
    some (REAL_EXT_BASE, logical.drop (ascii "/sdcard/Android/data/").length)
  else none

/-- The tree a resolver result selects: `real_root` if `rel_base` is empty, else
`join_path(real_root, rel_base)` (lines 714-717 of the producer, 557-561 of UNZIP). -/
def base_dir_of (r : Str × Str) : Str :=
  if r.2 = [] then r.1 else join_path r.1 r.2

/-! ## Descriptors and the integer codecs (source lines 88-117)

An input descriptor is the sequence of bytes still to be read, followed by end of
file. `read` returns as many of the requested bytes as are left. -/

/-- `read(fd, buf, n)`: the bytes obtained and the bytes left on the descriptor. -/
def fd_read (n : Nat) (inp : Str) : Str × Str := (inp.take n, inp.drop n)

/-- `read_fully(fd, p, n)`: the loop reads until `n` bytes are in, and returns false
when a read returns nothing before that; the descriptor is then at end of file. -/
def read_fully (n : Nat) (inp : Str) : Option Str × Str :=
  if n ≤ inp.length then (some (inp.take n), inp.drop n) else (none, [])

/-- Little-endian value of a byte buffer (each element is a `uint8_t`). -/
def le_decode : Str → Nat
  | [] => 0
  | b :: bs => b % 256 + 256 * le_decode bs

/-- Little-endian bytes of the low `n` bytes of `v`: the memory image written by `w8..w64`. -/
def le_encode : Nat → Nat → Str
  | 0, _ => []
  | n + 1, v => (v % 256) :: le_encode n (v / 256)

/-- `w8(fd, v)`. -/
def w8 (v : Nat) : Str := le_encode 1 v

/-- `w16(fd, v)`. -/
def w16 (v : Nat) : Str := le_encode 2 v

/-- `w32(fd, v)`. -/
def w32 (v : Nat) : Str := le_encode 4 v

/-- `w64(fd, v)`. -/
def w64 (v : Nat) : Str := le_encode 8 v

/-- `r8/r16/r32/r64`: `read_fully` of `n` bytes into an integer. -/
def rN (n : Nat) (inp : Str) : Option Nat × Str :=
  match read_fully n inp with
  | (some bs, rest) => (some (le_decode bs), rest)
  | (none, rest) => (none, rest)

/-- The payload loops of the consumer:
`left = size; while (left) { r = read(in_fd, buf, min(left, bufsz)); if (r <= 0) return false; ...; left -= r; }`.
Result: `none` when the fuel ran out, else (loop completed, bytes read so far, bytes left). -/
def payload_loop (bufsz : Nat) : Nat → Nat → Str → Str → Option (Bool × Str × Str)
  | fuel, left, inp, acc =>
    if left = 0 then some (true, acc, inp)
    else
      match fuel with
      | 0 => none
      | f + 1 =>
        let got := (fd_read (min left bufsz) inp).1
        let rest := (fd_read (min left bufsz) inp).2
        if got.length = 0 then some (false, acc, rest)
        else payload_loop bufsz f (left - got.length) rest (acc ++ got)

/-! ## Filesystem model

The destination filesystem is a partial map from canonical paths (lists of
component names from the root) to inodes. Path strings are resolved as the kernel
does for a tree without symbolic links: the string is cut at the first NUL
(`c_str()`), split at separators, empty components are dropped, `.` stays and
`..` goes to the parent, and every directory walked through must exist. A path
that does not begin with a separator is resolved from the root, the working
directory of the daemon. Length limits (`PATH_MAX`, `NAME_MAX`) and SELinux labels
(`restorecon`) are not part of the model. A new inode belongs to root and has the
requested permission bits minus the umask. -/

/-- An inode: a directory or a regular file, with mode, owner and group. -/
inductive Inode where
  | dir (mode uid gid : Nat)
  | file (mode uid gid : Nat) (data : Str)
  deriving DecidableEq, Repr

/-- The filesystem state seen by the daemon. -/
structure FS where
  node : List Str → Option Inode
  umask : Nat

/-- The bytes a system call sees: `std::string::c_str()`. -/
def c_str (s : Str) : Str := s.takeWhile (· != 0)

/-- Split at every separator. -/
def split_slash : Str → List Str
  | [] => [[]]
  | c :: cs =>
    if c = SLASH then [] :: split_slash cs
    else
      match split_slash cs with
      | [] => [[c]]
      | h :: t => (c :: h) :: t

/-- The non-empty components of a path string. -/
def path_components (path : Str) : List Str :=
  (split_slash (c_str path)).filter (fun c => !c.isEmpty)

/-- The path string ends with a separator. -/
def trailing_slash (path : Str) : Bool := (c_str path).getLast? == some SLASH

namespace FS

/-- The inode at `p` is a directory. -/
def is_dir (fs : FS) (p : List Str) : Bool :=
  match fs.node p with
  | some (Inode.dir _ _ _) => true
  | _ => false

/-- Replace the inode at `p`. -/
def set (fs : FS) (p : List Str) (v : Inode) : FS :=
  { fs with node := fun q => if q = p then some v else fs.node q }

/-- One component of path resolution, from the directory `cur`. -/
def walk_step (fs : FS) (cur : Option (List Str)) (comp : Str) : Option (List Str) :=
  match cur with
  | none => none
  | some d =>
    if fs.is_dir d then
      some (if comp = ascii "." then d else if comp = ascii ".." then d.dropLast else d ++ [comp])
    else none

/-- Resolve a list of components from the root. -/
def walk (fs : FS) (comps : List Str) : Option (List Str) :=
  comps.foldl fs.walk_step (some [])

/-- Resolve a path string to an existing inode (`ENOENT`, `ENOTDIR` give `none`). -/
def lookup_path (fs : FS) (path : Str) : Option (List Str) :=
  if c_str path = [] then none
  else
    match fs.walk (path_components path) with
    | none => none
    | some p =>
      match fs.node p with
      | none => none
      | some (Inode.dir _ _ _) => some p
      | some (Inode.file _ _ _ _) => if trailing_slash path then none else some p

/-- Permission bits of a new inode. -/
def create_mode (fs : FS) (mode : Nat) : Nat :=
  (mode &&& 0o777) &&& (0o777 ^^^ (fs.umask &&& 0o777))

end FS

/-- Outcome of `mkdir`. -/
inductive Errno where
  | OK
  | EEXIST
  | EOTHER
  deriving DecidableEq, Repr

namespace FS

/-- The last component of the path is `.` or `..`. -/
def last_is_dot (path : Str) : Bool :=
  match (path_components path).getLast? with
  | some c => c == ascii "." || c == ascii ".."
  | none => false

/-- `mkdir(path, mode)`. -/
def mkdir (fs : FS) (path : Str) (mode : Nat) : Errno × FS :=
  if c_str path = [] then (Errno.EOTHER, fs)
  else
    match fs.walk (path_components path) with
    | none => (Errno.EOTHER, fs)
    | some t =>
      if (fs.node t).isSome || last_is_dot path then (Errno.EEXIST, fs)
      else (Errno.OK, fs.set t (Inode.dir (fs.create_mode mode) 0 0))

/-- `chown(path, uid, gid)`; the source ignores the result. -/
def chown (fs : FS) (path : Str) (uid gid : Nat) : FS :=
  match fs.lookup_path path with
  | none => fs
  | some p =>
    match fs.node p with
    | some (Inode.dir m _ _) => fs.set p (Inode.dir m uid gid)
    | some (Inode.file m _ _ d) => fs.set p (Inode.file m uid gid d)
    | none => fs

/-- `chmod(path, mode)`; the source ignores the result. -/
def chmod (fs : FS) (path : Str) (mode : Nat) : FS :=
  match fs.lookup_path path with
  | none => fs
  | some p =>
    match fs.node p with
    | some (Inode.dir _ u g) => fs.set p (Inode.dir (mode &&& 0o7777) u g)
    | some (Inode.file _ u g d) => fs.set p (Inode.file (mode &&& 0o7777) u g d)
    | none => fs

/-- `open(path, O_CREAT|O_TRUNC|O_WRONLY|O_CLOEXEC|O_NOFOLLOW, mode)`: the open file
(its canonical path) or `none` for a negative descriptor. -/
def open_create (fs : FS) (path : Str) (mode : Nat) : Option (List Str) × FS :=
  if c_str path = [] then (none, fs)
  else if trailing_slash path || last_is_dot path then (none, fs)
  else
    match fs.walk (path_components path) with
    | none => (none, fs)
    | some t =>
      match fs.node t with
      | some (Inode.dir _ _ _) => (none, fs)
      | some (Inode.file m u g _) => (some t, fs.set t (Inode.file m u g []))
      | none =>
        if path_components path = [] then (none, fs)
        else (some t, fs.set t (Inode.file (fs.create_mode mode) 0 0 []))

/-- `write_fully(ofd, buf, n)` on an open file: the bytes are appended. -/
def write (fs : FS) (h : List Str) (bytes : Str) : FS :=
  match fs.node h with
  | some (Inode.file m u g d) => fs.set h (Inode.file m u g (d ++ bytes))
  | _ => fs

/-- `fchown(ofd, uid, gid)`. -/
def fchown (fs : FS) (h : List Str) (uid gid : Nat) : FS :=
  match fs.node h with
  | some (Inode.file m _ _ d) => fs.set h (Inode.file m uid gid d)
  | _ => fs

/-- `fchmod(ofd, mode)`. -/
def fchmod (fs : FS) (h : List Str) (mode : Nat) : FS :=
  match fs.node h with
  | some (Inode.file _ u g d) => fs.set h (Inode.file (mode &&& 0o7777) u g d)
  | _ => fs

end FS

/-! ## `ensure_dir_all` (source lines 44-62) -/

/-- The loop of `ensure_dir_all`. The scan position `pos` is the split of `path`
into `pre` (the bytes before `pos`) and the bytes from `pos` on: a separator found
at `pos` gives `sub = pre`, the end of the string (`npos`) gives `sub = path`. -/
def ensure_dir_scan (path : Str) (mode : Nat) : Str → Str → FS → Bool × FS
  | _, [], fs =>
    if path ≠ [] then
      match fs.mkdir path mode with
      | (Errno.EOTHER, fs1) => (false, fs1)
      | (_, fs1) => (true, fs1)
    else (true, fs)
  | pre, c :: cs, fs =>
    if c = SLASH then
      if pre ≠ [] then
        match fs.mkdir pre mode with
        | (Errno.EOTHER, fs1) => (false, fs1)
        | (_, fs1) => ensure_dir_scan path mode (pre ++ [c]) cs fs1
      else ensure_dir_scan path mode (pre ++ [c]) cs fs
    else ensure_dir_scan path mode (pre ++ [c]) cs fs

/-- `ensure_dir_all(path, mode)`. -/
def ensure_dir_all (path : Str) (mode : Nat) (fs : FS) : Bool × FS :=
  if path = [] then (false, fs)
  else if path.head? ≠ some SLASH then (false, fs)
  else ensure_dir_scan path mode (path.take 1) (path.drop 1) fs

/-! ## Raw consumer `restore_tree_from_fd` (source lines 816-1027) -/

/-- The values fixed before the record loop (lines 827-849). -/
structure RestoreCtx where
  real_root : Str
  uid : Nat
  gid : Nat
  is_ext_data_tree : Bool
  deriving DecidableEq, Repr

/-- Lines 827-849: `is_ext_data_tree`, the refined `real_root`, `uid` and `gid`.
`AID_EXT_DATA_RW` comes from `android_filesystem_config.h` and is a parameter. -/
def restore_ctx (AID_EXT_DATA_RW : Nat) (logical_dst real_root : Str) (target_uid : Int) :
    RestoreCtx :=
  let is_ext_data_tree :=
    starts_with logical_dst (ascii "/sdcard/Android/data/") ||
    starts_with real_root (ascii "/data/media/0/Android/data")
  let real_root1 :=
    if is_ext_data_tree then
      if starts_with logical_dst (ascii "/sdcard/Android/data/") then
        let tail := (logical_dst.drop (ascii "/sdcard/Android/data/").length).rdropWhile
          (· == SLASH)
        if tail ≠ [] then ascii "/data/media/0/Android/data/" ++ tail else real_root
      else real_root
    else real_root
  { real_root := real_root1
    uid := target_uid.toNat
    gid := if is_ext_data_tree then AID_EXT_DATA_RW else target_uid.toNat
    is_ext_data_tree := is_ext_data_tree }

/-- Line 912: `outPath = rel.empty() ? real_root : join_path(real_root, rel)`. -/
def restore_out_path (real_root rel : Str) : Str :=
  if rel = [] then real_root else join_path real_root rel

/-- Result of the consumer: the returned flag, the filesystem and the unread input. -/
structure RestoreResult where
  ok : Bool
  fs : FS
  rest : Str

/-- The header fields after the tag: `r16 || r32 || r64 || r64` (lines 884-889). -/
def read_header (inp : Str) : Option (Nat × Nat × Nat × Nat × Str) :=
  match rN 2 inp with
  | (none, _) => none
  | (some pathLen, i1) =>
    match rN 4 i1 with
    | (none, _) => none
    | (some mode, i2) =>
      match rN 8 i2 with
      | (none, _) => none
      | (some mtime, i3) =>
        match rN 8 i3 with
        | (none, _) => none
        | (some size, i4) => some (pathLen, mode, mtime, size, i4)

/-- Directory mode of a `D` record (lines 919-928). -/
def dir_mode (ctx : RestoreCtx) (rel : Str) : Nat :=
  if ctx.is_ext_data_tree then (if rel = [] then 0o2770 else 0o2700) else 0o700

/-- Mode of the parent of an `F` record (lines 949-959). -/
def parent_mode (ctx : RestoreCtx) (parent : Str) : Nat :=
  if ctx.is_ext_data_tree then (if parent = ctx.real_root then 0o2770 else 0o2700) else 0o700

/-- File mode of an `F` record (line 946). -/
def file_mode (mode : Nat) : Nat :=
  if mode &&& 0o777 ≠ 0 then mode &&& 0o777 else 0o600

/-- The three identical loops that discard the payload of a skipped `F` record
(lines 901-907, 964-970, 983-989), followed by `continue` (the continuation `k`). -/
def drain_then (k : Str → FS → Option RestoreResult) (size : Nat) (i2 : Str) (fs : FS) :
    Option RestoreResult :=
  match payload_loop 4096 (i2.length + 1) size i2 [] with
  | none => none
  | some (false, _, i3) => some ⟨false, fs, i3⟩
  | some (true, _, i3) => k i3 fs

/-- Lines 897-1021: what the loop does with one record once its header and path
are read. `k` is the next iteration (`continue`, or the end of the loop body). -/
def restore_entry (ctx : RestoreCtx) (k : Str → FS → Option RestoreResult)
    (tag mode size : Nat) (rel0 : Str) (i2 : Str) (fs : FS) : Option RestoreResult :=
  match sanitize_rel rel0 with
  | none => none
  | some (false, _) =>
    if tag = 'F'.toNat then drain_then k size i2 fs
    else k i2 fs
  | some (true, rel) =>
    let outPath := restore_out_path ctx.real_root rel
    if tag = 'D'.toNat then
      let dirMode := dir_mode ctx rel
      match ensure_dir_all outPath dirMode fs with
      | (false, fs1) => k i2 fs1
      | (true, fs1) => k i2 ((fs1.chown outPath ctx.uid ctx.gid).chmod outPath dirMode)
    else if tag = 'F'.toNat then
      let fileMode := file_mode mode
      let parent := dirname_of outPath
      let parentMode := parent_mode ctx parent
      match ensure_dir_all parent parentMode fs with
      | (false, fs1) => drain_then k size i2 fs1
      | (true, fs1) =>
        let fs2 := (fs1.chown parent ctx.uid ctx.gid).chmod parent parentMode
        match fs2.open_create outPath fileMode with
        | (none, fs3) => drain_then k size i2 fs3
        | (some ofd, fs3) =>
          match payload_loop (256 * 1024) (i2.length + 1) size i2 [] with
          | none => none
          | some (false, data, i3) => some ⟨false, fs3.write ofd data, i3⟩
          | some (true, data, i3) =>
            k i3 (((fs3.write ofd data).fchown ofd ctx.uid ctx.gid).fchmod ofd fileMode)
    else some ⟨false, fs, i2⟩

/-- The record loop `while (true)` of lines 870-1022. Every iteration reads at
least the tag byte. `none`: the fuel ran out. -/
def restore_loop (ctx : RestoreCtx) : Nat → Str → FS → Option RestoreResult
  | 0, _, _ => none
  | fuel + 1, inp, fs =>
    match rN 1 inp with
    | (none, i0) => some ⟨false, fs, i0⟩
    | (some tag, i0) =>
      if tag = 'E'.toNat then
        some ⟨true, fs, (rN 8 (rN 8 (rN 4 (rN 2 i0).2).2).2).2⟩
      else
        match read_header i0 with
        | none => some ⟨false, fs, []⟩
        | some (pathLen, mode, _mtime, size, i1) =>
          match (if pathLen ≠ 0 then read_fully pathLen i1 else (some [], i1)) with
          | (none, i2) => some ⟨false, fs, i2⟩
          | (some rel0, i2) => restore_entry ctx (restore_loop ctx fuel) tag mode size rel0 i2 fs

/-- `restore_tree_from_fd(in_fd, logical_dst, target_uid)` on the descriptor
contents `inp` and the filesystem `fs`. `none`: a loop ran out of fuel. -/
def restore_tree_from_fd (AID_EXT_DATA_RW : Nat) (inp : Str) (logical_dst : Str)
    (target_uid : Int) (fs : FS) : Option RestoreResult :=
  match logical_to_real_root logical_dst with
  | none => some ⟨false, fs, inp⟩
  | some (real_root, _rel_base) =>
    if target_uid < 0 then some ⟨false, fs, inp⟩
    else
      let ctx := restore_ctx AID_EXT_DATA_RW logical_dst real_root target_uid
      match ensure_dir_all ctx.real_root 0o700 fs with
      | (false, fs1) => some ⟨false, fs1, inp⟩
      | (true, fs1) =>
        match read_fully 4 inp with
        | (none, i0) => some ⟨false, fs1, i0⟩
        | (some magic, i0) =>
          if magic ≠ ascii "MM01" then some ⟨false, fs1, i0⟩
          else restore_loop ctx (i0.length + 1) i0 fs1

/-- The `PUTRAW` branch of `main` (lines 1144-1147) once `dst` and `target_uid`
are parsed from the line: the acknowledgement written on the control connection.
The consumer is not called when `target_uid` is negative. -/
def putraw_ack (AID_EXT_DATA_RW : Nat) (inp dst : Str) (target_uid : Int) (fs : FS) :
    Option Str :=
  if target_uid ≥ 0 then
    (restore_tree_from_fd AID_EXT_DATA_RW inp dst target_uid fs).map
      (fun r => if r.ok then ascii "OK\n" else ascii "ERR\n")
  else some (ascii "ERR\n")

/-! ## Source filesystem of the producer

The tree read by `DUMP` is an inductive value: a directory lists its entries in
the order `readdir` returns them. Besides regular files and directories there
are other inodes (symbolic links, devices, fifos, sockets). `readable` says whether
`opendir` (for a directory) or `open` (for a file) succeeds. The output
descriptor accepts every write. -/

/-- A node of the source filesystem. -/
inductive Tree where
  | file (mode mtime : Nat) (readable : Bool) (data : Str)
  | dir (readable : Bool) (entries : List (Str × Tree))
  | other

instance : Inhabited Tree := ⟨Tree.other⟩

/-- What `lstat` reports: the inode kind (`S_ISDIR`, `S_ISREG`), the permission
bits of `st_mode`, `st_mtime` and `st_size`. -/
structure Stat where
  is_dir : Bool
  is_reg : Bool
  mode : Nat
  mtime : Nat
  size : Nat
  deriving DecidableEq, Repr

namespace Tree

/-- Number of directories in a tree. -/
def ndirs : Tree → Nat
  | file _ _ _ _ => 0
  | other => 0
  | dir _ es => 1 + ndirs_list es
where
  /-- Number of directories in a list of entries. -/
  ndirs_list : List (Str × Tree) → Nat
  | [] => 0
  | (_, t) :: r => t.ndirs + ndirs_list r

/-- One component of path resolution; the state is the current node followed by
its ancestors. -/
def walk_step (st : Option (List Tree)) (comp : Str) : Option (List Tree) :=
  match st with
  | some (dir rd es :: up) =>
    if comp = ascii "." then some (dir rd es :: up)
    else if comp = ascii ".." then
      match up with
      | [] => some [dir rd es]
      | _ :: _ => some up
    else (es.lookup comp).map (fun c => c :: dir rd es :: up)
  | _ => none

/-- Resolve a path string from the root to a node (`none`: `ENOENT`, `ENOTDIR`). -/
def resolve (root : Tree) (path : Str) : Option Tree :=
  if c_str path = [] then none
  else
    match (path_components path).foldl walk_step (some [root]) with
    | some (dir rd es :: _) => some (dir rd es)
    | some (t :: _) => if trailing_slash path then none else some t
    | _ => none

/-- `opendir(path)` and the names `readdir` then returns. -/
def opendir (root : Tree) (path : Str) : Option (List Str) :=
  match root.resolve path with
  | some (dir true es) => some (ascii "." :: ascii ".." :: es.map Prod.fst)
  | _ => none

/-- `lstat(path, &st)`. -/
def lstat (root : Tree) (path : Str) : Option Stat :=
  match root.resolve path with
  | some (dir _ _) => some ⟨true, false, 0, 0, 0⟩
  | some (file mode mtime _ data) => some ⟨false, true, mode, mtime, data.length⟩
  | some other => some ⟨false, false, 0, 0, 0⟩
  | none => none

/-- `open(path, O_RDONLY | O_NOFOLLOW | O_CLOEXEC)`: the bytes of the file. -/
def open_read (root : Tree) (path : Str) : Option Str :=
  match root.resolve path with
  | some (file _ _ true data) => some data
  | _ => none

end Tree

/-! ## Raw producer `dump_tree_to_fd` (source lines 707-812) -/

/-- The lambda `send_dir` (lines 728-732): the bytes written. -/
def send_dir (rel : Str) : Str :=
  w8 'D'.toNat ++ w16 rel.length ++ w32 0o770 ++ w64 0 ++ w64 0 ++ rel

/-- The lambda `send_file` (lines 734-763): the returned flag and the bytes
written. `none`: the copy loop ran out of fuel. -/
def send_file (root : Tree) (rel full : Str) : Option (Bool × Str) :=
  match root.lstat full with
  | none => some (true, [])
  | some st =>
    if !st.is_reg then some (true, [])
    else
      match root.open_read full with
      | none => some (true, [])
      | some data =>
        let sz := st.size % 2 ^ 64
        let hdr := w8 'F'.toNat ++ w16 rel.length ++ w32 (st.mode &&& 0o777) ++ w64 st.mtime ++
          w64 sz ++ rel
        match payload_loop (256 * 1024) (data.length + 1) sz data [] with
        | none => none
        | some (ok, bytes, _) => some (ok, hdr ++ bytes)

/-- Line 785: `childRel = rel.empty() ? de->d_name : (rel + "/" + de->d_name)`. -/
def child_rel (rel name : Str) : Str :=
  if rel = [] then name else rel ++ ascii "/" ++ name

/-- The `readdir` loop (lines 783-801) over the names still to come: the flag
(false: `return false`), the stack and the output. The back of the vector `stack`
is the head of the list. -/
def dump_entries (root : Tree) (dir rel : Str) :
    List Str → List Str → Str → Option (Bool × List Str × Str)
  | [], stack, out => some (true, stack, out)
  | name :: names, stack, out =>
    if name = ascii "." ∨ name = ascii ".." then dump_entries root dir rel names stack out
    else
      let childRel := child_rel rel name
      let childFull := join_path dir name
      match root.lstat childFull with
      | none => dump_entries root dir rel names stack out
      | some st =>
        if st.is_dir then dump_entries root dir rel names (childRel :: stack) out
        else if st.is_reg then
          match send_file root childRel childFull with
          | none => none
          | some (false, bytes) => some (false, stack, out ++ bytes)
          | some (true, bytes) => dump_entries root dir rel names stack (out ++ bytes)
        else dump_entries root dir rel names stack out

/-- The loop `while (!stack.empty())` (lines 765-803): the flag and the output.
`none`: the fuel ran out. -/
def dump_loop (root : Tree) (base_dir : Str) : Nat → List Str → Str → Option (Bool × Str)
  | _, [], out => some (true, out)
  | 0, _ :: _, _ => none
  | fuel + 1, rel :: stack, out =>
    let dir := if rel = [] then base_dir else join_path base_dir rel
    match root.opendir dir with
    | none => dump_loop root base_dir fuel stack out
    | some names =>
      match dump_entries root dir rel names stack (out ++ send_dir rel) with
      | none => none
      | some (false, _, out2) => some (false, out2)
      | some (true, stack2, out2) => dump_loop root base_dir fuel stack2 out2

/-- `dump_tree_to_fd(out_fd, logical_src)` on the filesystem `root`: the returned
flag and the bytes written to `out_fd`. `none`: a loop ran out of fuel. -/
def dump_tree_to_fd (root : Tree) (logical_src : Str) : Option (Bool × Str) :=
  match logical_to_real_root logical_src with
  | none => some (false, [])
  | some r =>
    let base_dir := base_dir_of r
    match dump_loop root base_dir (root.ndirs + 1) [[]] (ascii "MM01") with
    | none => none
    | some (false, out) => some (false, out)
    | some (true, out) => some (true, out ++ w8 'E'.toNat ++ w16 0 ++ w32 0 ++ w64 0 ++ w64 0)

/-! ## MM01 format, in the words of the specification -/

/-- Spec wording: a record is `(tag:u8, path_len:u16, mode:u32, mtime:u64, size:u64,
path:path_len bytes)`, every integer little-endian. -/
def mm01_record (tag : Nat) (path : Str) (mode mtime size : Nat) : Str :=
  le_encode 1 tag ++ le_encode 2 path.length ++ le_encode 4 mode ++ le_encode 8 mtime ++
    le_encode 8 size ++ path

/-- Spec wording: the terminating record, tag `E`, empty path, numeric fields zero. -/
def mm01_end : Str := mm01_record 'E'.toNat [] 0 0 0

/-- A filesystem that holds the root directory only. -/
def FS.empty (umask : Nat) : FS :=
  { node := fun p => if p = [] then some (Inode.dir 0o755 0 0) else none, umask := umask }

/-- A record of a stream: a directory or a file, named by the components of its
relative path. -/
inductive Rec where
  | D (names : List Str)
  | F (names : List Str) (mode mtime : Nat) (data : Str)
  deriving DecidableEq, Repr

/-- The relative path of a list of entry names: the names joined by separators,
built as the producer builds `childRel`. -/
def rel_of (names : List Str) : Str := names.foldl child_rel []

/-- The names of a record. -/
def Rec.names : Rec → List Str
  | Rec.D ns => ns
  | Rec.F ns _ _ _ => ns

/-- Spec wording: a `D` record has mode 0770, mtime 0 and size 0 and carries no
payload; an `F` record is followed by exactly `size` payload bytes. -/
def Rec.encode : Rec → Str
  | Rec.D ns => mm01_record 'D'.toNat (rel_of ns) 0o770 0 0
  | Rec.F ns mode mtime data => mm01_record 'F'.toNat (rel_of ns) mode mtime data.length ++ data

/-- The `F` records of the regular files of a directory, in `readdir` order. -/
def file_records (names : List Str) : List (Str × Tree) → List Rec
  | [] => []
  | (n, Tree.file mode mtime _ data) :: r =>
    Rec.F (names ++ [n]) (mode &&& 0o777) mtime data :: file_records names r
  | _ :: r => file_records names r

/-- Spec wording: a `D` record for the directory itself, then an `F` record for
each of its regular files, then the records of its subdirectories, each
subdirectory with its `D` record before the records of its contents. The
subdirectories come last entry first (the producer pops the directory it pushed
last). -/
def Tree.records (names : List Str) : Tree → List Rec
  | Tree.dir _ es => Rec.D names :: (file_records names es ++ subdir_records names es)
  | _ => []
where
  /-- Records of the subdirectories among the entries. -/
  subdir_records (names : List Str) : List (Str × Tree) → List Rec
  | [] => []
  | (n, t) :: r => subdir_records names r ++ Tree.records (names ++ [n]) t

/-- A directory entry name as `readdir` returns it: not empty, no separator, no
NUL, and not `.` or `..` (those two are skipped by the producer). -/
def valid_name (n : Str) : Bool :=
  !n.isEmpty && !n.contains SLASH && !n.contains 0 && n != ascii "." && n != ascii ".."

/-- Well-formed tree: entry names are valid and distinct within a directory, and
file sizes fit `off_t`. -/
def Tree.wf : Tree → Bool
  | Tree.file _ _ _ data => decide (data.length < 2 ^ 64)
  | Tree.other => true
  | Tree.dir _ es => (es.map Prod.fst).Nodup && wf_list es
where
  /-- Well-formed list of entries. -/
  wf_list : List (Str × Tree) → Bool
  | [] => true
  | (n, t) :: r => valid_name n && Tree.wf t && wf_list r

/-- Readable tree: every `opendir` and `open` succeeds. -/
def Tree.readable : Tree → Bool
  | Tree.file _ _ rd _ => rd
  | Tree.other => true
  | Tree.dir rd es => rd && readable_list es
where
  /-- Readable list of entries. -/
  readable_list : List (Str × Tree) → Bool
  | [] => true
  | (_, t) :: r => Tree.readable t && readable_list r

/-- The source filesystem of scenario 1: `/data/user/0/com.example.app` holds
`files/a.bin` with content `abc`, mode 0644 and mtime `T`. -/
def scenario1_tree (T : Nat) : Tree :=
  Tree.dir true [(ascii "data", Tree.dir true [(ascii "user", Tree.dir true [(ascii "0",
    Tree.dir true [(ascii "com.example.app",
      Tree.dir true [(ascii "files",
        Tree.dir true [(ascii "a.bin", Tree.file 0o644 T true (ascii "abc"))])])])])])]

/-- The stack after the `readdir` loop over the entries: the relative path of
every subdirectory is pushed. -/
def push_dirs (rel : Str) : List (Str × Tree) → List Str → List Str
  | [], st => st
  | (n, Tree.dir _ _) :: r, st => push_dirs rel r (child_rel rel n :: st)
  | _ :: r, st => push_dirs rel r st

/-- The subdirectories pushed by the `readdir` loop, with their names from the
base directory. -/
def sub_items (ns : List Str) : List (Str × Tree) → List (List Str × Tree) →
    List (List Str × Tree)
  | [], acc => acc
  | (n, Tree.dir rd es) :: r, acc => sub_items ns r ((ns ++ [n], Tree.dir rd es) :: acc)
  | _ :: r, acc => sub_items ns r acc

/-- The directory string the producer opens for the entry names `ns` (line 769). -/
def dir_path (base_dir : Str) (ns : List Str) : Str :=
  if rel_of ns = [] then base_dir else join_path base_dir (rel_of ns)

/-- The bytes of a list of records. -/
def encode_all : List Rec → Str
  | [] => []
  | r :: rs => r.encode ++ encode_all rs

/-- The records of a stack of directories, the top first. -/
def items_records : List (List Str × Tree) → List Rec
  | [] => []
  | it :: r => Tree.records it.1 it.2 ++ items_records r

/-- Number of directories below a stack of directories. -/
def items_ndirs : List (List Str × Tree) → Nat
  | [] => 0
  | it :: r => it.2.ndirs + items_ndirs r

/-- A stack item of the producer: a readable, well-formed directory that the
names `it.1` reach from the base directory. -/
def GoodItem (root : Tree) (base : Str) (it : List Str × Tree) : Prop :=
  (∀ n ∈ it.1, valid_name n = true) ∧ it.2.wf = true ∧ it.2.readable = true ∧
  (∃ rd es, it.2 = Tree.dir rd es) ∧
  ∃ up, (path_components base ++ it.1).foldl Tree.walk_step (some [root]) = some (it.2 :: up)

/-! ## Canonical paths of the destination -/

/-- A canonical path from its component literals. -/
def cpath (l : List String) : List Str := l.map ascii

/-- The absolute path string of a canonical path: `/c1/c2/.../cn`. -/
def abs_of : List Str → Str
  | [] => []
  | c :: cs => ascii "/" ++ c ++ abs_of cs

/-- Every proper ancestor of `p` is a directory. -/
def chain_ok (fs : FS) (p : List Str) : Prop :=
  ∀ k, k < p.length → fs.is_dir (p.take k) = true

/-- The filesystem after `ensure_dir_all` has walked the components `rem` below
`donec`: every missing component is created. -/
def mk_chain (mode : Nat) : List Str → List Str → FS → FS
  | _, [], fs => fs
  | donec, c :: rem, fs =>
    mk_chain mode (donec ++ [c]) rem
      (if (fs.node (donec ++ [c])).isSome then fs
       else fs.set (donec ++ [c]) (Inode.dir (fs.create_mode mode) 0 0))

/-- A name that `sanitize_rel` lets through: a valid entry name without `..` in it. -/
def clean_name (n : Str) : Bool :=
  valid_name n && (str_find (ascii "..") n).isNone

/-- The inode the consumer leaves for a record: a directory with the mode chosen
at lines 919-928, a file with the mode of line 946 and the payload as content;
owner and group are `uid` and `gid`. -/
def inode_of (ctx : RestoreCtx) : Rec → Inode
  | Rec.D ns => Inode.dir (dir_mode ctx (rel_of ns)) ctx.uid ctx.gid
  | Rec.F _ mode _ data => Inode.file (file_mode mode) ctx.uid ctx.gid data

/-- The first record of a list with the given names. -/
def find_rec (done : List Rec) (q : List Str) : Option Rec :=
  done.find? (fun r => decide (r.names = q))

/-- A record that can follow the records `done`: its names are clean and new, its
parent directory has its `D` record in `done`, and its fields fit the header. -/
def wf_rec (done : List Rec) (r : Rec) : Bool :=
  decide (r.names ≠ []) && r.names.all clean_name &&
  decide ((rel_of r.names).length < 65536) &&
  (find_rec done r.names).isNone &&
  decide (find_rec done r.names.dropLast = some (Rec.D r.names.dropLast)) &&
  (match r with
   | Rec.D _ => true
   | Rec.F _ mode _ data => decide (mode < 2 ^ 32) && decide (data.length < 2 ^ 64))

/-- A stream body in which every directory has its `D` record before the records
of its contents and no path occurs twice; `done` are the records already read. -/
def wf_stream : List Rec → List Rec → Bool
  | _, [] => true
  | done, r :: rs => wf_rec done r && wf_stream (done ++ [r]) rs

/-- The destination below the root `Rc` holds exactly the inodes of the records
`done`, and every inode there has directories for ancestors. -/
def Restored (ctx : RestoreCtx) (Rc : List Str) (fs : FS) (done : List Rec) : Prop :=
  (∀ q, fs.node (Rc ++ q) = (find_rec done q).map (inode_of ctx)) ∧
  (∀ q, (fs.node (Rc ++ q)).isSome = true → chain_ok fs (Rc ++ q))

/-- An empty destination: the root directory `Rc` exists, with directories for
ancestors, and nothing is below it. -/
def EmptyDest (Rc : List Str) (fs : FS) : Prop :=
  chain_ok fs Rc ∧ fs.is_dir Rc = true ∧ ∀ q, q ≠ [] → fs.node (Rc ++ q) = none

/-- A destination that is absent or empty: nothing is below `Rc`, and `Rc` and
its ancestors are directories where they exist. -/
def FreshDest (Rc : List Str) (fs : FS) : Prop :=
  fs.is_dir [] = true ∧
  (∀ k, 0 < k → k ≤ Rc.length → (fs.node (Rc.take k)).isSome = true →
    fs.is_dir (Rc.take k) = true) ∧
  ∀ q, q ≠ [] → fs.node (Rc ++ q) = none

/-- The canonical path of the real root of external data. -/
def ext_base : List Str := cpath ["data", "media", "0", "Android", "data"]

/-- The node of a tree that entry names lead to. -/
def Tree.descend : Tree → List Str → Option Tree
  | t, [] => some t
  | Tree.dir _ es, n :: q =>
    match es.lookup n with
    | some c => Tree.descend c q
    | none => none
  | _, _ :: _ => none

/-- A tree the consumer takes back whole: it holds regular files and directories
only, no entry name contains `..`, and every relative path fits the 16-bit path
length of a record. -/
def Tree.portable (ns : List Str) : Tree → Bool
  | Tree.file _ _ _ _ => true
  | Tree.other => false
  | Tree.dir _ es => portable_list ns es
where
  /-- The entries of a portable directory. -/
  portable_list (ns : List Str) : List (Str × Tree) → Bool
  | [] => true
  | (n, t) :: r =>
    clean_name n && decide ((rel_of (ns ++ [n])).length < 65536) &&
      Tree.portable (ns ++ [n]) t && portable_list ns r

/-- The inode the round trip leaves for a node of the source tree at the relative
path `q`: a directory with the mode of its depth, a file with the same content and
the mode `mode & 0777` (0600 when that is zero); owner `uid`, group `gid`. -/
def restored_inode (ctx : RestoreCtx) (q : List Str) : Option Tree → Option Inode
  | some (Tree.dir _ _) => some (Inode.dir (dir_mode ctx (rel_of q)) ctx.uid ctx.gid)
  | some (Tree.file mode _ _ data) =>
    some (Inode.file (if mode &&& 0o777 = 0 then 0o600 else mode &&& 0o777) ctx.uid ctx.gid data)
  | _ => none

/-- The record the producer writes for a node of the source tree at the names `p`. -/
def rec_of (p : List Str) : Option Tree → Option Rec
  | some (Tree.dir _ _) => some (Rec.D p)
  | some (Tree.file mode mtime _ data) => some (Rec.F p (mode &&& 0o777) mtime data)
  | _ => none

/-- Number of nodes of a tree. -/
def Tree.size : Tree → Nat
  | Tree.file _ _ _ _ => 1
  | Tree.other => 1
  | Tree.dir _ es => 1 + size_list es
where
  /-- Number of nodes in a list of entries. -/
  size_list : List (Str × Tree) → Nat
  | [] => 0
  | (_, t) :: r => Tree.size t + size_list r

/-- The records of the directory `t`, written at the names `ns`, are a
well-formed continuation of every stream `done` that holds the `D` record of the
parent and nothing at or below `ns`. -/
def DirWf (t : Tree) : Prop :=
  ∀ (ns : List Str) (done : List Rec), t.wf = true → t.portable ns = true → ns ≠ [] →
    (∀ n ∈ ns, clean_name n = true) → (rel_of ns).length < 65536 →
    find_rec done ns.dropLast = some (Rec.D ns.dropLast) →
    (∀ x ∈ done, ∀ rest, x.names ≠ ns ++ rest) →
    wf_stream done (Tree.records ns t) = true

/-- Every record after `done` has an empty path or comes after the `D` record of
its parent directory. -/
def parents_first : List Rec → List Rec → Bool
  | _, [] => true
  | done, x :: xs =>
    (decide (x.names = []) || decide (Rec.D x.names.dropLast ∈ done)) &&
      parents_first (done ++ [x]) xs

/-- The source filesystem of scenario 3: `/data/media/0/Android/data/com.example.app`
holds `files/a.bin` with content `abc`, mode 0644 and mtime `T`. -/
def scenario3_tree (T : Nat) : Tree :=
  Tree.dir true [(ascii "data", Tree.dir true [(ascii "media", Tree.dir true [(ascii "0",
    Tree.dir true [(ascii "Android", Tree.dir true [(ascii "data",
      Tree.dir true [(ascii "com.example.app",
        Tree.dir true [(ascii "files",
          Tree.dir true [(ascii "a.bin", Tree.file 0o644 T true (ascii "abc"))])])])])])])])]

/-- A source filesystem whose external data directory of `com.example.app` holds
one regular file with the name `a..b`. -/
def dotdot_tree : Tree :=
  Tree.dir true [(ascii "data", Tree.dir true [(ascii "media", Tree.dir true [(ascii "0",
    Tree.dir true [(ascii "Android", Tree.dir true [(ascii "data",
      Tree.dir true [(ascii "com.example.app",
        Tree.dir true [(ascii "a..b", Tree.file 0o644 0 true (ascii "x"))])])])])])])]

/-! ## Streams of the boundary scenarios -/

/-- The stream of scenario 1: the tree with the single file `files/a.bin`
(content `abc`, mode 0644, mtime `T`). -/
def scenario1_stream (T : Nat) : Str :=
  ascii "MM01" ++ mm01_record 'D'.toNat (ascii "") 0o770 0 0 ++
    mm01_record 'D'.toNat (ascii "files") 0o770 0 0 ++
    mm01_record 'F'.toNat (ascii "files/a.bin") 0o644 T 3 ++ ascii "abc" ++ mm01_end

/-- The stream of scenario 5: its only entry is a file with path `../escape.txt`. -/
def escape_stream : Str :=
  ascii "MM01" ++ mm01_record 'F'.toNat (ascii "../escape.txt") 0o644 0 3 ++ ascii "abc" ++
    mm01_end

/-- A stream with one record of unknown tag `X` whose path is `..`. -/
def unknown_tag_stream : Str :=
  ascii "MM01" ++ mm01_record 'X'.toNat (ascii "..") 0 0 0 ++ mm01_end

/-! ## Specification-side string functions -/

/-- Spec wording "all leading separators removed". -/
def drop_leading_slashes (r : Str) : Str := r.dropWhile (· == SLASH)

/-- Spec wording "every run of consecutive separators collapsed to a single one". -/
def collapse_runs : Str → Str
  | [] => []
  | [c] => [c]
  | c :: d :: cs =>
    if c = SLASH ∧ d = SLASH then collapse_runs (d :: cs)
    else c :: collapse_runs (d :: cs)

/-- The string `r` contains `pat` as a substring. -/
def Contains (pat r : Str) : Prop := ∃ a b, r = a ++ pat ++ b

end Mirrormediad

namespace Mirrormediad

/-! ## Streams on the wire -/

/-- A record as it is on the wire: the header fields, the path bytes and the
payload bytes that follow the path. -/
structure Entry where
  tag : Nat
  path : Str
  mode : Nat
  mtime : Nat
  size : Nat
  payload : Str

/-- The bytes of a record. -/
def Entry.encode (e : Entry) : Str :=
  mm01_record e.tag e.path e.mode e.mtime e.size ++ e.payload

/-- A record of a valid stream: the tag is `D` or `F`, the path length fits `u16`,
the size fits `u64`, and a payload of `size` bytes follows an `F` record and
nothing follows any other record. -/
def Entry.valid (e : Entry) : Bool :=
  (e.tag == 'D'.toNat || e.tag == 'F'.toNat) && decide (e.path.length < 65536) &&
    decide (e.size < 2 ^ 64) &&
    decide (e.payload.length = if e.tag = 'F'.toNat then e.size else 0)

/-- The bytes of a sequence of records. -/
def encode_entries : List Entry → Str
  | [] => []
  | e :: es => e.encode ++ encode_entries es

/-- A valid stream: the magic, the records, the `E` record. -/
def mm01_stream (es : List Entry) : Str :=
  ascii "MM01" ++ encode_entries es ++ mm01_end

/-- Number of bytes of a stream before the payload of the record that follows the
records `pre`: magic, the records `pre`, the 23 header bytes and the path. -/
def payload_start (pre : List Entry) (e : Entry) : Nat :=
  4 + (encode_entries pre).length + 23 + e.path.length

/-- A filesystem in which `/data/media/0/Android/data` exists and belongs to the
media provider (uid 1023, group 1078, mode 0771). -/
def ext_root_fs : FS :=
  { node := fun p =>
      if p = ext_base then some (Inode.dir 0o771 1023 1078)
      else if p ∈ [[], cpath ["data"], cpath ["data", "media"], cpath ["data", "media", "0"],
          cpath ["data", "media", "0", "Android"]] then some (Inode.dir 0o771 0 0)
      else none
    umask := 0o77 }

/-- A stream whose only record is an `F` record with the empty path. -/
def empty_path_file_stream : Str :=
  ascii "MM01" ++ mm01_record 'F'.toNat [] 0o644 0 3 ++ ascii "abc" ++ mm01_end

/-- The filesystem `fs2` extends `fs1`: every inode of `fs1` is the same in `fs2`. -/
def FS.extends_to (fs1 fs2 : FS) : Prop :=
  fs1.umask = fs2.umask ∧ ∀ p, (fs1.node p).isSome = true → fs2.node p = fs1.node p

/-! ## Entry names of the source tree -/

/-- A name as `readdir` returns it in `d_name`, a C string that names a directory
entry: not empty, no separator, no NUL. -/
def entry_name (n : Str) : Bool :=
  !n.isEmpty && !n.contains SLASH && !n.contains 0

/-- Every entry name in the tree is a name as `readdir` returns it. -/
def Tree.names_ok : Tree → Bool
  | Tree.dir _ es => names_ok_list es
  | _ => true
where
  /-- Every entry name in a list of entries. -/
  names_ok_list : List (Str × Tree) → Bool
  | [] => true
  | (n, t) :: r => entry_name n && Tree.names_ok t && names_ok_list r

/-- A relative path of the producer: the path of a list of names that are neither
empty nor `.` nor `..` and hold no separator. -/
def GoodRel (rel : Str) : Prop :=
  ∃ ns : List Str, (∀ n ∈ ns, valid_name n = true) ∧ rel = rel_of ns

/-- The path of a record is relative: only a `D` record has the empty path; the
path is built from names that are not empty, hold no separator and are neither
`.` nor `..`; it does not begin with a separator, and its segments between
separators are exactly those names. -/
def RelativePath (r : Rec) : Prop :=
  (r.names = [] → r = Rec.D []) ∧
  (∀ n ∈ r.names, n ≠ [] ∧ SLASH ∉ n ∧ n ≠ ascii "." ∧ n ≠ ascii "..") ∧
  (rel_of r.names).head? ≠ some SLASH ∧
  (r.names ≠ [] → split_slash (rel_of r.names) = r.names)

/-- An output of the producer: the magic followed by records whose names are
neither empty nor `.` nor `..` and hold no separator; only a `D` record has the
empty path. -/
def GoodOut (out : Str) : Prop :=
  ∃ recs : List Rec, out = ascii "MM01" ++ encode_all recs ∧
    ∀ r ∈ recs, (∀ n ∈ r.names, valid_name n = true) ∧ (r.names = [] → r = Rec.D [])

/-! ## Command loop of `main` (source lines 1102-1165)

One iteration after the descriptor and the command line are received. The
operations are taken as the values they return; what the loop does is the list of
its calls, its writes on the control connection and its `close` calls, in order. -/

/-- The results of the operations `main` dispatches to. -/
structure Ops where
  do_zip_to_fd : Str → Bool
  do_unzip_from_fd : Str → Int → Bool
  dump_tree_to_fd : Str → Bool
  restore_tree_from_fd : Str → Int → Bool
  do_backup_sms_db : Bool
  do_restore_sms_db : Bool

/-- What one iteration of the loop does. -/
inductive Event where
  | call_zip (logical : Str)
  | call_unzip (dst : Str) (uid : Int)
  | call_dump (src : Str)
  | call_putraw (dst : Str) (uid : Int)
  | call_backup_sms
  | call_restore_sms
  | close_fd
  | write_conn (bytes : Str)
  | close_conn
  deriving DecidableEq, Repr

/-- `isspace` in the C locale. -/
def is_space (c : Nat) : Bool := c == 32 || (decide (9 ≤ c) && decide (c ≤ 13))

/-- `iss >> tok` for a string: leading white space is skipped and the characters up
to the next white space are taken; `none` when there is no character left. -/
def next_token (s : Str) : Option (Str × Str) :=
  if s.dropWhile is_space = [] then none
  else some ((s.dropWhile is_space).takeWhile (fun c => !is_space c),
    (s.dropWhile is_space).dropWhile (fun c => !is_space c))

/-- A decimal digit. -/
def is_digit (c : Nat) : Bool := decide (48 ≤ c) && decide (c ≤ 57)

/-- `iss >> target_uid` for an `int`, as the C++ library does it since C++11 (the
`num_get` of libc++): leading white space is skipped; when no character is left
nothing is stored and the variable keeps `old`; otherwise an optional sign and the
decimal digits that follow are taken: when there is no digit the extraction fails
and 0 is stored, and a value outside `int` is stored as `INT_MIN` or `INT_MAX`.
`rest` is what is left of the line. -/
def extract_int (rest : Str) (old : Int) : Int :=
  match rest.dropWhile is_space with
  | [] => old
  | c :: cs =>
    let body := if c = '-'.toNat ∨ c = '+'.toNat then cs else c :: cs
    let digits := body.takeWhile is_digit
    if digits = [] then 0
    else
      let mag : Nat := digits.foldl (fun a d => 10 * a + (d - 48)) 0
      let v : Int := if c = '-'.toNat then -(mag : Int) else (mag : Int)
      if v < -2147483648 then -2147483648 else if v > 2147483647 then 2147483647 else v

/-- The loop `while (iss >> tok) { if (tok == "UID") { iss >> target_uid; break; } }`
(lines 1121-1123), from `target_uid = -1`. `none`: the fuel ran out. -/
def find_uid : Nat → Str → Option Int
  | 0, _ => none
  | f + 1, s =>
    match next_token s with
    | none => some (-1)
    | some (tok, rest) =>
      if tok = ascii "UID" then some (extract_int rest (-1)) else find_uid f rest

/-- Lines 1117-1124 (and 1136-1143): `dst` and `target_uid` from the line. -/
def parse_dst_uid (line : Str) : Option (Str × Int) :=
  match next_token line with
  | none => some ([], -1)
  | some (_, r1) =>
    match next_token r1 with
    | none => some ([], -1)
    | some (dst, r2) => (find_uid (r2.length + 1) r2).map (fun u => (dst, u))

/-- The acknowledgement bytes for an outcome. -/
def resp (ok : Bool) : Str := if ok then ascii "OK\n" else ascii "ERR\n"

/-- Lines 1105-1165: the dispatch on the verb. `none`: the fuel ran out. -/
def handle_line (O : Ops) (line : Str) : Option (List Event) :=
  if starts_with line (ascii "ZIP ") then
    some [Event.call_zip (line.drop 4), Event.close_fd, Event.close_conn]
  else if starts_with line (ascii "UNZIP ") then
    (parse_dst_uid line).map (fun p =>
      if p.2 ≥ 0 then
        [Event.call_unzip p.1 p.2, Event.close_fd,
          Event.write_conn (resp (O.do_unzip_from_fd p.1 p.2)), Event.close_conn]
      else [Event.close_fd, Event.write_conn (resp false), Event.close_conn])
  else if starts_with line (ascii "DUMP ") then
    some [Event.call_dump (line.drop 5), Event.close_fd,
      Event.write_conn (resp (O.dump_tree_to_fd (line.drop 5))), Event.close_conn]
  else if starts_with line (ascii "PUTRAW ") then
    (parse_dst_uid line).map (fun p =>
      if p.2 ≥ 0 then
        [Event.call_putraw p.1 p.2, Event.close_fd,
          Event.write_conn (resp (O.restore_tree_from_fd p.1 p.2)), Event.close_conn]
      else [Event.close_fd, Event.write_conn (resp false), Event.close_conn])
  else if starts_with line (ascii "BACKUP_SMS_DB") then
    some [Event.call_backup_sms, Event.close_fd, Event.close_conn]
  else if starts_with line (ascii "RESTORE_SMS_DB") then
    some [Event.call_restore_sms, Event.close_fd,
      Event.write_conn (resp O.do_restore_sms_db), Event.close_conn]
  else some [Event.close_fd, Event.close_conn]

/-- The acknowledgements written on the control connection. -/
def acks : List Event → List Str
  | [] => []
  | Event.write_conn b :: r => b :: acks r
  | _ :: r => acks r

/-- The operations called. -/
def calls : List Event → List Event
  | [] => []
  | Event.close_fd :: r => calls r
  | Event.write_conn _ :: r => calls r
  | Event.close_conn :: r => calls r
  | e :: r => e :: calls r

/-- Operations that fail whenever they are called. -/
def failing_ops : Ops :=
  { do_zip_to_fd := fun _ => false
    do_unzip_from_fd := fun _ _ => false
    dump_tree_to_fd := fun _ => false
    restore_tree_from_fd := fun _ _ => false
    do_backup_sms_db := false
    do_restore_sms_db := false }

/-- Operations that succeed whenever they are called. -/
def succeeding_ops : Ops :=
  { do_zip_to_fd := fun _ => true
    do_unzip_from_fd := fun _ _ => true
    dump_tree_to_fd := fun _ => true
    restore_tree_from_fd := fun _ _ => true
    do_backup_sms_db := true
    do_restore_sms_db := true }

/-! ## Central directory listing `list_zip_names_from_fd` (source lines 471-547)

The staged file is the sequence of its bytes; `lseek(fd, 0, SEEK_END)` is its
length and `pread` returns the bytes that are there. `off_t` has 64 bits. -/

/-- `pread_fully(fd, off, buf, len)`: the `len` bytes at `off`, or `none` when the
file ends before them. No call is made for `len = 0`. -/
def pread_fully (file : Str) (off len : Nat) : Option Str :=
  if len = 0 then some []
  else if off + len ≤ file.length then some ((file.drop off).take len) else none

/-- `buf[i] | (buf[i+1]<<8) | (buf[i+2]<<16) | (buf[i+3]<<24)`: the little-endian
value of the four bytes at `i`. -/
def le32_at (buf : Str) (i : Nat) : Nat := le_decode ((buf.drop i).take 4)

/-- `hdr[i] | (hdr[i+1]<<8)`: the little-endian value of the two bytes at `i`. -/
def le16_at (buf : Str) (i : Nat) : Nat := le_decode ((buf.drop i).take 2)

/-- Line 488. -/
def EOCD_SIG : Nat := 0x06054b50

/-- Line 524. -/
def CEN_SIG : Nat := 0x02014b50

/-- Line 489. -/
def MAX_BACK : Nat := 0x10000 + 22

/-- Line 492. -/
def CHUNK : Nat := 4096

/-- The inner loop (lines 501-508), `i` going down from `n - 1` to 0: the first
index at which the signature is read. -/
def chunk_scan (buf : Str) : Nat → Option Nat
  | 0 => none
  | i + 1 => if le32_at buf i = EOCD_SIG then some i else chunk_scan buf i

/-- How the backward scan ends. -/
inductive Scan where
  | found (eocd_off : Nat)
  | not_found
  | read_failed
  deriving DecidableEq, Repr

/-- The outer loop (lines 497-510) from `pos`. `none`: the fuel ran out. -/
def eocd_loop (file : Str) (search_start : Nat) : Nat → Nat → Option Scan
  | fuel, pos =>
    if pos > search_start then
      match fuel with
      | 0 => none
      | f + 1 =>
        let want := min (pos - search_start) CHUNK
        let chunk_off := pos - want
        match pread_fully file chunk_off want with
        | none => some Scan.read_failed
        | some buf =>
          match chunk_scan buf (want - 3) with
          | some i => some (Scan.found (chunk_off + i))
          | none => eocd_loop file search_start f chunk_off
    else some Scan.not_found

/-- Line 490. -/
def search_start_of (file_end : Nat) : Nat :=
  if file_end > MAX_BACK then file_end - MAX_BACK else 0

/-- Lines 485-511: the backward scan for the end-of-central-directory record of a
file of at least 22 bytes. -/
def eocd_scan (file : Str) : Option Scan :=
  eocd_loop file (search_start_of file.length) (file.length + 1) file.length

/-- The loop over the central directory (lines 528-544): the returned flag and the
names pushed. `none`: the fuel ran out. -/
def cen_walk (file : Str) (cd_end : Nat) : Nat → Nat → Nat → List Str → Option (Bool × List Str)
  | fuel, p, parsed, names =>
    if p < cd_end then
      match fuel with
      | 0 => none
      | f + 1 =>
        match pread_fully file p 46 with
        | none => some (false, names)
        | some hdr =>
          if le32_at hdr 0 ≠ CEN_SIG then some (false, names)
          else
            let namelen := le16_at hdr 28
            let extralen := le16_at hdr 30
            let comlen := le16_at hdr 32
            match pread_fully file (p + 46) namelen with
            | none => some (false, names)
            | some name =>
              if parsed + 1 > 100000 then some (false, names ++ [name])
              else
                cen_walk file cd_end f (p + 46 + namelen + extralen + comlen) (parsed + 1)
                  (names ++ [name])
    else some (true, names)

/-- `list_zip_names_from_fd(fd, &names)`: the returned flag and `*names_out`.
`none`: a loop ran out of fuel. -/
def list_zip_names_from_fd (file : Str) : Option (Bool × List Str) :=
  if file.length < 22 then some (false, [])
  else
    match eocd_scan file with
    | none => none
    | some Scan.read_failed => some (false, [])
    | some Scan.not_found => some (false, [])
    | some (Scan.found eocd_off) =>
      match pread_fully file eocd_off 22 with
      | none => some (false, [])
      | some eocd =>
        let cd_size := le32_at eocd 0x0C
        let cd_offset := le32_at eocd 0x10
        if (cd_offset + cd_size) % 2 ^ 32 > file.length then some (false, [])
        else cen_walk file ((cd_offset + cd_size) % 2 ^ 32) 100001 cd_offset 0 []

/-- Spec wording: the end-of-central-directory record: signature, disk numbers,
entry counts, size and offset of the central directory, comment length, comment. -/
def eocd_record (entries cd_size cd_offset : Nat) (comment : Str) : Str :=
  le_encode 4 EOCD_SIG ++ le_encode 2 0 ++ le_encode 2 0 ++ le_encode 2 entries ++
    le_encode 2 entries ++ le_encode 4 cd_size ++ le_encode 4 cd_offset ++
    le_encode 2 comment.length ++ comment

/-- Spec wording: a central header: the signature, 24 bytes of other fields, the
lengths of name, extra field and comment, 12 bytes of other fields, then the name,
the extra field and the comment. -/
def cen_header (f1 f2 name extra comment : Str) : Str :=
  le_encode 4 CEN_SIG ++ f1 ++ le_encode 2 name.length ++ le_encode 2 extra.length ++
    le_encode 2 comment.length ++ f2 ++ name ++ extra ++ comment

/-- A ZIP file of one entry `a.txt` without content, and no comment. -/
def small_zip : Str :=
  cen_header (List.replicate 24 0) (List.replicate 12 0) (ascii "a.txt") [] [] ++
    eocd_record 1 51 0 []

/-- The offsets at which the scan from `pos` down to `search_start` reads four
bytes: the four bytes lie in one chunk, the chunks being counted back from `pos`. -/
def scanned (search_start pos o : Nat) : Prop :=
  search_start ≤ o ∧ o + 4 ≤ pos ∧ ((pos - o) % CHUNK = 0 ∨ 4 ≤ (pos - o) % CHUNK)

/-- A ZIP file without entries whose comment has 4075 bytes: the 22 bytes of the
end-of-central-directory record at offset 0, then the comment; 4097 bytes. -/
def straddle_zip : Str := eocd_record 0 0 0 (List.replicate 4075 65)

/-- A file of 65558 bytes: the 22 bytes of an end-of-central-directory record
without entries at offset 0, then 65536 zero bytes. -/
def window_edge_file : Str := eocd_record 0 0 0 [] ++ List.replicate 65536 0

/-- A staged file of `2 ^ 32 + 22` bytes: `2 ^ 32 - 51` zero bytes, the central
header of one entry `a.txt` (51 bytes, ending at offset `2 ^ 32`), and the
end-of-central-directory record with `cd_offset = 2 ^ 32 - 51` and `cd_size = 51`. -/
def wrap_zip : Str :=
  List.replicate (2 ^ 32 - 51) 0 ++
    cen_header (List.replicate 24 0) (List.replicate 12 0) (ascii "a.txt") [] [] ++
    eocd_record 1 51 (2 ^ 32 - 51) []

/-- An entry of a central directory: the 24 and the 12 bytes of other fixed
fields, the name, the extra field and the comment. -/
structure CenEntry where
  f1 : Str
  f2 : Str
  name : Str
  extra : Str
  comment : Str

/-- The bytes of a central header. -/
def CenEntry.bytes (e : CenEntry) : Str := cen_header e.f1 e.f2 e.name e.extra e.comment

/-- A well-formed central header: 46 fixed bytes, and the three lengths fit `u16`. -/
def CenEntry.wf (e : CenEntry) : Prop :=
  e.f1.length = 24 ∧ e.f2.length = 12 ∧ e.name.length < 65536 ∧ e.extra.length < 65536 ∧
    e.comment.length < 65536

/-- The bytes of a central directory. -/
def cd_bytes : List CenEntry → Str
  | [] => []
  | e :: es => e.bytes ++ cd_bytes es

/-- A staged file of 22 bytes: an end-of-central-directory record that gives
`cd_offset = 0xFFFFFFFF` and `cd_size = 1`, with no comment. -/
def wrap_eocd_file : Str := eocd_record 1 1 0xFFFFFFFF []

/-! ## Limits of the kernel on names and paths

The filesystem model has no `ENAMETOOLONG`: a statement that says that a path is
created is made for names and paths within these limits, where the model and the
kernel agree. -/

end Mirrormediad

namespace Mirrormediad

/-! ## Facts about `str_find` -/

theorem str_find_isSome_of_contains (pat : Str) :
    ∀ s : Str, Contains pat s → (str_find pat s).isSome = true := by
  intro s
  induction s with
  | nil =>
    rintro ⟨a, b, h⟩
    have h1 : a ++ pat ++ b = [] := h.symm
    simp at h1
    simp [str_find, h1.2.1]
  | cons c cs ih =>
    rintro ⟨a, b, h⟩
    unfold str_find
    by_cases hp : pat.isPrefixOf (c :: cs) = true
    · simp [hp]
    · simp only [hp]
      cases a with
      | nil =>
        exfalso
        apply hp
        rw [List.isPrefixOf_iff_prefix]
        exact ⟨b, by simpa using h.symm⟩
      | cons a0 as =>
        have h2 : cs = as ++ pat ++ b := by
          simp at h
          simp [h.2]
        have := ih ⟨as, b, h2⟩
        simp only [Bool.false_eq_true, ↓reduceIte, Option.isSome_map']
        exact this

theorem contains_of_str_find (pat : Str) :
    ∀ (s : Str) (i : Nat), str_find pat s = some i →
      ∃ a b, s = a ++ pat ++ b ∧ a.length = i := by
  intro s
  induction s with
  | nil =>
    intro i h
    unfold str_find at h
    split_ifs at h with hp
    refine ⟨[], [], by simp [hp], ?_⟩
    simp at h
    simp [h]
  | cons c cs ih =>
    intro i h
    unfold str_find at h
    split_ifs at h with hp
    · rw [List.isPrefixOf_iff_prefix] at hp
      obtain ⟨b, hb⟩ := hp
      refine ⟨[], b, by simp [hb], ?_⟩
      simp at h
      simp [h]
    · cases hf : str_find pat cs with
      | none => simp [hf] at h
      | some j =>
        simp [hf] at h
        obtain ⟨a, b, hab, hl⟩ := ih j hf
        refine ⟨c :: a, b, by simp [hab], ?_⟩
        simp [hl, h]

theorem str_find_isSome_iff (pat s : Str) :
    (str_find pat s).isSome = true ↔ Contains pat s := by
  constructor
  · intro h
    obtain ⟨i, hi⟩ := Option.isSome_iff_exists.mp h
    obtain ⟨a, b, hab, _⟩ := contains_of_str_find pat s i hi
    exact ⟨a, b, hab⟩
  · exact str_find_isSome_of_contains pat s

theorem str_find_none_iff (pat s : Str) :
    str_find pat s = none ↔ ¬ Contains pat s := by
  rw [← str_find_isSome_iff]
  cases str_find pat s <;> simp

end Mirrormediad

namespace Mirrormediad

/-! ## Facts about `sanitize_rel` -/

theorem ascii_slash2 : ascii "//" = [SLASH, SLASH] := by decide

theorem ascii_dot2 : ascii ".." = [DOT, DOT] := by decide

theorem ascii_slash1 : ascii "/" = [SLASH] := by decide

theorem strip_leading_eq (r : Str) : strip_leading r = drop_leading_slashes r := by
  induction r with
  | nil => rfl
  | cons c cs ih =>
    by_cases h : c = SLASH
    · simp only [strip_leading, drop_leading_slashes, h, List.dropWhile_cons, beq_self_eq_true,
        if_true] at *
      exact ih
    · have hb : (c == SLASH) = false := by simpa using h
      simp [strip_leading, drop_leading_slashes, h, List.dropWhile_cons, hb]

theorem strip_leading_head (r : Str) : (strip_leading r).head? ≠ some SLASH := by
  induction r with
  | nil => simp [strip_leading]
  | cons c cs ih =>
    by_cases h : c = SLASH
    · simpa [strip_leading, h] using ih
    · simp [strip_leading, h]

/-- A two byte pattern: unfolding of `str_find` on a cons. -/
theorem str_find_pair_cons (x y c : Nat) (cs : Str) :
    str_find [x, y] (c :: cs) =
      if c = x ∧ cs.head? = some y then some 0
      else (str_find [x, y] cs).map (· + 1) := by
  rw [str_find]
  cases cs with
  | nil => simp [List.isPrefixOf]
  | cons d ds =>
    simp only [List.isPrefixOf, List.head?_cons, Option.some.injEq, Bool.and_true,
      Bool.and_eq_true, beq_iff_eq]
    by_cases h1 : x = c <;> by_cases h2 : y = d <;> simp [h1, h2, eq_comm]

theorem str_find_pair_nil (x y : Nat) : str_find [x, y] [] = none := by
  simp [str_find]

theorem str_find_dotdot_strip (r : Str) :
    (str_find [DOT, DOT] (strip_leading r)).isSome = (str_find [DOT, DOT] r).isSome := by
  induction r with
  | nil => rfl
  | cons c cs ih =>
    by_cases h : c = SLASH
    · rw [str_find_pair_cons]
      simp [strip_leading, h, ih]
    · simp [strip_leading, h]

theorem collapse_runs_cons (c : Nat) (cs : Str) :
    collapse_runs (c :: cs) =
      if c = SLASH ∧ cs.head? = some SLASH then collapse_runs cs
      else c :: collapse_runs cs := by
  cases cs with
  | nil => simp [collapse_runs]
  | cons d ds => simp [collapse_runs]

theorem collapse_runs_head (s : Str) : (collapse_runs s).head? = s.head? := by
  induction s with
  | nil => rfl
  | cons c cs ih =>
    rw [collapse_runs_cons]
    split_ifs with h
    · rw [ih, h.2, h.1]; rfl
    · rfl

theorem collapse_runs_eraseIdx :
    ∀ (s : Str) (i : Nat), str_find [SLASH, SLASH] s = some i →
      collapse_runs (s.eraseIdx i) = collapse_runs s ∧ (s.eraseIdx i).length + 1 = s.length := by
  intro s
  induction s with
  | nil => intro i h; simp [str_find] at h
  | cons c cs ih =>
    intro i h
    rw [str_find_pair_cons] at h
    split_ifs at h with hc
    · simp at h
      subst h
      simp only [List.eraseIdx_cons_zero, List.length_cons, and_true]
      rw [collapse_runs_cons, if_pos hc]
    · cases hf : str_find [SLASH, SLASH] cs with
      | none => simp [hf] at h
      | some j =>
        simp [hf] at h
        subst h
        obtain ⟨h1, h2⟩ := ih j hf
        simp only [List.eraseIdx_cons_succ, List.length_cons]
        refine ⟨?_, by omega⟩
        rw [collapse_runs_cons, collapse_runs_cons, h1]
        have hh : (cs.eraseIdx j).head? = some SLASH ↔ cs.head? = some SLASH := by
          cases cs with
          | nil => simp
          | cons d ds =>
            cases j with
            | zero =>
              rw [str_find_pair_cons] at hf
              split_ifs at hf with hd
              · simp only [List.eraseIdx_cons_zero, List.head?_cons]
                rw [hd.2, hd.1]
              · cases hg : str_find [SLASH, SLASH] ds <;> simp [hg] at hf
            | succ k => simp
        simp only [hh]

theorem collapse_loop_eq :
    ∀ (fuel : Nat) (r : Str), r.length ≤ fuel → collapse_loop fuel r = some (collapse_runs r) := by
  intro fuel
  induction fuel with
  | zero =>
    intro r h
    have : r = [] := by simpa using h
    subst this
    rw [collapse_loop]
    simp [ascii_slash2, str_find, collapse_runs]
  | succ n ih =>
    intro r h
    rw [collapse_loop, ascii_slash2]
    cases hf : str_find [SLASH, SLASH] r with
    | none =>
      simp only
      congr 1
      clear h ih
      induction r with
      | nil => rfl
      | cons c cs ih2 =>
        rw [str_find_pair_cons] at hf
        split_ifs at hf with hc
        have hcs : str_find [SLASH, SLASH] cs = none := by
          cases hg : str_find [SLASH, SLASH] cs <;> simp [hg] at hf
          rfl
        rw [collapse_runs_cons, if_neg hc, ← ih2 hcs]
    | some i =>
      simp only
      obtain ⟨h1, h2⟩ := collapse_runs_eraseIdx r i hf
      rw [ih (r.eraseIdx i) (by omega), h1]

theorem collapse_runs_no_pair (x : Nat) :
    ∀ s : Str, str_find [x, x] s = none → x ≠ SLASH → str_find [x, x] (collapse_runs s) = none := by
  intro s
  induction s with
  | nil => intro _ _; rfl
  | cons c cs ih =>
    intro h hx
    rw [str_find_pair_cons] at h
    split_ifs at h with hc
    have hcs : str_find [x, x] cs = none := by
      cases hg : str_find [x, x] cs <;> simp [hg] at h
      rfl
    rw [collapse_runs_cons]
    split_ifs with hs
    · exact ih hcs hx
    · rw [str_find_pair_cons, collapse_runs_head, if_neg hc, ih hcs hx]
      rfl

theorem collapse_runs_no_slash2 :
    ∀ s : Str, str_find [SLASH, SLASH] (collapse_runs s) = none := by
  intro s
  induction s with
  | nil => rfl
  | cons c cs ih =>
    rw [collapse_runs_cons]
    split_ifs with hs
    · exact ih
    · rw [str_find_pair_cons, collapse_runs_head, if_neg hs, ih]
      rfl

/-- The value of `sanitize_rel` in closed form: the fuel of the collapse loop is enough. -/
theorem sanitize_rel_eq (r : Str) :
    sanitize_rel r =
      some (if (str_find (ascii "..") r).isSome then (false, strip_leading r)
            else (true, collapse_runs (strip_leading r))) := by
  unfold sanitize_rel
  simp only [ascii_dot2, str_find_dotdot_strip]
  split_ifs with h
  · rfl
  · rw [collapse_loop_eq _ _ (le_refl _)]
    rfl

end Mirrormediad

namespace Mirrormediad

/-! ## Path utilities and resolver: the claims -/

theorem starts_with_iff (s p : Str) : starts_with s p = true ↔ ∃ t, s = p ++ t := by
  unfold starts_with
  simp only [Bool.and_eq_true, decide_eq_true_eq, beq_iff_eq]
  constructor
  · rintro ⟨_, h2⟩
    exact ⟨s.drop p.length, by conv_lhs => rw [← List.take_append_drop p.length s, h2]⟩
  · rintro ⟨t, rfl⟩
    simp

theorem starts_with_append (p t : Str) : starts_with (p ++ t) p = true :=
  (starts_with_iff _ _).mpr ⟨t, rfl⟩

theorem join_path_rel (base rel : Str) (hb : base ≠ []) (hr : rel ≠ [])
    (hh : rel.head? ≠ some SLASH) : join_path base rel = base ++ ascii "/" ++ rel := by
  simp [join_path, hb, hr, hh]

theorem sanitize_rel_accept (r p : Str) (h : sanitize_rel r = some (true, p)) :
    (str_find (ascii "..") r).isSome = false ∧ p = collapse_runs (strip_leading r) := by
  rw [sanitize_rel_eq] at h
  split_ifs at h with hc
  · simp at h
  · simp at h
    exact ⟨by simpa using hc, h.symm⟩

theorem sanitized_clean (r p : Str) (h : sanitize_rel r = some (true, p)) :
    ¬ Contains (ascii "..") p ∧ ¬ Contains (ascii "//") p ∧ p.head? ≠ some SLASH := by
  obtain ⟨h1, h2⟩ := sanitize_rel_accept r p h
  subst h2
  refine ⟨?_, ?_, ?_⟩
  · rw [← str_find_none_iff, ascii_dot2]
    apply collapse_runs_no_pair _ _ _ (by decide)
    have := str_find_dotdot_strip r
    rw [← ascii_dot2, h1] at this
    rw [← ascii_dot2]
    cases hf : str_find (ascii "..") (strip_leading r) with
    | none => rfl
    | some i => simp [hf] at this
  · rw [← str_find_none_iff, ascii_slash2]
    exact collapse_runs_no_slash2 _
  · rw [collapse_runs_head]
    exact strip_leading_head r

theorem resolver_roots (logical root0 rel_base : Str)
    (h : logical_to_real_root logical = some (root0, rel_base)) :
    root0 = ascii "/data/user/0" ∨ root0 = ascii "/data/media/0/Android/data" := by
  unfold logical_to_real_root at h
  simp only at h
  split_ifs at h <;> simp at h <;> simp [h.1]

theorem restore_ctx_root_ne_nil (g : Nat) (logical root0 rel_base : Str) (uid : Int)
    (h : logical_to_real_root logical = some (root0, rel_base)) :
    (restore_ctx g logical root0 uid).real_root ≠ [] := by
  have hr : root0 ≠ [] := by
    rcases resolver_roots _ _ _ h with h1 | h1 <;> rw [h1] <;> decide
  unfold restore_ctx
  simp only
  split_ifs <;> first | exact hr | simp [ascii]

/-- C1: for a record path that passes `sanitize_rel` in `restore_tree_from_fd`, the
sanitized path has no `..`, does not begin with a separator, and the path
materialized (line 912) is `real_root` for the empty path and
`real_root + "/" + p` otherwise, so `real_root` is a string prefix of it. -/
theorem restore_out_path_under_root (g : Nat) (logical_dst root0 rel_base : Str)
    (target_uid : Int) (rel p : Str)
    (hres : logical_to_real_root logical_dst = some (root0, rel_base))
    (hsan : sanitize_rel rel = some (true, p)) :
    ¬ Contains (ascii "..") p ∧ p.head? ≠ some SLASH ∧
    restore_out_path (restore_ctx g logical_dst root0 target_uid).real_root p =
      (if p = [] then (restore_ctx g logical_dst root0 target_uid).real_root
       else (restore_ctx g logical_dst root0 target_uid).real_root ++ ascii "/" ++ p) ∧
    ∃ t, restore_out_path (restore_ctx g logical_dst root0 target_uid).real_root p =
      (restore_ctx g logical_dst root0 target_uid).real_root ++ t := by
  obtain ⟨h1, _, h3⟩ := sanitized_clean rel p hsan
  have hne := restore_ctx_root_ne_nil g logical_dst root0 rel_base target_uid hres
  have key : restore_out_path (restore_ctx g logical_dst root0 target_uid).real_root p =
      (if p = [] then (restore_ctx g logical_dst root0 target_uid).real_root
       else (restore_ctx g logical_dst root0 target_uid).real_root ++ ascii "/" ++ p) := by
    unfold restore_out_path
    split_ifs with hp
    · rfl
    · exact join_path_rel _ _ hne hp h3
  refine ⟨h1, h3, key, ?_⟩
  rw [key]
  split_ifs with hp
  · exact ⟨[], by simp⟩
  · exact ⟨ascii "/" ++ p, by simp⟩

theorem restore_out_path_under_root_witness :
    ¬ Contains (ascii "..") (ascii "files/a.bin") ∧
    (ascii "files/a.bin").head? ≠ some SLASH ∧
    restore_out_path
      (restore_ctx 1078 (ascii "/sdcard/Android/data/pkg/") (ascii "/data/media/0/Android/data")
        10123).real_root (ascii "files/a.bin") =
      ascii "/data/media/0/Android/data/pkg/files/a.bin" := by
  have h := restore_out_path_under_root 1078 (ascii "/sdcard/Android/data/pkg/")
    (ascii "/data/media/0/Android/data") (ascii "pkg/") 10123 (ascii "//files//a.bin")
    (ascii "files/a.bin") (by decide) (by decide)
  refine ⟨h.1, h.2.1, ?_⟩
  decide

/-- C2: `sanitize_rel(r)` returns false exactly when `r` contains `..`; otherwise
the collapse loop terminates and `*rel` is the input with the leading separators
removed and every run of separators collapsed to one, a string with no leading
separator, no `//` and no `..`. -/
theorem sanitize_rel_spec (r : Str) :
    ((∃ r1, sanitize_rel r = some (false, r1)) ↔ Contains (ascii "..") r) ∧
    (¬ Contains (ascii "..") r →
      sanitize_rel r = some (true, collapse_runs (drop_leading_slashes r)) ∧
      (collapse_runs (drop_leading_slashes r)).head? ≠ some SLASH ∧
      ¬ Contains (ascii "//") (collapse_runs (drop_leading_slashes r)) ∧
      ¬ Contains (ascii "..") (collapse_runs (drop_leading_slashes r))) := by
  have hc : Contains (ascii "..") r ↔ (str_find (ascii "..") r).isSome = true :=
    (str_find_isSome_iff _ _).symm
  refine ⟨?_, ?_⟩
  · rw [sanitize_rel_eq, hc]
    constructor
    · rintro ⟨r1, h⟩
      by_contra hn
      simp [hn] at h
    · intro h
      exact ⟨strip_leading r, by simp [h]⟩
  · intro hn
    rw [hc] at hn
    have hs : sanitize_rel r = some (true, collapse_runs (drop_leading_slashes r)) := by
      rw [sanitize_rel_eq, ← strip_leading_eq]
      simp [hn]
    obtain ⟨h1, h2, h3⟩ := sanitized_clean r _ hs
    exact ⟨hs, h3, h2, h1⟩

theorem sanitize_rel_spec_witness :
    sanitize_rel (ascii "//a///b//") = some (true, ascii "a/b/") ∧
    ∃ r1, sanitize_rel (ascii "/x/../y") = some (false, r1) := by
  have h := sanitize_rel_spec (ascii "//a///b//")
  have hn : ¬ Contains (ascii "..") (ascii "//a///b//") := by
    rw [← str_find_none_iff]; decide
  refine ⟨?_, ?_⟩
  · rw [(h.2 hn).1]; decide
  · exact (sanitize_rel_spec (ascii "/x/../y")).1.mpr ⟨ascii "/x/", ascii "/y", by decide⟩

/-- C3: `logical_to_real_root(s)` succeeds exactly when `s` is `/data/data`, begins
with `/data/data/`, is `/sdcard/Android/data` or begins with
`/sdcard/Android/data/`; the empty string, `/data`, `/data/dataX` and a relative
path are rejected. -/
theorem logical_to_real_root_accepts_iff :
    (∀ s : Str, (logical_to_real_root s).isSome = true ↔
      (s = ascii "/data/data" ∨ (∃ t, s = ascii "/data/data/" ++ t) ∨
       s = ascii "/sdcard/Android/data" ∨ ∃ t, s = ascii "/sdcard/Android/data/" ++ t)) ∧
    logical_to_real_root (ascii "") = none ∧
    logical_to_real_root (ascii "/data") = none ∧
    logical_to_real_root (ascii "/data/dataX") = none ∧
    logical_to_real_root (ascii "data/data/com.example.app") = none := by
  refine ⟨?_, by decide, by decide, by decide, by decide⟩
  intro s
  unfold logical_to_real_root
  simp only [← starts_with_iff]
  split_ifs <;> simp_all

/-- C4: the tree selected by the resolver (`real_root` when `rel_base` is empty,
else `join_path(real_root, rel_base)`) follows the table of logical roots. -/
theorem resolver_table :
    (logical_to_real_root (ascii "/data/data")).map base_dir_of = some (ascii "/data/user/0") ∧
    (logical_to_real_root (ascii "/sdcard/Android/data")).map base_dir_of =
      some (ascii "/data/media/0/Android/data") ∧
    ∀ tail : Str, tail ≠ [] → tail.head? ≠ some SLASH →
      (logical_to_real_root (ascii "/data/data/" ++ tail)).map base_dir_of =
        some (ascii "/data/user/0/" ++ tail) ∧
      (logical_to_real_root (ascii "/sdcard/Android/data/" ++ tail)).map base_dir_of =
        some (ascii "/data/media/0/Android/data/" ++ tail) := by
  refine ⟨by decide, by decide, ?_⟩
  intro tail ht hh
  obtain ⟨c, cs, rfl⟩ := List.exists_cons_of_ne_nil ht
  have hc : c ≠ SLASH := by simpa using hh
  constructor
  · have e1 : logical_to_real_root (ascii "/data/data/" ++ c :: cs) =
        some (ascii "/data/user/0", c :: cs) := by
      unfold logical_to_real_root
      simp only [starts_with_append, if_true, List.drop_left]
      rw [if_neg]
      simp [ascii]
    rw [e1]
    simp only [Option.map_some', base_dir_of]
    rw [if_neg (by simp), join_path_rel _ _ (by decide) (by simp) (by simpa using hc)]
    simp [ascii]
  · have e1 : logical_to_real_root (ascii "/sdcard/Android/data/" ++ c :: cs) =
        some (ascii "/data/media/0/Android/data", c :: cs) := by
      unfold logical_to_real_root
      simp only [starts_with_append, if_true, List.drop_left]
      rw [if_neg (by simp [ascii]), if_neg, if_neg (by simp [ascii])]
      rw [Bool.not_eq_true]
      simp [starts_with, ascii]
    rw [e1]
    simp only [Option.map_some', base_dir_of]
    rw [if_neg (by simp), join_path_rel _ _ (by decide) (by simp) (by simpa using hc)]
    simp [ascii]

theorem resolver_table_witness :
    (logical_to_real_root (ascii "/data/data/com.example.app")).map base_dir_of =
      some (ascii "/data/user/0/com.example.app") ∧
    (logical_to_real_root (ascii "/sdcard/Android/data/com.example.app")).map base_dir_of =
      some (ascii "/data/media/0/Android/data/com.example.app") :=
  resolver_table.2.2 (ascii "com.example.app") (by decide) (by decide)

end Mirrormediad

namespace Mirrormediad

/-! ## Integer codecs and the payload loops -/

theorem le_encode_length (n v : Nat) : (le_encode n v).length = n := by
  induction n generalizing v with
  | zero => rfl
  | succ k ih => simp [le_encode, ih]

theorem le_decode_encode (n v : Nat) : le_decode (le_encode n v) = v % 256 ^ n := by
  induction n generalizing v with
  | zero => simp [le_encode, le_decode, Nat.mod_one]
  | succ k ih =>
    simp only [le_encode, le_decode, ih, Nat.mod_mod]
    rw [pow_succ, Nat.mul_comm (256 ^ k) 256, Nat.mod_mul]

theorem read_fully_append (bs rest : Str) :
    read_fully bs.length (bs ++ rest) = (some bs, rest) := by
  simp [read_fully]

theorem rN_encode (n v : Nat) (rest : Str) :
    rN n (le_encode n v ++ rest) = (some (v % 256 ^ n), rest) := by
  have h := read_fully_append (le_encode n v) rest
  rw [le_encode_length] at h
  simp [rN, h, le_decode_encode]

theorem read_header_encode (pathLen mode mtime size : Nat) (rest : Str) :
    read_header (le_encode 2 pathLen ++ le_encode 4 mode ++ le_encode 8 mtime ++
      le_encode 8 size ++ rest) =
      some (pathLen % 256 ^ 2, mode % 256 ^ 4, mtime % 256 ^ 8, size % 256 ^ 8, rest) := by
  simp only [read_header, List.append_assoc, rN_encode]

/-- The payload loop in closed form: with a positive buffer and fuel above the
input length it reads `left` bytes when they are there, and otherwise reads to
the end of the input and fails. -/
theorem payload_loop_eq (bufsz : Nat) (hb : 0 < bufsz) :
    ∀ (fuel left : Nat) (inp acc : Str), inp.length < fuel →
      payload_loop bufsz fuel left inp acc =
        some (if left ≤ inp.length then (true, acc ++ inp.take left, inp.drop left)
              else (false, acc ++ inp, [])) := by
  intro fuel
  induction fuel with
  | zero => intro left inp acc h; omega
  | succ f ih =>
    intro left inp acc h
    rw [payload_loop]
    by_cases hl : left = 0
    · subst hl
      simp
    · simp only [hl, if_false, fd_read, List.length_take]
      by_cases he : inp = []
      · subst he
        have hnl : ¬ left ≤ 0 := by omega
        simp [hnl]
      · have hpos : 0 < inp.length := List.length_pos.mpr he
        have hm : 0 < min left bufsz := by omega
        have hne : ¬ (min (min left bufsz) inp.length = 0) := by omega
        rw [if_neg hne, ih _ _ _ (by simp only [List.length_drop]; omega)]
        simp only [List.length_drop, List.append_assoc]
        by_cases hle : left ≤ inp.length
        · have h1 : left - min (min left bufsz) inp.length ≤
              inp.length - min left bufsz := by omega
          rw [if_pos hle, if_pos h1]
          have hmin : min (min left bufsz) inp.length = min left bufsz := by omega
          rw [hmin]
          have e : min left bufsz + (left - min left bufsz) = left := by omega
          have e2 : min (min left bufsz) left = min left bufsz := by omega
          have ht : inp.take (min left bufsz) ++
              (inp.drop (min left bufsz)).take (left - min left bufsz) = inp.take left := by
            conv_rhs => rw [← List.take_append_drop (min left bufsz) (inp.take left)]
            rw [List.take_take, List.drop_take, e2]
          have hd : (inp.drop (min left bufsz)).drop (left - min left bufsz) =
              inp.drop left := by
            rw [List.drop_drop]
            congr 1
          rw [ht, hd]
        · have h1 : ¬ (left - min (min left bufsz) inp.length ≤
              inp.length - min left bufsz) := by omega
          rw [if_neg hle, if_neg h1]
          simp

/-! ## One record of the consumer loop -/

theorem mm01_record_eq (tag : Nat) (path : Str) (mode mtime size : Nat) (rest : Str) :
    mm01_record tag path mode mtime size ++ rest =
      le_encode 1 tag ++ (le_encode 2 path.length ++ le_encode 4 mode ++ le_encode 8 mtime ++
        le_encode 8 size ++ (path ++ rest)) := by
  simp [mm01_record, List.append_assoc]

/-- Reading one encoded record: the loop reaches `restore_entry` with the decoded
fields and the input positioned after the path. -/
theorem restore_loop_record (ctx : RestoreCtx) (fuel tag mode mtime size : Nat)
    (rel rest : Str) (fs : FS) (htag : tag < 256) (hE : tag ≠ 'E'.toNat)
    (hlen : rel.length < 65536) :
    restore_loop ctx (fuel + 1) (mm01_record tag rel mode mtime size ++ rest) fs =
      restore_entry ctx (restore_loop ctx fuel) tag (mode % 256 ^ 4) (size % 256 ^ 8)
        rel rest fs := by
  rw [mm01_record_eq, restore_loop, rN_encode]
  have h1 : tag % 256 ^ 1 = tag := by simpa using Nat.mod_eq_of_lt htag
  simp only [h1, if_neg hE, read_header_encode]
  have h2 : rel.length % 256 ^ 2 = rel.length := Nat.mod_eq_of_lt (by simpa using hlen)
  rw [h2]
  by_cases h0 : rel.length = 0
  · have : rel = [] := List.length_eq_zero.mp h0
    subst this
    simp
  · simp only [ne_eq, h0, not_false_eq_true, if_true, read_fully_append]

theorem restore_loop_end (ctx : RestoreCtx) (fuel : Nat) (rest : Str) (fs : FS) :
    ∃ r, restore_loop ctx (fuel + 1) (mm01_end ++ rest) fs = some ⟨true, fs, r⟩ := by
  rw [mm01_end, mm01_record_eq, restore_loop, rN_encode]
  have h1 : 'E'.toNat % 256 ^ 1 = 'E'.toNat := by decide
  simp only [h1, if_true]
  exact ⟨_, rfl⟩

theorem drain_then_complete (k : Str → FS → Option RestoreResult) (size : Nat)
    (payload rest : Str) (fs : FS) (h : payload.length = size) :
    drain_then k size (payload ++ rest) fs = k rest fs := by
  unfold drain_then
  rw [payload_loop_eq 4096 (by decide) _ _ _ _ (by omega)]
  subst h
  simp

/-- A record whose path `sanitize_rel` rejects: its payload is discarded when the
tag is `F`, the filesystem is untouched and the loop goes on. -/
theorem restore_entry_rejected (ctx : RestoreCtx) (k : Str → FS → Option RestoreResult)
    (tag mode size : Nat) (rel payload rest : Str) (fs : FS)
    (hrej : (sanitize_rel rel).map Prod.fst = some false)
    (hpay : payload.length = if tag = 'F'.toNat then size else 0) :
    restore_entry ctx k tag mode size rel (payload ++ rest) fs = k rest fs := by
  unfold restore_entry
  cases hs : sanitize_rel rel with
  | none => simp [hs] at hrej
  | some v =>
    obtain ⟨b, r1⟩ := v
    simp [hs] at hrej
    subst hrej
    simp only
    split_ifs with ht
    · rw [if_pos ht] at hpay
      exact drain_then_complete k size payload rest fs hpay
    · rw [if_neg ht] at hpay
      have : payload = [] := List.length_eq_zero.mp hpay
      subst this
      rfl

end Mirrormediad

namespace Mirrormediad

/-! ## Consumer: scenario 2, skipped entries, unknown tags -/

/-- C5, the code at the failing input: `PUTRAW /data/data/com.example.app UID 10123`
on the scenario 1 stream returns success, creates nothing at
`/data/user/0/com.example.app/files/a.bin` and creates the file at
`/data/user/0/files/a.bin` instead (`rel_base` is never joined to `real_root`);
`/data/user/0` itself is given to uid 10123 with mode 0700. -/
theorem putraw_internal_drops_rel_base :
    (restore_tree_from_fd 1078 (scenario1_stream 1700000000)
        (ascii "/data/data/com.example.app") 10123 (FS.empty 0o77)).map
      (fun r => (r.ok,
        r.fs.node (cpath ["data", "user", "0", "com.example.app", "files", "a.bin"]),
        r.fs.node (cpath ["data", "user", "0", "com.example.app"]),
        r.fs.node (cpath ["data", "user", "0", "files", "a.bin"]),
        r.fs.node (cpath ["data", "user", "0"]))) =
      some (true, none, none, some (Inode.file 0o644 10123 10123 (ascii "abc")),
        some (Inode.dir 0o700 10123 10123)) := by
  decide

/-- C8, counterexample: on the stream whose only entry has path `../escape.txt`
the consumer returns success and the dispatcher answers `OK`, not `ERR`. -/
theorem escape_only_stream_answers_ok :
    (restore_tree_from_fd 1078 escape_stream (ascii "/data/data/com.example.app") 10123
        (FS.empty 0o77)).map (fun r => r.ok) = some true ∧
    putraw_ack 1078 escape_stream (ascii "/data/data/com.example.app") 10123 (FS.empty 0o77) =
      some (ascii "OK\n") ∧
    putraw_ack 1078 escape_stream (ascii "/data/data/com.example.app") 10123 (FS.empty 0o77) ≠
      some (ascii "ERR\n") := by
  decide

/-- C8 as amended: an entry whose path `sanitize_rel` rejects is skipped without a
failure status: the payload of an `F` record is discarded, the filesystem is left
as it is, and the loop continues with the next record, so the result is the
result of the rest of the stream; the stream whose only entry is `../escape.txt`
is answered `OK`. -/
theorem restore_skips_rejected_entry :
    (∀ (ctx : RestoreCtx) (fuel tag mode mtime size : Nat) (rel payload rest : Str) (fs : FS),
      tag < 256 → tag ≠ 'E'.toNat → rel.length < 65536 → size < 2 ^ 64 →
      (sanitize_rel rel).map Prod.fst = some false →
      payload.length = (if tag = 'F'.toNat then size else 0) →
      restore_loop ctx (fuel + 1) (mm01_record tag rel mode mtime size ++ payload ++ rest) fs =
        restore_loop ctx fuel rest fs) ∧
    (∀ (ctx : RestoreCtx) (fuel : Nat) (rest : Str) (fs : FS),
      (restore_loop ctx (fuel + 1) (mm01_end ++ rest) fs).map (fun r => r.ok) = some true) ∧
    putraw_ack 1078 escape_stream (ascii "/data/data/com.example.app") 10123 (FS.empty 0o77) =
      some (ascii "OK\n") := by
  refine ⟨?_, ?_, by decide⟩
  · intro ctx fuel tag mode mtime size rel payload rest fs htag hE hlen hsz hrej hpay
    have hs : size % 256 ^ 8 = size := Nat.mod_eq_of_lt (by simpa using hsz)
    rw [List.append_assoc, restore_loop_record ctx fuel tag mode mtime size rel _ fs htag hE hlen,
      hs]
    exact restore_entry_rejected ctx _ tag _ size rel payload rest fs hrej hpay
  · intro ctx fuel rest fs
    obtain ⟨r, hr⟩ := restore_loop_end ctx fuel rest fs
    rw [hr]
    rfl

theorem restore_skips_rejected_entry_witness :
    (sanitize_rel (ascii "../escape.txt")).map Prod.fst = some false ∧
    restore_loop (restore_ctx 1078 (ascii "/data/data") (ascii "/data/user/0") 10123) 2
        (mm01_record 'F'.toNat (ascii "../escape.txt") 0o644 0 3 ++ ascii "abc" ++ mm01_end)
        (FS.empty 0o77) =
      restore_loop (restore_ctx 1078 (ascii "/data/data") (ascii "/data/user/0") 10123) 1
        mm01_end (FS.empty 0o77) :=
  ⟨by decide,
   restore_skips_rejected_entry.1 _ 1 'F'.toNat 0o644 0 3 (ascii "../escape.txt") (ascii "abc")
     mm01_end (FS.empty 0o77) (by decide) (by decide) (by decide) (by decide) (by decide)
     (by decide)⟩

/-- C10, the code at the failing input: a record with the unknown tag `X` and the
path `..` is skipped by the `sanitize_rel` branch before the tag is looked at, and
the consumer returns success; with the path `a` the same tag is fatal. -/
theorem unknown_tag_with_dotdot_path_not_fatal :
    (restore_tree_from_fd 1078 unknown_tag_stream (ascii "/data/data/com.example.app") 10123
        (FS.empty 0o77)).map (fun r => r.ok) = some true ∧
    (restore_tree_from_fd 1078
        (ascii "MM01" ++ mm01_record 'X'.toNat (ascii "a") 0 0 0 ++ mm01_end)
        (ascii "/data/data/com.example.app") 10123 (FS.empty 0o77)).map (fun r => r.ok) =
      some false := by
  decide

end Mirrormediad

namespace Mirrormediad

/-! ## Path strings and their components -/

theorem c_str_of_no_nul (a : Str) (h : ∀ b ∈ a, b ≠ 0) : c_str a = a := by
  unfold c_str
  rw [List.takeWhile_eq_self_iff]
  intro b hb
  simpa using h b hb

theorem c_str_append (a b : Str) (h : ∀ x ∈ a, x ≠ 0) : c_str (a ++ b) = a ++ c_str b := by
  induction a with
  | nil => rfl
  | cons x xs ih =>
    have hx : x ≠ 0 := h x (by simp)
    have hxs : ∀ y ∈ xs, y ≠ 0 := fun y hy => h y (by simp [hy])
    have := ih hxs
    unfold c_str at *
    simp [List.takeWhile_cons, hx, this]

theorem split_slash_ne_nil (s : Str) : split_slash s ≠ [] := by
  cases s with
  | nil => simp [split_slash]
  | cons c cs =>
    unfold split_slash
    split_ifs
    · simp
    · split <;> simp

theorem split_slash_no_slash (n : Str) (h : ∀ x ∈ n, x ≠ SLASH) : split_slash n = [n] := by
  induction n with
  | nil => rfl
  | cons c cs ih =>
    have hc : c ≠ SLASH := h c (by simp)
    have hcs := ih (fun y hy => h y (by simp [hy]))
    rw [split_slash, if_neg hc, hcs]

theorem split_slash_append (a b : Str) :
    split_slash (a ++ SLASH :: b) = split_slash a ++ split_slash b := by
  induction a with
  | nil => simp [split_slash]
  | cons c cs ih =>
    by_cases hc : c = SLASH
    · simp [split_slash, hc, ih]
    · simp only [List.cons_append]
      rw [split_slash, if_neg hc, ih]
      conv_rhs => rw [split_slash, if_neg hc]
      have hne := split_slash_ne_nil cs
      revert hne
      cases split_slash cs with
      | nil => intro hne; exact absurd rfl hne
      | cons x xs => intro _; rfl

theorem valid_name_iff (n : Str) :
    valid_name n = true ↔
      n ≠ [] ∧ (∀ x ∈ n, x ≠ SLASH) ∧ (∀ x ∈ n, x ≠ 0) ∧ n ≠ ascii "." ∧ n ≠ ascii ".." := by
  unfold valid_name
  simp only [Bool.and_eq_true, Bool.not_eq_true', List.isEmpty_eq_false, bne_iff_ne, ne_eq,
    List.contains_eq_any_beq, List.any_eq_false, beq_iff_eq]
  constructor
  · rintro ⟨⟨⟨⟨h1, h2⟩, h3⟩, h4⟩, h5⟩
    exact ⟨h1, fun x hx e => h2 x hx e.symm, fun x hx e => h3 x hx e.symm, h4, h5⟩
  · rintro ⟨h1, h2, h3, h4, h5⟩
    exact ⟨⟨⟨⟨h1, fun x hx e => h2 x hx e.symm⟩, fun x hx e => h3 x hx e.symm⟩, h4⟩, h5⟩

theorem path_components_eq (s : Str) (h : ∀ x ∈ s, x ≠ 0) :
    path_components s = (split_slash s).filter (fun c => !c.isEmpty) := by
  unfold path_components
  rw [c_str_of_no_nul s h]

theorem path_components_name (n : Str) (h : valid_name n = true) : path_components n = [n] := by
  obtain ⟨h1, h2, h3, _, _⟩ := (valid_name_iff n).mp h
  rw [path_components_eq n h3, split_slash_no_slash n h2]
  cases n with
  | nil => exact absurd rfl h1
  | cons c cs => rfl

theorem path_components_append_slash (a b : Str) (ha : ∀ x ∈ a, x ≠ 0) :
    path_components (a ++ ascii "/" ++ b) = path_components a ++ path_components b := by
  have e : a ++ ascii "/" ++ b = a ++ SLASH :: b := by simp [ascii_slash1]
  unfold path_components
  rw [e, c_str_append _ _ ha]
  have e2 : c_str (SLASH :: b) = SLASH :: c_str b := by
    unfold c_str
    simp [List.takeWhile_cons]
  rw [e2, split_slash_append, List.filter_append, c_str_of_no_nul a ha]

theorem path_components_snoc (a n : Str) (ha : ∀ x ∈ a, x ≠ 0) (hn : valid_name n = true) :
    path_components (a ++ ascii "/" ++ n) = path_components a ++ [n] := by
  rw [path_components_append_slash a n ha, path_components_name n hn]

theorem trailing_slash_snoc (a n : Str) (ha : ∀ x ∈ a, x ≠ 0) (hn : valid_name n = true) :
    trailing_slash (a ++ ascii "/" ++ n) = false := by
  obtain ⟨h1, h2, h3, _, _⟩ := (valid_name_iff n).mp hn
  have hall : ∀ x ∈ a ++ ascii "/" ++ n, x ≠ 0 := by
    intro x hx
    simp only [List.mem_append, ascii_slash1, List.mem_singleton] at hx
    rcases hx with (hx | hx) | hx
    · exact ha x hx
    · rw [hx]; decide
    · exact h3 x hx
  unfold trailing_slash
  rw [c_str_of_no_nul _ hall, List.getLast?_append_of_ne_nil _ h1]
  have hl := List.getLast_mem h1
  rw [List.getLast?_eq_getLast _ h1]
  simp only [beq_eq_false_iff_ne, ne_eq, Option.some.injEq]
  exact h2 _ hl

/-! ## Relative paths of entry names -/

theorem rel_of_snoc (ns : List Str) (n : Str) :
    rel_of (ns ++ [n]) = child_rel (rel_of ns) n := by
  simp [rel_of, List.foldl_append]

theorem rel_of_nil : rel_of [] = [] := rfl

theorem child_rel_props (rel n : Str) (hn : valid_name n = true)
    (hr : (∀ x ∈ rel, x ≠ 0) ∧ rel.head? ≠ some SLASH) :
    child_rel rel n ≠ [] ∧ (∀ x ∈ child_rel rel n, x ≠ 0) ∧
      (child_rel rel n).head? ≠ some SLASH := by
  obtain ⟨h1, h2, h3, _, _⟩ := (valid_name_iff n).mp hn
  unfold child_rel
  split_ifs with he
  · refine ⟨h1, h3, ?_⟩
    cases n with
    | nil => exact absurd rfl h1
    | cons c cs => simpa using h2 c (by simp)
  · refine ⟨by simp [he], ?_, ?_⟩
    · intro x hx
      simp only [List.mem_append, ascii_slash1, List.mem_singleton] at hx
      rcases hx with (hx | hx) | hx
      · exact hr.1 x hx
      · rw [hx]; decide
      · exact h3 x hx
    · cases rel with
      | nil => exact absurd rfl he
      | cons c cs => simpa using hr.2

theorem rel_of_props (ns : List Str) (h : ∀ n ∈ ns, valid_name n = true) :
    (∀ x ∈ rel_of ns, x ≠ 0) ∧ (rel_of ns).head? ≠ some SLASH ∧ (ns ≠ [] → rel_of ns ≠ []) ∧
      path_components (rel_of ns) = ns := by
  induction ns using List.reverseRecOn with
  | nil => simp [rel_of, path_components, c_str, split_slash]
  | append_singleton ms n ih =>
    have hms : ∀ m ∈ ms, valid_name m = true := fun m hm => h m (by simp [hm])
    have hn : valid_name n = true := h n (by simp)
    obtain ⟨i1, i2, i3, i4⟩ := ih hms
    obtain ⟨c1, c2, c3⟩ := child_rel_props (rel_of ms) n hn ⟨i1, i2⟩
    rw [rel_of_snoc]
    refine ⟨c2, c3, fun _ => c1, ?_⟩
    unfold child_rel
    split_ifs with he
    · have : ms = [] := by
        by_contra hne
        exact i3 hne he
      subst this
      simpa using path_components_name n hn
    · rw [path_components_snoc _ _ i1 hn, i4]

end Mirrormediad

namespace Mirrormediad

/-! ## Producer: the walk of the source tree -/

theorem tree_wf_dir (rd : Bool) (es : List (Str × Tree)) (h : (Tree.dir rd es).wf = true) :
    (es.map Prod.fst).Nodup ∧ ∀ n c, (n, c) ∈ es → valid_name n = true ∧ c.wf = true := by
  rw [Tree.wf] at h
  simp only [Bool.and_eq_true, decide_eq_true_eq] at h
  refine ⟨h.1, ?_⟩
  have h2 := h.2
  clear h
  induction es with
  | nil => intro n c hm; simp at hm
  | cons e r ih =>
    obtain ⟨m, t⟩ := e
    rw [Tree.wf.wf_list] at h2
    simp only [Bool.and_eq_true] at h2
    intro n c hm
    rcases List.mem_cons.mp hm with hm | hm
    · cases hm
      exact ⟨h2.1.1, h2.1.2⟩
    · exact ih h2.2 n c hm

theorem tree_readable_dir (rd : Bool) (es : List (Str × Tree))
    (h : (Tree.dir rd es).readable = true) :
    rd = true ∧ ∀ n c, (n, c) ∈ es → c.readable = true := by
  rw [Tree.readable] at h
  simp only [Bool.and_eq_true] at h
  refine ⟨h.1, ?_⟩
  have h2 := h.2
  clear h
  induction es with
  | nil => intro n c hm; simp at hm
  | cons e r ih =>
    obtain ⟨m, t⟩ := e
    rw [Tree.readable.readable_list] at h2
    simp only [Bool.and_eq_true] at h2
    intro n c hm
    rcases List.mem_cons.mp hm with hm | hm
    · cases hm
      exact h2.1
    · exact ih h2.2 n c hm

theorem lookup_of_mem_nodup (es : List (Str × Tree)) (n : Str) (c : Tree)
    (hnd : (es.map Prod.fst).Nodup) (hm : (n, c) ∈ es) : es.lookup n = some c := by
  induction es with
  | nil => simp at hm
  | cons e r ih =>
    obtain ⟨m, t⟩ := e
    simp only [List.map_cons, List.nodup_cons] at hnd
    rcases List.mem_cons.mp hm with h1 | h1
    · cases h1
      simp [List.lookup]
    · have hne : n ≠ m := by
        intro e
        rw [← e] at hnd
        exact hnd.1 (List.mem_map.mpr ⟨(n, c), h1, rfl⟩)
      have hb : (n == m) = false := by simpa using hne
      simp only [List.lookup, hb]
      exact ih hnd.2 h1

theorem join_path_name (dir n : Str) (hd : dir ≠ []) (hn : valid_name n = true) :
    join_path dir n = dir ++ ascii "/" ++ n := by
  obtain ⟨h1, h2, _, _, _⟩ := (valid_name_iff n).mp hn
  apply join_path_rel _ _ hd h1
  cases n with
  | nil => exact absurd rfl h1
  | cons c cs => simpa using h2 c (by simp)

/-- The directory string of the names `ns`: its properties. -/
theorem dir_path_props (base : Str) (ns : List Str) (hb : base ≠ []) (hb0 : ∀ x ∈ base, x ≠ 0)
    (hns : ∀ n ∈ ns, valid_name n = true) :
    dir_path base ns ≠ [] ∧ (∀ x ∈ dir_path base ns, x ≠ 0) ∧
      path_components (dir_path base ns) = path_components base ++ ns := by
  obtain ⟨r1, r2, r3, r4⟩ := rel_of_props ns hns
  unfold dir_path
  split_ifs with he
  · have : ns = [] := by
      by_contra hne
      exact r3 hne he
    subst this
    exact ⟨hb, hb0, by simp⟩
  · rw [join_path_rel _ _ hb he r2]
    refine ⟨by simp [hb], ?_, ?_⟩
    · intro x hx
      simp only [List.mem_append, ascii_slash1, List.mem_singleton] at hx
      rcases hx with (hx | hx) | hx
      · exact hb0 x hx
      · rw [hx]; decide
      · exact r1 x hx
    · rw [path_components_append_slash _ _ hb0, r4]

theorem dir_path_child (base : Str) (ns : List Str) (n : Str) (hb : base ≠ [])
    (hb0 : ∀ x ∈ base, x ≠ 0) (hns : ∀ m ∈ ns, valid_name m = true)
    (hn : valid_name n = true) :
    join_path (dir_path base ns) n = dir_path base (ns ++ [n]) := by
  obtain ⟨d1, _, _⟩ := dir_path_props base ns hb hb0 hns
  obtain ⟨r1, r2, r3, _⟩ := rel_of_props ns hns
  obtain ⟨c1, _, c3⟩ := child_rel_props (rel_of ns) n hn ⟨r1, r2⟩
  rw [join_path_name _ _ d1 hn]
  unfold dir_path
  rw [rel_of_snoc, if_neg c1, join_path_rel _ _ hb c1 c3]
  unfold child_rel
  split_ifs with he
  · rfl
  · rw [join_path_rel _ _ hb he r2]
    simp [List.append_assoc]

/-- Resolution of a path whose components walk to the stack `t :: up`. -/
theorem resolve_of_walk (root : Tree) (path : Str) (t : Tree) (up : List Tree)
    (hne : path ≠ []) (h0 : ∀ x ∈ path, x ≠ 0) (hts : trailing_slash path = false)
    (hw : (path_components path).foldl Tree.walk_step (some [root]) = some (t :: up)) :
    root.resolve path = some t := by
  unfold Tree.resolve
  rw [c_str_of_no_nul path h0, if_neg hne, hw]
  cases t with
  | dir rd es => rfl
  | file a b c d => simp [hts]
  | other => simp [hts]

theorem resolve_dir_of_walk (root : Tree) (path : Str) (rd : Bool) (es : List (Str × Tree))
    (up : List Tree) (hne : path ≠ []) (h0 : ∀ x ∈ path, x ≠ 0)
    (hw : (path_components path).foldl Tree.walk_step (some [root]) =
      some (Tree.dir rd es :: up)) :
    root.resolve path = some (Tree.dir rd es) := by
  unfold Tree.resolve
  rw [c_str_of_no_nul path h0, if_neg hne, hw]

theorem walk_step_child (rd : Bool) (es : List (Str × Tree)) (up : List Tree) (n : Str)
    (c : Tree) (hn : valid_name n = true) (hl : es.lookup n = some c) :
    Tree.walk_step (some (Tree.dir rd es :: up)) n = some (c :: Tree.dir rd es :: up) := by
  obtain ⟨_, _, _, h4, h5⟩ := (valid_name_iff n).mp hn
  simp [Tree.walk_step, h4, h5, hl]

/-- A child of a directory reached by the walk: the walk of the child path and its
resolution. -/
theorem resolve_child (root : Tree) (base : Str) (ns : List Str) (rd : Bool)
    (es : List (Str × Tree)) (up : List Tree) (n : Str) (c : Tree)
    (hb : base ≠ []) (hb0 : ∀ x ∈ base, x ≠ 0) (hns : ∀ m ∈ ns, valid_name m = true)
    (hw : (path_components base ++ ns).foldl Tree.walk_step (some [root]) =
      some (Tree.dir rd es :: up))
    (hn : valid_name n = true) (hl : es.lookup n = some c) :
    (path_components base ++ (ns ++ [n])).foldl Tree.walk_step (some [root]) =
      some (c :: Tree.dir rd es :: up) ∧
    root.resolve (join_path (dir_path base ns) n) = some c := by
  have hw2 : (path_components base ++ (ns ++ [n])).foldl Tree.walk_step (some [root]) =
      some (c :: Tree.dir rd es :: up) := by
    rw [← List.append_assoc, List.foldl_append, hw]
    exact walk_step_child rd es up n c hn hl
  refine ⟨hw2, ?_⟩
  obtain ⟨d1, d2, d3⟩ := dir_path_props base ns hb hb0 hns
  rw [join_path_name _ _ d1 hn]
  apply resolve_of_walk root _ c (Tree.dir rd es :: up)
  · simp [d1]
  · obtain ⟨_, _, h3, _, _⟩ := (valid_name_iff n).mp hn
    intro x hx
    simp only [List.mem_append, ascii_slash1, List.mem_singleton] at hx
    rcases hx with (hx | hx) | hx
    · exact d2 x hx
    · rw [hx]; decide
    · exact h3 x hx
  · exact trailing_slash_snoc _ _ d2 hn
  · rw [path_components_snoc _ _ d2 hn, d3, List.append_assoc]
    exact hw2

end Mirrormediad

namespace Mirrormediad

/-! ## Producer: the records written -/

theorem encode_all_append (a b : List Rec) : encode_all (a ++ b) = encode_all a ++ encode_all b := by
  induction a with
  | nil => rfl
  | cons r rs ih => simp [encode_all, ih]

theorem send_dir_eq (ns : List Str) : send_dir (rel_of ns) = (Rec.D ns).encode := rfl

theorem send_file_eq (root : Tree) (rel full : Str) (mode mtime : Nat) (data : Str)
    (hsz : data.length < 2 ^ 64)
    (hres : root.resolve full = some (Tree.file mode mtime true data)) :
    send_file root rel full =
      some (true, mm01_record 'F'.toNat rel (mode &&& 0o777) mtime data.length ++ data) := by
  unfold send_file Tree.lstat Tree.open_read
  simp only [hres, Bool.not_true, Bool.false_eq_true, if_false]
  rw [payload_loop_eq _ (by decide) _ _ _ _ (by omega), Nat.mod_eq_of_lt hsz]
  simp [mm01_record, w8, w16, w32, w64]

theorem sub_items_file (ns : List Str) (n : Str) (a b : Nat) (c : Bool) (d : Str)
    (r : List (Str × Tree)) (acc : List (List Str × Tree)) :
    sub_items ns ((n, Tree.file a b c d) :: r) acc = sub_items ns r acc := rfl

theorem sub_items_other (ns : List Str) (n : Str)
    (r : List (Str × Tree)) (acc : List (List Str × Tree)) :
    sub_items ns ((n, Tree.other) :: r) acc = sub_items ns r acc := rfl

theorem sub_items_dir (ns : List Str) (n : Str) (rd : Bool) (es : List (Str × Tree))
    (r : List (Str × Tree)) (acc : List (List Str × Tree)) :
    sub_items ns ((n, Tree.dir rd es) :: r) acc =
      sub_items ns r ((ns ++ [n], Tree.dir rd es) :: acc) := rfl

theorem push_dirs_file (rel : Str) (n : Str) (a b : Nat) (c : Bool) (d : Str)
    (r : List (Str × Tree)) (st : List Str) :
    push_dirs rel ((n, Tree.file a b c d) :: r) st = push_dirs rel r st := rfl

theorem push_dirs_other (rel : Str) (n : Str) (r : List (Str × Tree)) (st : List Str) :
    push_dirs rel ((n, Tree.other) :: r) st = push_dirs rel r st := rfl

theorem push_dirs_dir (rel : Str) (n : Str) (rd : Bool) (es : List (Str × Tree))
    (r : List (Str × Tree)) (st : List Str) :
    push_dirs rel ((n, Tree.dir rd es) :: r) st = push_dirs rel r (child_rel rel n :: st) := rfl

theorem file_records_file (ns : List Str) (n : Str) (a b : Nat) (c : Bool) (d : Str)
    (r : List (Str × Tree)) :
    file_records ns ((n, Tree.file a b c d) :: r) =
      Rec.F (ns ++ [n]) (a &&& 0o777) b d :: file_records ns r := rfl

theorem file_records_other (ns : List Str) (n : Str) (r : List (Str × Tree)) :
    file_records ns ((n, Tree.other) :: r) = file_records ns r := rfl

theorem file_records_dir (ns : List Str) (n : Str) (rd : Bool) (es : List (Str × Tree))
    (r : List (Str × Tree)) :
    file_records ns ((n, Tree.dir rd es) :: r) = file_records ns r := rfl

theorem subdir_records_cons (ns : List Str) (n : Str) (t : Tree) (r : List (Str × Tree)) :
    Tree.records.subdir_records ns ((n, t) :: r) =
      Tree.records.subdir_records ns r ++ Tree.records (ns ++ [n]) t := by
  rw [Tree.records.subdir_records]

theorem records_file (ns : List Str) (a b : Nat) (c : Bool) (d : Str) :
    Tree.records ns (Tree.file a b c d) = [] := by
  rw [Tree.records]
  all_goals intros; simp_all

theorem records_other (ns : List Str) : Tree.records ns Tree.other = [] := by
  rw [Tree.records]
  all_goals intros; simp_all

theorem records_dir (ns : List Str) (rd : Bool) (es : List (Str × Tree)) :
    Tree.records ns (Tree.dir rd es) =
      Rec.D ns :: (file_records ns es ++ Tree.records.subdir_records ns es) := by
  rw [Tree.records]

theorem ndirs_list_cons (n : Str) (t : Tree) (r : List (Str × Tree)) :
    Tree.ndirs.ndirs_list ((n, t) :: r) = t.ndirs + Tree.ndirs.ndirs_list r := by
  rw [Tree.ndirs.ndirs_list]

theorem ndirs_dir (rd : Bool) (es : List (Str × Tree)) :
    (Tree.dir rd es).ndirs = 1 + Tree.ndirs.ndirs_list es := by
  rw [Tree.ndirs]

theorem ndirs_file (a b : Nat) (c : Bool) (d : Str) : (Tree.file a b c d).ndirs = 0 := by
  rw [Tree.ndirs]

theorem ndirs_other : Tree.other.ndirs = 0 := by
  rw [Tree.ndirs]

theorem sub_items_records (ns : List Str) :
    ∀ (es : List (Str × Tree)) (acc : List (List Str × Tree)),
      items_records (sub_items ns es acc) =
        Tree.records.subdir_records ns es ++ items_records acc := by
  intro es
  induction es with
  | nil => intro acc; simp [sub_items, Tree.records.subdir_records]
  | cons e r ih =>
    intro acc
    obtain ⟨n, t⟩ := e
    cases t with
    | dir rd es2 =>
      rw [sub_items_dir, ih, subdir_records_cons]
      simp [items_records]
    | file a b c d =>
      rw [sub_items_file, ih, subdir_records_cons, records_file]
      simp
    | other =>
      rw [sub_items_other, ih, subdir_records_cons, records_other]
      simp

theorem sub_items_ndirs (ns : List Str) :
    ∀ (es : List (Str × Tree)) (acc : List (List Str × Tree)),
      items_ndirs (sub_items ns es acc) = Tree.ndirs.ndirs_list es + items_ndirs acc := by
  intro es
  induction es with
  | nil => intro acc; simp [sub_items, Tree.ndirs.ndirs_list]
  | cons e r ih =>
    intro acc
    obtain ⟨n, t⟩ := e
    cases t with
    | dir rd es2 =>
      rw [sub_items_dir, ih, ndirs_list_cons]
      simp only [items_ndirs]
      omega
    | file a b c d =>
      rw [sub_items_file, ih, ndirs_list_cons, ndirs_file]
      omega
    | other =>
      rw [sub_items_other, ih, ndirs_list_cons, ndirs_other]
      omega

theorem sub_items_map (ns : List Str) :
    ∀ (es : List (Str × Tree)) (acc : List (List Str × Tree)),
      (sub_items ns es acc).map (fun it => rel_of it.1) =
        push_dirs (rel_of ns) es (acc.map (fun it => rel_of it.1)) := by
  intro es
  induction es with
  | nil => intro acc; simp [sub_items, push_dirs]
  | cons e r ih =>
    intro acc
    obtain ⟨n, t⟩ := e
    cases t with
    | dir rd es2 =>
      rw [sub_items_dir, ih, push_dirs_dir]
      simp [rel_of_snoc]
    | file a b c d => rw [sub_items_file, ih, push_dirs_file]
    | other => rw [sub_items_other, ih, push_dirs_other]

theorem sub_items_mem (ns : List Str) (P : List Str × Tree → Prop) :
    ∀ (es : List (Str × Tree)) (acc : List (List Str × Tree)),
      (∀ it ∈ acc, P it) →
      (∀ n rd es2, (n, Tree.dir rd es2) ∈ es → P (ns ++ [n], Tree.dir rd es2)) →
      ∀ it ∈ sub_items ns es acc, P it := by
  intro es
  induction es with
  | nil => intro acc h1 _; simpa [sub_items] using h1
  | cons e r ih =>
    intro acc h1 h2
    obtain ⟨n, t⟩ := e
    have h2r : ∀ m rd es2, (m, Tree.dir rd es2) ∈ r → P (ns ++ [m], Tree.dir rd es2) :=
      fun m rd es2 hm => h2 m rd es2 (by simp [hm])
    cases t with
    | dir rd es2 =>
      rw [sub_items_dir]
      apply ih _ _ h2r
      intro it hit
      rcases List.mem_cons.mp hit with h | h
      · subst h; exact h2 n rd es2 (by simp)
      · exact h1 it h
    | file a b c d =>
      rw [sub_items_file]
      exact ih _ h1 h2r
    | other =>
      rw [sub_items_other]
      exact ih _ h1 h2r

end Mirrormediad

namespace Mirrormediad

/-! ## Producer: the loops -/

theorem dump_entries_skip_dots (root : Tree) (dir rel : Str) (names stack : List Str)
    (out : Str) :
    dump_entries root dir rel (ascii "." :: ascii ".." :: names) stack out =
      dump_entries root dir rel names stack out := by
  rw [dump_entries, if_pos (Or.inl rfl), dump_entries, if_pos (Or.inr rfl)]

/-- The `readdir` loop over well-formed, readable entries: every regular file is
written as an `F` record, every subdirectory is pushed. -/
theorem dump_entries_eq (root : Tree) (dir : Str) (ns : List Str) :
    ∀ (es : List (Str × Tree)) (stack : List Str) (out : Str),
      (∀ n c, (n, c) ∈ es → valid_name n = true ∧ root.resolve (join_path dir n) = some c ∧
        c.wf = true ∧ c.readable = true) →
      dump_entries root dir (rel_of ns) (es.map Prod.fst) stack out =
        some (true, push_dirs (rel_of ns) es stack, out ++ encode_all (file_records ns es)) := by
  intro es
  induction es with
  | nil => intro stack out _; simp [dump_entries, push_dirs, file_records, encode_all]
  | cons e r ih =>
    intro stack out h
    obtain ⟨n, t⟩ := e
    obtain ⟨hv, hres, hwf, hrd⟩ := h n t (by simp)
    have hr : ∀ m c, (m, c) ∈ r → valid_name m = true ∧
        root.resolve (join_path dir m) = some c ∧ c.wf = true ∧ c.readable = true :=
      fun m c hm => h m c (by simp [hm])
    obtain ⟨_, _, _, h4, h5⟩ := (valid_name_iff n).mp hv
    have hnd : ¬ (n = ascii "." ∨ n = ascii "..") := by
      rintro (e | e)
      · exact h4 e
      · exact h5 e
    simp only [List.map_cons]
    rw [dump_entries, if_neg hnd]
    cases t with
    | dir rd es2 =>
      simp only [Tree.lstat, hres, if_true]
      rw [ih _ _ hr, push_dirs_dir, file_records_dir]
    | file a b c d =>
      have hc : c = true := by simpa [Tree.readable] using hrd
      subst hc
      have hsz : d.length < 2 ^ 64 := by simpa [Tree.wf] using hwf
      simp only [Tree.lstat, hres, Bool.false_eq_true, if_false, if_true]
      rw [send_file_eq root _ _ a b d hsz hres]
      simp only
      rw [ih _ _ hr, push_dirs_file, file_records_file]
      simp [encode_all, Rec.encode, rel_of_snoc, List.append_assoc]
    | other =>
      simp only [Tree.lstat, hres, Bool.false_eq_true, if_false]
      rw [ih _ _ hr, push_dirs_other, file_records_other]

theorem items_ndirs_pos (it : List Str × Tree) (r : List (List Str × Tree))
    (h : ∃ rd es, it.2 = Tree.dir rd es) : 0 < items_ndirs (it :: r) := by
  obtain ⟨rd, es, he⟩ := h
  simp only [items_ndirs, he, ndirs_dir]
  omega

/-- The loop over the stack: with fuel for every directory below the stack, the
output is the records of the stacked directories, the top first. -/
theorem dump_loop_eq (root : Tree) (base : Str) (hb : base ≠ []) (hb0 : ∀ x ∈ base, x ≠ 0) :
    ∀ (fuel : Nat) (items : List (List Str × Tree)) (out : Str),
      (∀ it ∈ items, GoodItem root base it) → items_ndirs items ≤ fuel →
      dump_loop root base fuel (items.map (fun it => rel_of it.1)) out =
        some (true, out ++ encode_all (items_records items)) := by
  intro fuel
  induction fuel with
  | zero =>
    intro items out hg hf
    cases items with
    | nil => simp [dump_loop, items_records, encode_all]
    | cons it r =>
      have := items_ndirs_pos it r (hg it (by simp)).2.2.2.1
      omega
  | succ f ih =>
    intro items out hg hf
    cases items with
    | nil => simp [dump_loop, items_records, encode_all]
    | cons it r =>
      obtain ⟨ns, t⟩ := it
      obtain ⟨hns, hwf, hrd, ⟨rd, es, he⟩, up, hw⟩ := hg (ns, t) (by simp)
      simp only at hns hwf hrd he hw
      subst he
      obtain ⟨hrd1, hrd2⟩ := tree_readable_dir rd es hrd
      subst hrd1
      obtain ⟨hnd, hwf2⟩ := tree_wf_dir true es hwf
      obtain ⟨d1, d2, d3⟩ := dir_path_props base ns hb hb0 hns
      have hopen : root.opendir (dir_path base ns) =
          some (ascii "." :: ascii ".." :: es.map Prod.fst) := by
        unfold Tree.opendir
        rw [resolve_dir_of_walk root _ true es up d1 d2 (by rw [d3]; exact hw)]
      have hent : ∀ n c, (n, c) ∈ es → valid_name n = true ∧
          root.resolve (join_path (dir_path base ns) n) = some c ∧
          c.wf = true ∧ c.readable = true := by
        intro n c hm
        obtain ⟨hv, hcw⟩ := hwf2 n c hm
        exact ⟨hv, (resolve_child root base ns true es up n c hb hb0 hns hw hv
          (lookup_of_mem_nodup es n c hnd hm)).2, hcw, hrd2 n c hm⟩
      simp only [List.map_cons]
      rw [dump_loop]
      have hdp : (if rel_of ns = [] then base else join_path base (rel_of ns)) =
          dir_path base ns := rfl
      rw [hdp, hopen]
      dsimp only
      rw [dump_entries_skip_dots, dump_entries_eq root _ ns es _ _ hent]
      dsimp only
      rw [← sub_items_map, ih (sub_items ns es r)]
      · rw [sub_items_records, send_dir_eq]
        simp only [items_records, records_dir]
        simp [encode_all, encode_all_append, List.append_assoc]
      · apply sub_items_mem ns (GoodItem root base) es r
        · intro it hit
          exact hg it (by simp [hit])
        · intro n rd2 es2 hm
          obtain ⟨hv, hcw⟩ := hwf2 n _ hm
          refine ⟨?_, hcw, hrd2 n _ hm, ⟨rd2, es2, rfl⟩, _, (resolve_child root base ns true es up
            n _ hb hb0 hns hw hv (lookup_of_mem_nodup es n _ hnd hm)).1⟩
          intro m hm2
          rcases List.mem_append.mp hm2 with h | h
          · exact hns m h
          · simp only [List.mem_singleton] at h
            rw [h]; exact hv
      · rw [sub_items_ndirs]
        simp only [items_ndirs, ndirs_dir] at hf
        omega

end Mirrormediad

namespace Mirrormediad

/-! ## Producer: the whole output -/

theorem lookup_ndirs (es : List (Str × Tree)) (n : Str) (c : Tree)
    (h : es.lookup n = some c) : c.ndirs ≤ Tree.ndirs.ndirs_list es := by
  induction es with
  | nil => simp [List.lookup] at h
  | cons e r ih =>
    obtain ⟨m, t⟩ := e
    rw [ndirs_list_cons]
    by_cases hb : (n == m) = true
    · simp only [List.lookup, hb] at h
      cases h
      omega
    · have hb2 : (n == m) = false := by simpa using hb
      simp only [List.lookup, hb2] at h
      have := ih h
      omega

theorem walk_step_ndirs (bound : Nat) (st : List Tree) (comp : Str) (st2 : List Tree)
    (h : ∀ t ∈ st, t.ndirs ≤ bound) (hs : Tree.walk_step (some st) comp = some st2) :
    ∀ t ∈ st2, t.ndirs ≤ bound := by
  cases st with
  | nil => simp [Tree.walk_step] at hs
  | cons cur up =>
    cases cur with
    | file a b c d => simp [Tree.walk_step] at hs
    | other => simp [Tree.walk_step] at hs
    | dir rd es =>
      simp only [Tree.walk_step] at hs
      split_ifs at hs with h1 h2
      · cases hs; exact h
      · cases up with
        | nil => simp only at hs; cases hs; exact h
        | cons u us =>
          simp only at hs
          cases hs
          intro t ht
          exact h t (by simp [ht])
      · cases hl : es.lookup comp with
        | none => simp [hl] at hs
        | some c =>
          simp only [hl, Option.map_some', Option.some.injEq] at hs
          subst hs
          intro t ht
          rcases List.mem_cons.mp ht with e | e
          · subst e
            have h3 := lookup_ndirs es comp t hl
            have h4 := h (Tree.dir rd es) (by simp)
            rw [ndirs_dir] at h4
            omega
          · exact h t e

theorem walk_step_none (comp : Str) : Tree.walk_step none comp = none := rfl

theorem walk_none (comps : List Str) : comps.foldl Tree.walk_step none = none := by
  induction comps with
  | nil => rfl
  | cons c cs ih => simpa [List.foldl, walk_step_none] using ih

theorem walk_ndirs (bound : Nat) :
    ∀ (comps : List Str) (st st2 : List Tree), (∀ t ∈ st, t.ndirs ≤ bound) →
      comps.foldl Tree.walk_step (some st) = some st2 → ∀ t ∈ st2, t.ndirs ≤ bound := by
  intro comps
  induction comps with
  | nil =>
    intro st st2 h hs
    simp only [List.foldl, Option.some.injEq] at hs
    subst hs
    exact h
  | cons c cs ih =>
    intro st st2 h hs
    simp only [List.foldl] at hs
    cases hw : Tree.walk_step (some st) c with
    | none =>
      rw [hw, walk_none] at hs
      cases hs
    | some st1 =>
      rw [hw] at hs
      exact ih st1 st2 (walk_step_ndirs bound st c st1 h hw) hs

theorem resolve_dir_walk (root : Tree) (path : Str) (rd : Bool) (es : List (Str × Tree))
    (h : root.resolve path = some (Tree.dir rd es)) :
    ∃ up, (path_components path).foldl Tree.walk_step (some [root]) =
      some (Tree.dir rd es :: up) := by
  unfold Tree.resolve at h
  by_cases hc : c_str path = []
  · simp [hc] at h
  rw [if_neg hc] at h
  cases hf : (path_components path).foldl Tree.walk_step (some [root]) with
  | none => simp [hf] at h
  | some st =>
    cases st with
    | nil => simp [hf] at h
    | cons t up =>
      cases t with
      | dir rd2 es2 =>
        simp only [hf, Option.some.injEq] at h
        rw [h]
        exact ⟨up, rfl⟩
      | file a b c d =>
        simp only [hf] at h
        split_ifs at h
        cases h
      | other =>
        simp only [hf] at h
        split_ifs at h
        cases h

theorem base_dir_props (logical : Str) (r : Str × Str)
    (h : logical_to_real_root logical = some r) (h0 : ∀ x ∈ logical, x ≠ 0) :
    base_dir_of r ≠ [] ∧ ∀ x ∈ base_dir_of r, x ≠ 0 := by
  obtain ⟨r1, r2⟩ := r
  have hr1 : r1 ≠ [] ∧ ∀ x ∈ r1, x ≠ 0 := by
    rcases resolver_roots _ _ _ h with e | e <;> rw [e] <;> decide
  have hr2 : ∀ x ∈ r2, x ≠ 0 := by
    unfold logical_to_real_root at h
    simp only at h
    split_ifs at h <;> simp only [Option.some.injEq, Prod.mk.injEq] at h <;>
      intro x hx <;> rw [← h.2] at hx
    · simp at hx
    · exact h0 x (List.mem_of_mem_drop hx)
    · simp at hx
    · exact h0 x (List.mem_of_mem_drop hx)
  unfold base_dir_of
  simp only
  by_cases h2 : r2 = []
  · rw [if_pos h2]
    exact hr1
  · rw [if_neg h2]
    unfold join_path
    rw [if_neg hr1.1, if_neg h2]
    split_ifs
    · refine ⟨by simp [hr1.1], ?_⟩
      intro x hx
      rcases List.mem_append.mp hx with e | e
      · exact hr1.2 x e
      · exact hr2 x e
    · refine ⟨by simp [hr1.1], ?_⟩
      intro x hx
      simp only [List.mem_append, ascii_slash1, List.mem_singleton] at hx
      rcases hx with (e | e) | e
      · exact hr1.2 x e
      · rw [e]; decide
      · exact hr2 x e

theorem end_record_eq : w8 'E'.toNat ++ w16 0 ++ w32 0 ++ w64 0 ++ w64 0 = mm01_end := by
  decide

/-- The output of the producer on a well-formed, readable directory. -/
theorem dump_tree_to_fd_eq (root : Tree) (logical_src : Str) (r : Str × Str)
    (es : List (Str × Tree))
    (hres : logical_to_real_root logical_src = some r)
    (h0 : ∀ x ∈ logical_src, x ≠ 0)
    (hbase : root.resolve (base_dir_of r) = some (Tree.dir true es))
    (hwf : (Tree.dir true es).wf = true) (hrd : (Tree.dir true es).readable = true) :
    dump_tree_to_fd root logical_src =
      some (true, ascii "MM01" ++ encode_all (Tree.records [] (Tree.dir true es)) ++
        mm01_end) := by
  obtain ⟨hb, hb0⟩ := base_dir_props logical_src r hres h0
  obtain ⟨up, hw⟩ := resolve_dir_walk root _ true es hbase
  have hn : (Tree.dir true es).ndirs ≤ root.ndirs :=
    walk_ndirs root.ndirs _ [root] _ (by simp) hw (Tree.dir true es) (by simp)
  have hloop := dump_loop_eq root (base_dir_of r) hb hb0 (root.ndirs + 1)
    [([], Tree.dir true es)] (ascii "MM01")
    (by
      intro it hit
      simp only [List.mem_singleton] at hit
      subst hit
      exact ⟨by simp, hwf, hrd, ⟨true, es, rfl⟩, up, by simpa using hw⟩)
    (by simp only [items_ndirs]; omega)
  simp only [List.map_cons, List.map_nil, rel_of_nil, items_records, List.append_nil] at hloop
  unfold dump_tree_to_fd
  rw [hres]
  simp only
  rw [hloop]
  simp only [List.append_assoc, Option.some.injEq, Prod.mk.injEq, true_and]
  rw [← end_record_eq]
  simp [List.append_assoc]

end Mirrormediad

namespace Mirrormediad

/-! ## Destination filesystem: system calls on canonical paths -/

theorem set_node (fs : FS) (p : List Str) (v : Inode) (q : List Str) :
    (fs.set p v).node q = if q = p then some v else fs.node q := rfl

theorem set_umask (fs : FS) (p : List Str) (v : Inode) : (fs.set p v).umask = fs.umask := rfl

theorem is_dir_iff (fs : FS) (p : List Str) :
    fs.is_dir p = true ↔ ∃ m u g, fs.node p = some (Inode.dir m u g) := by
  unfold FS.is_dir
  cases h : fs.node p with
  | none => simp
  | some v =>
    cases v with
    | dir m u g => simp
    | file m u g d => simp

theorem abs_of_append (a b : List Str) : abs_of (a ++ b) = abs_of a ++ abs_of b := by
  induction a with
  | nil => rfl
  | cons c cs ih => simp [abs_of, ih, List.append_assoc]

theorem abs_of_snoc (a : List Str) (c : Str) : abs_of (a ++ [c]) = abs_of a ++ ascii "/" ++ c := by
  rw [abs_of_append]
  simp [abs_of, List.append_assoc]

theorem abs_of_no_nul (cs : List Str) (h : ∀ c ∈ cs, valid_name c = true) :
    ∀ x ∈ abs_of cs, x ≠ 0 := by
  induction cs with
  | nil => intro x hx; simp [abs_of] at hx
  | cons c r ih =>
    intro x hx
    obtain ⟨_, _, h3, _, _⟩ := (valid_name_iff c).mp (h c (by simp))
    simp only [abs_of, List.mem_append, ascii_slash1, List.mem_singleton] at hx
    rcases hx with (e | e) | e
    · rw [e]; decide
    · exact h3 x e
    · exact ih (fun d hd => h d (by simp [hd])) x e

theorem abs_of_ne_nil (cs : List Str) (h : cs ≠ []) : abs_of cs ≠ [] := by
  cases cs with
  | nil => exact absurd rfl h
  | cons c r => simp [abs_of, ascii_slash1]

theorem abs_of_components (cs : List Str) (h : ∀ c ∈ cs, valid_name c = true) :
    path_components (abs_of cs) = cs := by
  induction cs using List.reverseRecOn with
  | nil => simp [abs_of, path_components, c_str, split_slash]
  | append_singleton r c ih =>
    have hr : ∀ d ∈ r, valid_name d = true := fun d hd => h d (by simp [hd])
    rw [abs_of_snoc, path_components_snoc _ _ (abs_of_no_nul r hr) (h c (by simp)), ih hr]

theorem exists_snoc {α : Type} (cs : List α) (h : cs ≠ []) : ∃ r c, cs = r ++ [c] :=
  ⟨cs.dropLast, cs.getLast h, (List.dropLast_append_getLast h).symm⟩

theorem abs_of_trailing (cs : List Str) (h : ∀ c ∈ cs, valid_name c = true) (hne : cs ≠ []) :
    trailing_slash (abs_of cs) = false := by
  obtain ⟨r, c, rfl⟩ := exists_snoc cs hne
  have hr : ∀ d ∈ r, valid_name d = true := fun d hd => h d (by simp [hd])
  rw [abs_of_snoc]
  exact trailing_slash_snoc _ _ (abs_of_no_nul r hr) (h c (by simp))

theorem abs_of_last_not_dot (cs : List Str) (h : ∀ c ∈ cs, valid_name c = true) :
    FS.last_is_dot (abs_of cs) = false := by
  unfold FS.last_is_dot
  rw [abs_of_components cs h]
  cases hl : cs.getLast? with
  | none => rfl
  | some c =>
    have hm : c ∈ cs := List.mem_of_getLast?_eq_some hl
    obtain ⟨_, _, _, h4, h5⟩ := (valid_name_iff c).mp (h c hm)
    simp [h4, h5]

theorem c_str_abs_of (cs : List Str) (h : ∀ c ∈ cs, valid_name c = true) (hne : cs ≠ []) :
    c_str (abs_of cs) ≠ [] := by
  rw [c_str_of_no_nul _ (abs_of_no_nul cs h)]
  exact abs_of_ne_nil cs hne

/-- Walking valid names through existing directories appends them. -/
theorem fs_walk_from (fs : FS) :
    ∀ (comps pre : List Str), (∀ c ∈ comps, valid_name c = true) →
      (∀ k, k < comps.length → fs.is_dir (pre ++ comps.take k) = true) →
      comps.foldl fs.walk_step (some pre) = some (pre ++ comps) := by
  intro comps
  induction comps with
  | nil => intro pre _ _; simp
  | cons c r ih =>
    intro pre hv hd
    obtain ⟨_, _, _, h4, h5⟩ := (valid_name_iff c).mp (hv c (by simp))
    have h0 : fs.is_dir pre = true := by simpa using hd 0 (by simp)
    simp only [List.foldl, FS.walk_step, h0, if_true, h4, h5, if_false]
    rw [ih (pre ++ [c]) (fun d hd2 => hv d (by simp [hd2]))]
    · simp
    · intro k hk
      have := hd (k + 1) (by simp; omega)
      simpa using this

theorem fs_walk_abs (fs : FS) (cs : List Str) (hv : ∀ c ∈ cs, valid_name c = true)
    (hc : chain_ok fs cs) : fs.walk (path_components (abs_of cs)) = some cs := by
  rw [abs_of_components cs hv]
  unfold FS.walk
  have := fs_walk_from fs cs [] hv (by simpa [chain_ok] using hc)
  simpa using this

theorem mkdir_exists (fs : FS) (cs : List Str) (mode : Nat)
    (hv : ∀ c ∈ cs, valid_name c = true) (hne : cs ≠ []) (hc : chain_ok fs cs)
    (he : (fs.node cs).isSome = true) : fs.mkdir (abs_of cs) mode = (Errno.EEXIST, fs) := by
  unfold FS.mkdir
  rw [if_neg (c_str_abs_of cs hv hne), fs_walk_abs fs cs hv hc]
  simp [he]

theorem mkdir_new (fs : FS) (cs : List Str) (mode : Nat)
    (hv : ∀ c ∈ cs, valid_name c = true) (hne : cs ≠ []) (hc : chain_ok fs cs)
    (he : fs.node cs = none) :
    fs.mkdir (abs_of cs) mode = (Errno.OK, fs.set cs (Inode.dir (fs.create_mode mode) 0 0)) := by
  unfold FS.mkdir
  rw [if_neg (c_str_abs_of cs hv hne), fs_walk_abs fs cs hv hc]
  simp [he, abs_of_last_not_dot cs hv]

theorem lookup_path_abs (fs : FS) (cs : List Str) (hv : ∀ c ∈ cs, valid_name c = true)
    (hne : cs ≠ []) (hc : chain_ok fs cs) (he : (fs.node cs).isSome = true) :
    fs.lookup_path (abs_of cs) = some cs := by
  unfold FS.lookup_path
  rw [if_neg (c_str_abs_of cs hv hne), fs_walk_abs fs cs hv hc]
  cases hn : fs.node cs with
  | none => simp [hn] at he
  | some v =>
    cases v with
    | dir m u g => simp [hn]
    | file m u g d => simp [hn, abs_of_trailing cs hv hne]

theorem chown_dir (fs : FS) (cs : List Str) (m u g uid gid : Nat)
    (hv : ∀ c ∈ cs, valid_name c = true) (hne : cs ≠ []) (hc : chain_ok fs cs)
    (he : fs.node cs = some (Inode.dir m u g)) :
    fs.chown (abs_of cs) uid gid = fs.set cs (Inode.dir m uid gid) := by
  unfold FS.chown
  rw [lookup_path_abs fs cs hv hne hc (by simp [he])]
  simp [he]

theorem chmod_dir (fs : FS) (cs : List Str) (m u g mode : Nat)
    (hv : ∀ c ∈ cs, valid_name c = true) (hne : cs ≠ []) (hc : chain_ok fs cs)
    (he : fs.node cs = some (Inode.dir m u g)) :
    fs.chmod (abs_of cs) mode = fs.set cs (Inode.dir (mode &&& 0o7777) u g) := by
  unfold FS.chmod
  rw [lookup_path_abs fs cs hv hne hc (by simp [he])]
  simp [he]

theorem open_create_new (fs : FS) (cs : List Str) (mode : Nat)
    (hv : ∀ c ∈ cs, valid_name c = true) (hne : cs ≠ []) (hc : chain_ok fs cs)
    (he : fs.node cs = none) :
    fs.open_create (abs_of cs) mode =
      (some cs, fs.set cs (Inode.file (fs.create_mode mode) 0 0 [])) := by
  unfold FS.open_create
  rw [if_neg (c_str_abs_of cs hv hne), abs_of_trailing cs hv hne, abs_of_last_not_dot cs hv,
    fs_walk_abs fs cs hv hc]
  simp [he, abs_of_components cs hv, hne]

theorem chain_ok_set (fs : FS) (p q : List Str) (v : Inode) (hc : chain_ok fs p)
    (hq : ∀ k, k < p.length → p.take k ≠ q) : chain_ok (fs.set q v) p := by
  intro k hk
  have := hc k hk
  unfold FS.is_dir at *
  rw [set_node, if_neg (hq k hk)]
  exact this

theorem take_ne_of_length_le (p q : List Str) (k : Nat) (hk : k < p.length)
    (hl : p.length ≤ q.length) : p.take k ≠ q := by
  intro e
  have := congrArg List.length e
  simp at this
  omega

end Mirrormediad

namespace Mirrormediad

/-! ## `ensure_dir_all` on canonical paths -/

theorem ensure_dir_scan_name (P : Str) (mode : Nat) (fs : FS) :
    ∀ (n pre rest : Str), (∀ x ∈ n, x ≠ SLASH) →
      ensure_dir_scan P mode pre (n ++ rest) fs = ensure_dir_scan P mode (pre ++ n) rest fs := by
  intro n
  induction n with
  | nil => intro pre rest _; simp
  | cons x xs ih =>
    intro pre rest h
    have hx : x ≠ SLASH := h x (by simp)
    simp only [List.cons_append]
    rw [ensure_dir_scan, if_neg hx, ih _ _ (fun y hy => h y (by simp [hy]))]
    simp

theorem is_dir_set_self (fs : FS) (p : List Str) (m u g : Nat) :
    (fs.set p (Inode.dir m u g)).is_dir p = true := by
  simp [FS.is_dir, set_node]

theorem is_dir_set_ne (fs : FS) (p q : List Str) (v : Inode) (h : q ≠ p) :
    (fs.set p v).is_dir q = fs.is_dir q := by
  simp [FS.is_dir, set_node, h]

theorem chain_snoc (fs : FS) (donec : List Str) (c : Str)
    (h : ∀ k, k ≤ donec.length → fs.is_dir (donec.take k) = true) :
    chain_ok fs (donec ++ [c]) := by
  intro k hk
  simp only [List.length_append, List.length_singleton] at hk
  rw [List.take_append_of_le_length (by omega)]
  exact h k (by omega)

/-- The scan of `ensure_dir_all` over the components `c :: rem` below `donec`:
every component that is missing is created, the others are left alone. -/
theorem ensure_dir_scan_chain (P : Str) (mode : Nat) :
    ∀ (rem donec : List Str) (c : Str) (fs : FS),
      P = abs_of (donec ++ c :: rem) →
      (∀ d ∈ donec ++ c :: rem, valid_name d = true) →
      (∀ k, k ≤ donec.length → fs.is_dir (donec.take k) = true) →
      (∀ j, j < rem.length → (fs.node (donec ++ c :: rem.take j)).isSome = true →
        fs.is_dir (donec ++ c :: rem.take j) = true) →
      ensure_dir_scan P mode (abs_of donec ++ ascii "/") (c ++ abs_of rem) fs =
        (true, mk_chain mode donec (c :: rem) fs) := by
  intro rem
  induction rem with
  | nil =>
    intro donec c fs hP hv hch _
    have hvc : valid_name c = true := hv c (by simp)
    obtain ⟨_, hc2, _, _, _⟩ := (valid_name_iff c).mp hvc
    have hv2 : ∀ d ∈ donec ++ [c], valid_name d = true := hv
    rw [ensure_dir_scan_name P mode fs c _ _ hc2]
    simp only [abs_of]
    rw [ensure_dir_scan]
    have hPne : P ≠ [] := by rw [hP]; exact abs_of_ne_nil _ (by simp)
    rw [if_pos hPne, hP]
    simp only [mk_chain]
    by_cases he : (fs.node (donec ++ [c])).isSome = true
    · rw [mkdir_exists fs _ mode hv2 (by simp) (chain_snoc fs donec c hch) he]
      simp [he]
    · have hn : fs.node (donec ++ [c]) = none := by simpa using he
      rw [mkdir_new fs _ mode hv2 (by simp) (chain_snoc fs donec c hch) hn]
      simp [hn]
  | cons d rem2 ih =>
    intro donec c fs hP hv hch hdeep
    have hvc : valid_name c = true := hv c (by simp)
    obtain ⟨_, hc2, _, _, _⟩ := (valid_name_iff c).mp hvc
    have hv2 : ∀ e ∈ donec ++ [c], valid_name e = true := by
      intro e he
      apply hv e
      simp only [List.mem_append, List.mem_singleton, List.mem_cons] at he ⊢
      tauto
    rw [ensure_dir_scan_name P mode fs c _ _ hc2]
    have e1 : abs_of (d :: rem2) = SLASH :: (d ++ abs_of rem2) := by
      simp [abs_of, ascii_slash1]
    have e2 : abs_of donec ++ ascii "/" ++ c = abs_of (donec ++ [c]) := (abs_of_snoc _ _).symm
    rw [e1, e2, ensure_dir_scan, if_pos rfl, if_pos (abs_of_ne_nil _ (by simp))]
    have e3 : abs_of (donec ++ [c]) ++ [SLASH] = abs_of (donec ++ [c]) ++ ascii "/" := by
      rw [ascii_slash1]
    have hP2 : P = abs_of ((donec ++ [c]) ++ d :: rem2) := by
      rw [hP]; simp
    have hv3 : ∀ e ∈ (donec ++ [c]) ++ d :: rem2, valid_name e = true := by
      intro e he
      apply hv e
      simpa using he
    simp only [mk_chain]
    by_cases he : (fs.node (donec ++ [c])).isSome = true
    · rw [mkdir_exists fs _ mode hv2 (by simp) (chain_snoc fs donec c hch) he]
      simp only [he, if_true]
      rw [e3, ih (donec ++ [c]) d fs hP2 hv3]
      · simp [mk_chain]
      · intro k hk
        simp only [List.length_append, List.length_singleton] at hk
        by_cases hk2 : k ≤ donec.length
        · rw [List.take_append_of_le_length hk2]
          exact hch k hk2
        · have : k = donec.length + 1 := by omega
          subst this
          have h0 := hdeep 0 (by simp) (by simpa using he)
          have e4 : (donec ++ [c]).take (donec.length + 1) = donec ++ [c] := by
            apply List.take_of_length_le
            simp
          rw [e4]
          simpa using h0
      · intro j hj hs
        have := hdeep (j + 1) (by simp; omega)
        simp only [List.take_succ_cons] at this
        simp only [List.append_assoc, List.singleton_append] at hs ⊢
        exact this hs
    · have hn : fs.node (donec ++ [c]) = none := by simpa using he
      rw [mkdir_new fs _ mode hv2 (by simp) (chain_snoc fs donec c hch) hn]
      simp only [hn, Option.isSome_none, Bool.false_eq_true, if_false]
      rw [e3, ih (donec ++ [c]) d _ hP2 hv3]
      · simp [mk_chain]
      · intro k hk
        simp only [List.length_append, List.length_singleton] at hk
        by_cases hk2 : k ≤ donec.length
        · rw [List.take_append_of_le_length hk2, is_dir_set_ne]
          · exact hch k hk2
          · intro e
            have := congrArg List.length e
            simp at this
            omega
        · have : k = donec.length + 1 := by omega
          subst this
          have e4 : (donec ++ [c]).take (donec.length + 1) = donec ++ [c] := by
            apply List.take_of_length_le
            simp
          rw [e4]
          exact is_dir_set_self _ _ _ _ _
      · intro j hj hs
        have hne : donec ++ [c] ++ d :: rem2.take j ≠ donec ++ [c] := by
          intro e
          have := congrArg List.length e
          simp at this
        rw [is_dir_set_ne _ _ _ _ hne]
        rw [set_node, if_neg hne] at hs
        have := hdeep (j + 1) (by simp; omega)
        simp only [List.take_succ_cons] at this
        simp only [List.append_assoc, List.singleton_append] at hs ⊢
        exact this hs

/-- `ensure_dir_all` on a canonical path whose existing ancestors are directories. -/
theorem ensure_dir_all_chain (cs : List Str) (mode : Nat) (fs : FS) (hne : cs ≠ [])
    (hv : ∀ d ∈ cs, valid_name d = true) (hroot : fs.is_dir [] = true)
    (hdeep : ∀ k, 0 < k → k < cs.length → (fs.node (cs.take k)).isSome = true →
      fs.is_dir (cs.take k) = true) :
    ensure_dir_all (abs_of cs) mode fs = (true, mk_chain mode [] cs fs) := by
  obtain ⟨c, rem, rfl⟩ := List.exists_cons_of_ne_nil hne
  unfold ensure_dir_all
  have h1 : abs_of (c :: rem) = SLASH :: (c ++ abs_of rem) := by simp [abs_of, ascii_slash1]
  rw [h1]
  simp only [reduceCtorEq, if_false, List.head?_cons, ne_eq, not_true_eq_false,
    List.take_succ_cons, List.take_zero, List.drop_succ_cons, List.drop_zero]
  rw [← h1]
  have := ensure_dir_scan_chain (abs_of (c :: rem)) mode rem [] c fs (by simp) (by simpa using hv)
    (by intro k hk; simpa using hroot)
    (by
      intro j hj hs
      have := hdeep (j + 1) (by omega) (by simp; omega)
      simp only [List.take_succ_cons, List.nil_append] at this hs ⊢
      exact this hs)
  simpa [abs_of, ascii_slash1] using this

end Mirrormediad

namespace Mirrormediad

/-! ## Relative paths: sanitizing and parents -/

theorem collapse_runs_id (s : Str) (h : str_find [SLASH, SLASH] s = none) :
    collapse_runs s = s := by
  induction s with
  | nil => rfl
  | cons c cs ih =>
    rw [str_find_pair_cons] at h
    split_ifs at h with hc
    have hcs : str_find [SLASH, SLASH] cs = none := by
      cases hg : str_find [SLASH, SLASH] cs <;> simp [hg] at h
      rfl
    rw [collapse_runs_cons, if_neg hc, ih hcs]

theorem strip_leading_id (s : Str) (h : s.head? ≠ some SLASH) : strip_leading s = s := by
  cases s with
  | nil => rfl
  | cons c cs =>
    have : c ≠ SLASH := by simpa using h
    simp [strip_leading, this]

/-- No occurrence of the pair in an append: none in the parts, none across the seam. -/
theorem str_find_pair_append (x y : Nat) :
    ∀ (a b : Str), str_find [x, y] a = none → str_find [x, y] b = none →
      ¬ (a.getLast? = some x ∧ b.head? = some y) → str_find [x, y] (a ++ b) = none := by
  intro a
  induction a with
  | nil => intro b _ hb _; simpa using hb
  | cons c cs ih =>
    intro b ha hb hseam
    rw [str_find_pair_cons] at ha
    split_ifs at ha with hc
    have hcs : str_find [x, y] cs = none := by
      cases hg : str_find [x, y] cs <;> simp [hg] at ha
      rfl
    simp only [List.cons_append]
    rw [str_find_pair_cons]
    have hnew : ¬ (c = x ∧ (cs ++ b).head? = some y) := by
      rintro ⟨h1, h2⟩
      cases cs with
      | nil =>
        simp only [List.nil_append] at h2
        exact hseam ⟨by simp [h1], h2⟩
      | cons d ds =>
        simp only [List.cons_append, List.head?_cons] at h2
        exact hc ⟨h1, by simpa using h2⟩
    rw [if_neg hnew, ih b hcs hb]
    · rfl
    · rintro ⟨h1, h2⟩
      apply hseam
      refine ⟨?_, h2⟩
      cases cs with
      | nil => simp at h1
      | cons d ds => simpa [List.getLast?_cons_cons] using h1

theorem clean_name_iff (n : Str) :
    clean_name n = true ↔ valid_name n = true ∧ str_find [DOT, DOT] n = none := by
  unfold clean_name
  rw [ascii_dot2]
  simp [Option.isNone_iff_eq_none]

theorem name_no_slash2 (n : Str) (h : valid_name n = true) :
    str_find [SLASH, SLASH] n = none := by
  obtain ⟨_, h2, _, _, _⟩ := (valid_name_iff n).mp h
  rw [← ascii_slash2, str_find_none_iff]
  rintro ⟨a, b, e⟩
  exact h2 SLASH (by rw [e, ascii_slash2]; simp) rfl

/-- The relative path of clean names has no `//`, no `..` and does not end with a
separator. -/
theorem rel_of_clean (ns : List Str) (h : ∀ n ∈ ns, clean_name n = true) :
    str_find [SLASH, SLASH] (rel_of ns) = none ∧ str_find [DOT, DOT] (rel_of ns) = none ∧
      (rel_of ns).getLast? ≠ some SLASH := by
  induction ns using List.reverseRecOn with
  | nil => simp [rel_of, str_find]
  | append_singleton ms n ih =>
    obtain ⟨i1, i2, i3⟩ := ih (fun m hm => h m (by simp [hm]))
    obtain ⟨hv, hd⟩ := (clean_name_iff n).mp (h n (by simp))
    obtain ⟨hne, hs, _, _, _⟩ := (valid_name_iff n).mp hv
    have hlast : n.getLast? ≠ some SLASH := by
      rw [List.getLast?_eq_getLast _ hne]
      simp only [ne_eq, Option.some.injEq]
      exact hs _ (List.getLast_mem hne)
    have hhead : n.head? ≠ some SLASH := by
      cases n with
      | nil => exact absurd rfl hne
      | cons c cs => simpa using hs c (by simp)
    rw [rel_of_snoc]
    unfold child_rel
    split_ifs with he
    · exact ⟨name_no_slash2 n hv, hd, hlast⟩
    · have hseam : (rel_of ms ++ ascii "/").getLast? = some SLASH := by
        rw [ascii_slash1]; simp
      refine ⟨?_, ?_, ?_⟩
      · apply str_find_pair_append _ _ _ _ _ (name_no_slash2 n hv)
        · rintro ⟨_, h2⟩; exact hhead h2
        · apply str_find_pair_append _ _ _ _ i1 (by decide)
          rintro ⟨h1, _⟩; exact i3 h1
      · apply str_find_pair_append _ _ _ _ _ hd
        · rintro ⟨h1, _⟩
          rw [hseam] at h1
          simp at h1
        · apply str_find_pair_append _ _ _ _ i2 (by decide)
          rintro ⟨_, h2⟩
          rw [ascii_slash1] at h2
          simp at h2
      · rw [List.getLast?_append_of_ne_nil _ hne]
        exact hlast

theorem clean_valid (ns : List Str) (h : ∀ n ∈ ns, clean_name n = true) :
    ∀ n ∈ ns, valid_name n = true :=
  fun n hn => ((clean_name_iff n).mp (h n hn)).1

/-- `sanitize_rel` accepts the relative path of clean names and leaves it as it is. -/
theorem sanitize_rel_clean (ns : List Str) (h : ∀ n ∈ ns, clean_name n = true) :
    sanitize_rel (rel_of ns) = some (true, rel_of ns) := by
  obtain ⟨c1, c2, _⟩ := rel_of_clean ns h
  obtain ⟨_, r2, _, _⟩ := rel_of_props ns (clean_valid ns h)
  rw [sanitize_rel_eq, ascii_dot2, c2, strip_leading_id _ r2, collapse_runs_id _ c1]
  rfl

theorem slash_rel_of (ns : List Str) (h : ∀ n ∈ ns, valid_name n = true) (hne : ns ≠ []) :
    ascii "/" ++ rel_of ns = abs_of ns := by
  induction ns using List.reverseRecOn with
  | nil => exact absurd rfl hne
  | append_singleton ms n ih =>
    have hms : ∀ m ∈ ms, valid_name m = true := fun m hm => h m (by simp [hm])
    obtain ⟨_, _, r3, _⟩ := rel_of_props ms hms
    rw [rel_of_snoc, abs_of_snoc]
    unfold child_rel
    split_ifs with he
    · have : ms = [] := by
        by_contra hc
        exact r3 hc he
      subst this
      simp [abs_of]
    · have : ms ≠ [] := by
        intro e
        subst e
        exact he rfl
      rw [← ih hms this]
      simp [List.append_assoc]

/-- Line 912 on the relative path of the names `ns` under the root `abs_of Rc`. -/
theorem restore_out_path_abs (Rc ns : List Str) (hR : Rc ≠ [])
    (h : ∀ n ∈ ns, valid_name n = true) :
    restore_out_path (abs_of Rc) (rel_of ns) = abs_of (Rc ++ ns) := by
  obtain ⟨_, r2, r3, _⟩ := rel_of_props ns h
  unfold restore_out_path
  split_ifs with he
  · have : ns = [] := by
      by_contra hc
      exact r3 hc he
    subst this
    simp
  · have hne : ns ≠ [] := by
      intro e
      subst e
      exact he rfl
    rw [join_path_rel _ _ (abs_of_ne_nil Rc hR) he r2, abs_of_append, ← slash_rel_of ns h hne]
    simp [List.append_assoc]

theorem str_rfind_char_append (x : Nat) :
    ∀ (a b : Str), (∀ y ∈ b, y ≠ x) → str_rfind_char x (a ++ x :: b) = some a.length := by
  have hb : ∀ b : Str, (∀ y ∈ b, y ≠ x) → str_rfind_char x b = none := by
    intro b
    induction b with
    | nil => intro _; rfl
    | cons c cs ih =>
      intro h
      rw [str_rfind_char, ih (fun y hy => h y (by simp [hy]))]
      simp [h c (by simp)]
  intro a
  induction a with
  | nil =>
    intro b h
    simp only [List.nil_append, List.length_nil]
    rw [str_rfind_char, hb b h]
    simp
  | cons c cs ih =>
    intro b h
    simp only [List.cons_append, List.length_cons]
    rw [str_rfind_char, ih b h]

/-- `dirname_of` of a canonical path with at least two components. -/
theorem dirname_of_abs (cs : List Str) (c : Str) (hne : cs ≠ []) (hv : valid_name c = true) :
    dirname_of (abs_of (cs ++ [c])) = abs_of cs := by
  obtain ⟨_, h2, _, _, _⟩ := (valid_name_iff c).mp hv
  have e : abs_of (cs ++ [c]) = abs_of cs ++ SLASH :: c := by
    rw [abs_of_snoc, ascii_slash1]; simp
  unfold dirname_of
  rw [e, str_rfind_char_append SLASH _ _ h2]
  have hpos : 0 < (abs_of cs).length := List.length_pos.mpr (abs_of_ne_nil cs hne)
  obtain ⟨k, hk⟩ := Nat.exists_eq_succ_of_ne_zero (by omega : (abs_of cs).length ≠ 0)
  rw [hk]
  simp only
  rw [← hk]
  simp

end Mirrormediad

namespace Mirrormediad

/-! ## Destination filesystem: the steps of one record -/

theorem set_set (fs : FS) (p : List Str) (a b : Inode) : (fs.set p a).set p b = fs.set p b := by
  unfold FS.set
  simp only [FS.mk.injEq, and_true]
  funext q
  split_ifs <;> rfl

theorem chain_ok_set_dir (fs : FS) (p q : List Str) (m u g : Nat) (h : chain_ok fs q) :
    chain_ok (fs.set p (Inode.dir m u g)) q := by
  intro k hk
  by_cases e : q.take k = p
  · rw [e]; exact is_dir_set_self _ _ _ _ _
  · rw [is_dir_set_ne _ _ _ _ e]; exact h k hk

theorem chain_ok_set_new (fs : FS) (p q : List Str) (v : Inode) (h : chain_ok fs q)
    (hn : fs.node p = none) : chain_ok (fs.set p v) q := by
  intro k hk
  have hd := h k hk
  by_cases e : q.take k = p
  · rw [e] at hd
    simp [FS.is_dir, hn] at hd
  · rw [is_dir_set_ne _ _ _ _ e]; exact hd

theorem chain_ok_isSome (fs : FS) (p : List Str) (h : chain_ok fs p) (k : Nat)
    (hk : k < p.length) : (fs.node (p.take k)).isSome = true := by
  obtain ⟨m, u, g, e⟩ := (is_dir_iff fs _).mp (h k hk)
  simp [e]

theorem mk_chain_all (mode : Nat) :
    ∀ (rem donec : List Str) (fs : FS),
      (∀ j, j < rem.length → (fs.node (donec ++ rem.take (j + 1))).isSome = true) →
      mk_chain mode donec rem fs = fs := by
  intro rem
  induction rem with
  | nil => intro donec fs _; rfl
  | cons c r ih =>
    intro donec fs h
    have h0 := h 0 (by simp)
    simp only [List.take_succ_cons, List.take_zero] at h0
    simp only [mk_chain, h0, if_true]
    apply ih
    intro j hj
    have := h (j + 1) (by simp; omega)
    simpa using this

theorem mk_chain_last (mode : Nat) :
    ∀ (rem donec : List Str) (c : Str) (fs : FS),
      (∀ j, j < rem.length → (fs.node (donec ++ rem.take (j + 1))).isSome = true) →
      fs.node (donec ++ rem ++ [c]) = none →
      mk_chain mode donec (rem ++ [c]) fs =
        fs.set (donec ++ rem ++ [c]) (Inode.dir (fs.create_mode mode) 0 0) := by
  intro rem
  induction rem with
  | nil =>
    intro donec c fs _ hn
    simp only [List.append_nil] at hn
    simp [mk_chain, hn]
  | cons d r ih =>
    intro donec c fs h hn
    have h0 := h 0 (by simp)
    simp only [List.take_succ_cons, List.take_zero] at h0
    simp only [List.cons_append, mk_chain, h0, if_true]
    show mk_chain mode (donec ++ [d]) (r ++ [c]) fs = _
    rw [ih (donec ++ [d]) c fs]
    · simp
    · intro j hj
      have := h (j + 1) (by simp; omega)
      simpa using this
    · simpa using hn

/-- `ensure_dir_all` on an existing path changes nothing. -/
theorem ensure_dir_all_exists (fs : FS) (p : List Str) (mode : Nat) (hne : p ≠ [])
    (hv : ∀ c ∈ p, valid_name c = true) (hc : chain_ok fs p)
    (he : (fs.node p).isSome = true) : ensure_dir_all (abs_of p) mode fs = (true, fs) := by
  have hroot : fs.is_dir [] = true := by
    simpa using hc 0 (List.length_pos.mpr hne)
  rw [ensure_dir_all_chain p mode fs hne hv hroot (fun k _ hk _ => hc k hk), mk_chain_all]
  intro j hj
  simp only [List.nil_append]
  by_cases hl : j + 1 < p.length
  · exact chain_ok_isSome fs p hc _ hl
  · rw [List.take_of_length_le (by omega)]
    exact he

/-- `ensure_dir_all` on a path whose parent chain exists creates the last component. -/
theorem ensure_dir_all_new (fs : FS) (p : List Str) (mode : Nat) (hne : p ≠ [])
    (hv : ∀ c ∈ p, valid_name c = true) (hc : chain_ok fs p) (hn : fs.node p = none) :
    ensure_dir_all (abs_of p) mode fs =
      (true, fs.set p (Inode.dir (fs.create_mode mode) 0 0)) := by
  have hroot : fs.is_dir [] = true := by
    simpa using hc 0 (List.length_pos.mpr hne)
  rw [ensure_dir_all_chain p mode fs hne hv hroot (fun k _ hk _ => hc k hk)]
  obtain ⟨r, c, rfl⟩ := exists_snoc p hne
  rw [mk_chain_last mode r [] c fs]
  · simp
  · intro j hj
    have := chain_ok_isSome fs (r ++ [c]) hc (j + 1) (by simp; omega)
    rw [List.take_append_of_le_length (by omega)] at this
    simpa using this
  · simpa using hn

/-- `chown` then `chmod` of an existing directory. -/
theorem touch_dir (fs : FS) (p : List Str) (m u g uid gid mode : Nat) (hne : p ≠ [])
    (hv : ∀ c ∈ p, valid_name c = true) (hc : chain_ok fs p)
    (he : fs.node p = some (Inode.dir m u g)) :
    (fs.chown (abs_of p) uid gid).chmod (abs_of p) mode =
      fs.set p (Inode.dir (mode &&& 0o7777) uid gid) := by
  rw [chown_dir fs p m u g uid gid hv hne hc he,
    chmod_dir _ p m uid gid mode hv hne (chain_ok_set_dir fs p p m uid gid hc)
      (by simp [set_node]), set_set]

theorem dir_mode_mask (ctx : RestoreCtx) (rel : Str) :
    dir_mode ctx rel &&& 0o7777 = dir_mode ctx rel := by
  unfold dir_mode
  split_ifs <;> decide

theorem file_mode_mask (mode : Nat) : file_mode mode &&& 0o7777 = file_mode mode := by
  unfold file_mode
  split_ifs
  · rw [Nat.and_assoc]
    have : (0o777 : Nat) &&& 0o7777 = 0o777 := by decide
    rw [this]
  · decide

theorem abs_of_eq_iff (Rc ms : List Str) : abs_of (Rc ++ ms) = abs_of Rc ↔ ms = [] := by
  constructor
  · intro h
    rw [abs_of_append] at h
    have h2 : abs_of ms = [] := by
      have := congrArg List.length h
      simp at this
      exact this
    by_contra hne
    exact abs_of_ne_nil ms hne h2
  · intro h
    subst h
    simp

theorem parent_mode_eq (ctx : RestoreCtx) (Rc ms : List Str)
    (hR : ctx.real_root = abs_of Rc) (hv : ∀ m ∈ ms, valid_name m = true) :
    parent_mode ctx (abs_of (Rc ++ ms)) = dir_mode ctx (rel_of ms) := by
  obtain ⟨_, _, r3, _⟩ := rel_of_props ms hv
  unfold parent_mode dir_mode
  rw [hR]
  by_cases h : ms = []
  · subst h
    simp [rel_of]
  · have h1 : ¬ abs_of (Rc ++ ms) = abs_of Rc := fun e => h ((abs_of_eq_iff Rc ms).mp e)
    simp [h1, r3 h]

theorem find_rec_append (done : List Rec) (r : Rec) (q : List Str) :
    find_rec (done ++ [r]) q =
      match find_rec done q with
      | some x => some x
      | none => if r.names = q then some r else none := by
  unfold find_rec
  rw [List.find?_append]
  cases h : done.find? (fun r => decide (r.names = q)) with
  | some x => rfl
  | none =>
    simp only [Option.none_or, List.find?_cons, List.find?_nil]
    by_cases e : r.names = q <;> simp [e]

end Mirrormediad

namespace Mirrormediad

/-! ## Consumer: one well-formed record -/

theorem chain_snoc_dir (fs : FS) (pp : List Str) (c : Str) (hc : chain_ok fs pp)
    (hd : fs.is_dir pp = true) : chain_ok fs (pp ++ [c]) := by
  apply chain_snoc
  intro k hk
  by_cases h : k < pp.length
  · exact hc k h
  · rw [List.take_of_length_le (by omega)]
    exact hd

theorem wf_rec_unpack (done : List Rec) (r : Rec) (h : wf_rec done r = true) :
    r.names ≠ [] ∧ (∀ n ∈ r.names, clean_name n = true) ∧ (rel_of r.names).length < 65536 ∧
      find_rec done r.names = none ∧
      find_rec done r.names.dropLast = some (Rec.D r.names.dropLast) := by
  unfold wf_rec at h
  simp only [Bool.and_eq_true, decide_eq_true_eq, List.all_eq_true,
    Option.isNone_iff_eq_none] at h
  obtain ⟨⟨⟨⟨⟨h1, h2⟩, h3⟩, h4⟩, h5⟩, _⟩ := h
  exact ⟨h1, h2, h3, h4, h5⟩

/-- What the invariant gives for a new record: the parent is a directory with its
chain, and the path of the record is free. -/
theorem restored_slot (ctx : RestoreCtx) (Rc : List Str) (fs : FS) (done : List Rec)
    (ns : List Str) (hinv : Restored ctx Rc fs done) (hne : ns ≠ [])
    (hfresh : find_rec done ns = none)
    (hpar : find_rec done ns.dropLast = some (Rec.D ns.dropLast)) :
    fs.node (Rc ++ ns.dropLast) =
        some (Inode.dir (dir_mode ctx (rel_of ns.dropLast)) ctx.uid ctx.gid) ∧
      chain_ok fs (Rc ++ ns.dropLast) ∧ chain_ok fs (Rc ++ ns) ∧ fs.node (Rc ++ ns) = none := by
  have h1 : fs.node (Rc ++ ns.dropLast) =
      some (Inode.dir (dir_mode ctx (rel_of ns.dropLast)) ctx.uid ctx.gid) := by
    rw [hinv.1, hpar]; rfl
  have h2 : chain_ok fs (Rc ++ ns.dropLast) := hinv.2 _ (by simp [h1])
  refine ⟨h1, h2, ?_, ?_⟩
  · have e : Rc ++ ns = (Rc ++ ns.dropLast) ++ [ns.getLast hne] := by
      rw [List.append_assoc, List.dropLast_append_getLast]
    rw [e]
    exact chain_snoc_dir fs _ _ h2 ((is_dir_iff fs _).mpr ⟨_, _, _, h1⟩)
  · rw [hinv.1, hfresh]; rfl

/-- The invariant after a new inode is put at the free path of a record. -/
theorem restored_extend (ctx : RestoreCtx) (Rc : List Str) (fs : FS) (done : List Rec)
    (r : Rec) (hinv : Restored ctx Rc fs done)
    (hfresh : find_rec done r.names = none) (hch : chain_ok fs (Rc ++ r.names)) :
    Restored ctx Rc (fs.set (Rc ++ r.names) (inode_of ctx r)) (done ++ [r]) := by
  have hnone : fs.node (Rc ++ r.names) = none := by rw [hinv.1, hfresh]; rfl
  constructor
  · intro q
    rw [set_node, find_rec_append]
    by_cases e : q = r.names
    · subst e
      simp [hfresh]
    · have e2 : ¬ Rc ++ q = Rc ++ r.names := fun h => e (List.append_cancel_left h)
      rw [if_neg e2, hinv.1]
      cases hf : find_rec done q with
      | some x => rfl
      | none => simp [Ne.symm e]
  · intro q hq
    rw [set_node] at hq
    by_cases e : Rc ++ q = Rc ++ r.names
    · rw [e]
      exact chain_ok_set_new fs _ _ _ hch hnone
    · rw [if_neg e] at hq
      exact chain_ok_set_new fs _ _ _ (hinv.2 q hq) hnone

theorem rc_append_valid (Rc ns : List Str) (hRv : ∀ c ∈ Rc, valid_name c = true)
    (hv : ∀ n ∈ ns, valid_name n = true) : ∀ c ∈ Rc ++ ns, valid_name c = true := by
  intro c hc
  rcases List.mem_append.mp hc with h | h
  · exact hRv c h
  · exact hv c h

/-- A `D` record of a well-formed stream: the directory is created below its
parent and gets the owner, the group and the mode of lines 919-936. -/
theorem restore_entry_dir (ctx : RestoreCtx) (Rc : List Str) (hR : ctx.real_root = abs_of Rc)
    (hRv : ∀ c ∈ Rc, valid_name c = true) (hRne : Rc ≠ [])
    (k : Str → FS → Option RestoreResult) (mode size : Nat) (ns : List Str) (rest : Str)
    (fs : FS) (done : List Rec) (hinv : Restored ctx Rc fs done)
    (hwf : wf_rec done (Rec.D ns) = true) :
    ∃ fs1, restore_entry ctx k 'D'.toNat mode size (rel_of ns) rest fs = k rest fs1 ∧
      Restored ctx Rc fs1 (done ++ [Rec.D ns]) := by
  obtain ⟨hne, hcl, _, hfresh, hpar⟩ := wf_rec_unpack done _ hwf
  simp only [Rec.names] at hne hcl hfresh hpar
  have hv := clean_valid ns hcl
  obtain ⟨_, _, hch, hnone⟩ := restored_slot ctx Rc fs done ns hinv hne hfresh hpar
  have hpv := rc_append_valid Rc ns hRv hv
  have hpne : Rc ++ ns ≠ [] := by simp [hRne]
  refine ⟨fs.set (Rc ++ ns) (inode_of ctx (Rec.D ns)), ?_,
    restored_extend ctx Rc fs done (Rec.D ns) hinv hfresh hch⟩
  unfold restore_entry
  rw [sanitize_rel_clean ns hcl]
  simp only [if_true, hR, restore_out_path_abs Rc ns hRne hv]
  rw [ensure_dir_all_new fs _ _ hpne hpv hch hnone]
  simp only
  rw [touch_dir _ (Rc ++ ns) (fs.create_mode (dir_mode ctx (rel_of ns))) 0 0 ctx.uid ctx.gid _
    hpne hpv (chain_ok_set_new fs _ _ _ hch hnone) (by simp [set_node]), set_set, dir_mode_mask]
  rfl

end Mirrormediad

namespace Mirrormediad

/-! ## Consumer: files, the root record and whole streams -/

theorem set_same (fs : FS) (p : List Str) (v : Inode) (h : fs.node p = some v) :
    fs.set p v = fs := by
  cases fs with
  | mk node umask =>
    unfold FS.set
    simp only [FS.mk.injEq, and_true]
    funext q
    split_ifs with e
    · rw [e]; exact h.symm
    · rfl

theorem write_set (fs : FS) (p : List Str) (m u g : Nat) (d bytes : Str) :
    (fs.set p (Inode.file m u g d)).write p bytes = fs.set p (Inode.file m u g (d ++ bytes)) := by
  unfold FS.write
  simp [set_node, set_set]

theorem fchown_set (fs : FS) (p : List Str) (m u g uid gid : Nat) (d : Str) :
    (fs.set p (Inode.file m u g d)).fchown p uid gid = fs.set p (Inode.file m uid gid d) := by
  unfold FS.fchown
  simp [set_node, set_set]

theorem fchmod_set (fs : FS) (p : List Str) (m u g mode : Nat) (d : Str) :
    (fs.set p (Inode.file m u g d)).fchmod p mode =
      fs.set p (Inode.file (mode &&& 0o7777) u g d) := by
  unfold FS.fchmod
  simp [set_node, set_set]

theorem payload_loop_complete (bufsz : Nat) (hb : 0 < bufsz) (data rest : Str) :
    payload_loop bufsz ((data ++ rest).length + 1) data.length (data ++ rest) [] =
      some (true, data, rest) := by
  rw [payload_loop_eq bufsz hb _ _ _ _ (by omega)]
  simp

/-- An `F` record of a well-formed stream: the file is created in its parent
directory with the payload as content and the owner, group and mode of lines
946 and 1008-1009; the parent keeps its attributes. -/
theorem restore_entry_file (ctx : RestoreCtx) (Rc : List Str) (hR : ctx.real_root = abs_of Rc)
    (hRv : ∀ c ∈ Rc, valid_name c = true) (hRne : Rc ≠ [])
    (k : Str → FS → Option RestoreResult) (mode mtime : Nat) (ns : List Str)
    (data rest : Str) (fs : FS) (done : List Rec) (hinv : Restored ctx Rc fs done)
    (hwf : wf_rec done (Rec.F ns mode mtime data) = true) :
    ∃ fs1, restore_entry ctx k 'F'.toNat mode data.length (rel_of ns) (data ++ rest) fs =
        k rest fs1 ∧
      Restored ctx Rc fs1 (done ++ [Rec.F ns mode mtime data]) := by
  obtain ⟨hne, hcl, _, hfresh, hpar⟩ := wf_rec_unpack done _ hwf
  simp only [Rec.names] at hne hcl hfresh hpar
  have hv := clean_valid ns hcl
  obtain ⟨hpnode, hpch, hch, hnone⟩ := restored_slot ctx Rc fs done ns hinv hne hfresh hpar
  have hpv := rc_append_valid Rc ns hRv hv
  have hpne : Rc ++ ns ≠ [] := by simp [hRne]
  have hmv : ∀ m ∈ ns.dropLast, valid_name m = true :=
    fun m hm => hv m (List.mem_of_mem_dropLast hm)
  have hppv := rc_append_valid Rc ns.dropLast hRv hmv
  have hppne : Rc ++ ns.dropLast ≠ [] := by simp [hRne]
  refine ⟨fs.set (Rc ++ ns) (inode_of ctx (Rec.F ns mode mtime data)), ?_,
    restored_extend ctx Rc fs done (Rec.F ns mode mtime data) hinv hfresh hch⟩
  have hsplit : Rc ++ ns = (Rc ++ ns.dropLast) ++ [ns.getLast hne] := by
    rw [List.append_assoc, List.dropLast_append_getLast]
  have hparent : dirname_of (abs_of (Rc ++ ns)) = abs_of (Rc ++ ns.dropLast) := by
    rw [hsplit]
    exact dirname_of_abs _ _ hppne (hv _ (List.getLast_mem hne))
  have hFD : ¬ ('F'.toNat = 'D'.toNat) := by decide
  unfold restore_entry
  rw [sanitize_rel_clean ns hcl]
  simp only [if_true, if_neg hFD, hR, restore_out_path_abs Rc ns hRne hv, hparent]
  rw [parent_mode_eq ctx Rc _ hR hmv,
    ensure_dir_all_exists fs _ _ hppne hppv hpch (by simp [hpnode])]
  simp only
  rw [touch_dir fs _ _ _ _ ctx.uid ctx.gid _ hppne hppv hpch hpnode, dir_mode_mask,
    set_same fs _ _ hpnode, open_create_new fs _ _ hpv hpne hch hnone]
  simp only
  rw [payload_loop_complete _ (by decide)]
  simp only
  rw [write_set, fchown_set, fchmod_set, file_mode_mask]
  rfl

/-- The `D` record of the root on an empty destination. -/
theorem restore_entry_root (ctx : RestoreCtx) (Rc : List Str) (hR : ctx.real_root = abs_of Rc)
    (hRv : ∀ c ∈ Rc, valid_name c = true) (hRne : Rc ≠ [])
    (k : Str → FS → Option RestoreResult) (mode size : Nat) (rest : Str) (fs : FS)
    (hempty : EmptyDest Rc fs) :
    ∃ fs1, restore_entry ctx k 'D'.toNat mode size (rel_of []) rest fs = k rest fs1 ∧
      Restored ctx Rc fs1 [Rec.D []] := by
  obtain ⟨hch, hdir, hbelow⟩ := hempty
  obtain ⟨m, u, g, hnode⟩ := (is_dir_iff fs Rc).mp hdir
  refine ⟨fs.set Rc (inode_of ctx (Rec.D [])), ?_, ?_, ?_⟩
  · have hs : sanitize_rel (rel_of []) = some (true, rel_of []) := by decide
    unfold restore_entry
    rw [hs]
    simp only [if_true, hR]
    have ho : restore_out_path (abs_of Rc) (rel_of []) = abs_of Rc := by
      simp [restore_out_path, rel_of]
    rw [ho, ensure_dir_all_exists fs _ _ hRne hRv hch (by simp [hnode])]
    simp only
    rw [touch_dir fs Rc m u g ctx.uid ctx.gid _ hRne hRv hch hnode, dir_mode_mask]
    rfl
  · intro q
    rw [set_node]
    by_cases e : q = []
    · subst e
      simp [find_rec, Rec.names]
    · have e2 : ¬ Rc ++ q = Rc := by
        intro h
        have := congrArg List.length h
        simp at this
        exact e this
      rw [if_neg e2, hbelow q e]
      simp [find_rec, Rec.names, Ne.symm e]
  · intro q hq
    rw [set_node] at hq
    by_cases e : q = []
    · subst e
      simp only [List.append_nil]
      exact chain_ok_set_dir fs _ _ _ _ _ hch
    · have e2 : ¬ Rc ++ q = Rc := by
        intro h
        have := congrArg List.length h
        simp at this
        exact e this
      rw [if_neg e2, hbelow q e] at hq
      simp at hq

theorem encode_all_cons (r : Rec) (rs : List Rec) :
    encode_all (r :: rs) = r.encode ++ encode_all rs := rfl

/-- A well-formed stream body: the loop reads it to the `E` record, returns
success, and the destination holds exactly the inodes of the records. -/
theorem restore_loop_stream (ctx : RestoreCtx) (Rc : List Str) (hR : ctx.real_root = abs_of Rc)
    (hRv : ∀ c ∈ Rc, valid_name c = true) (hRne : Rc ≠ []) :
    ∀ (recs done : List Rec) (fs : FS) (fuel : Nat) (rest : Str),
      Restored ctx Rc fs done → wf_stream done recs = true → recs.length < fuel →
      ∃ fs1 r, restore_loop ctx fuel (encode_all recs ++ (mm01_end ++ rest)) fs =
          some ⟨true, fs1, r⟩ ∧
        Restored ctx Rc fs1 (done ++ recs) := by
  intro recs
  induction recs with
  | nil =>
    intro done fs fuel rest hinv _ hf
    obtain ⟨f, rfl⟩ := Nat.exists_eq_succ_of_ne_zero (by omega : fuel ≠ 0)
    obtain ⟨r, hr⟩ := restore_loop_end ctx f rest fs
    exact ⟨fs, r, by simpa [encode_all] using hr, by simpa using hinv⟩
  | cons x rs ih =>
    intro done fs fuel rest hinv hwf hf
    obtain ⟨f, rfl⟩ := Nat.exists_eq_succ_of_ne_zero (by omega : fuel ≠ 0)
    rw [wf_stream, Bool.and_eq_true] at hwf
    obtain ⟨hx, hrs⟩ := hwf
    obtain ⟨_, _, hlen, _, _⟩ := wf_rec_unpack done x hx
    simp only [List.length_cons] at hf
    cases x with
    | D ns =>
      simp only [Rec.names] at hlen
      obtain ⟨fs1, h1, hinv1⟩ := restore_entry_dir ctx Rc hR hRv hRne (restore_loop ctx f)
        (0o770 % 256 ^ 4) (0 % 256 ^ 8) ns (encode_all rs ++ (mm01_end ++ rest)) fs done hinv hx
      obtain ⟨fs2, r, h2, hinv2⟩ := ih (done ++ [Rec.D ns]) fs1 f rest hinv1 hrs (by omega)
      refine ⟨fs2, r, ?_, by simpa using hinv2⟩
      rw [encode_all_cons, Rec.encode, List.append_assoc,
        restore_loop_record ctx f _ _ _ _ _ _ fs (by decide) (by decide) hlen, h1, h2]
    | F ns mode mtime data =>
      simp only [Rec.names] at hlen
      have hm : mode < 2 ^ 32 ∧ data.length < 2 ^ 64 := by
        unfold wf_rec at hx
        simp only [Bool.and_eq_true, decide_eq_true_eq] at hx
        exact hx.2
      obtain ⟨fs1, h1, hinv1⟩ := restore_entry_file ctx Rc hR hRv hRne (restore_loop ctx f)
        mode mtime ns data (encode_all rs ++ (mm01_end ++ rest)) fs done hinv hx
      obtain ⟨fs2, r, h2, hinv2⟩ := ih (done ++ [Rec.F ns mode mtime data]) fs1 f rest hinv1 hrs
        (by omega)
      refine ⟨fs2, r, ?_, by simpa using hinv2⟩
      have e1 : mode % 256 ^ 4 = mode := Nat.mod_eq_of_lt (by simpa using hm.1)
      have e2 : data.length % 256 ^ 8 = data.length := Nat.mod_eq_of_lt (by simpa using hm.2)
      rw [encode_all_cons, Rec.encode, List.append_assoc, List.append_assoc,
        restore_loop_record ctx f _ _ _ _ _ _ fs (by decide) (by decide) hlen, e1, e2, h1, h2]

end Mirrormediad

namespace Mirrormediad

/-! ## Consumer: the whole function on a well-formed stream -/

/-- `mk_chain` leaves directories at every component it walks and does not touch
longer paths. -/
theorem mk_chain_dirs (mode : Nat) :
    ∀ (rem donec : List Str) (fs : FS),
      (∀ k, k ≤ donec.length → fs.is_dir (donec.take k) = true) →
      (∀ j, j < rem.length → (fs.node (donec ++ rem.take (j + 1))).isSome = true →
        fs.is_dir (donec ++ rem.take (j + 1)) = true) →
      (∀ k, k ≤ (donec ++ rem).length →
        (mk_chain mode donec rem fs).is_dir ((donec ++ rem).take k) = true) ∧
      (∀ x : List Str, (donec ++ rem).length < x.length →
        (mk_chain mode donec rem fs).node x = fs.node x) := by
  intro rem
  induction rem with
  | nil =>
    intro donec fs h _
    simp only [List.append_nil, mk_chain]
    exact ⟨h, fun _ _ => trivial⟩
  | cons c r ih =>
    intro donec fs h hdeep
    have e : donec ++ c :: r = (donec ++ [c]) ++ r := by simp
    have hlen : ∀ x : List Str, (donec ++ c :: r).length < x.length → x ≠ donec ++ [c] := by
      intro x hx e2
      rw [e2] at hx
      simp only [List.length_append, List.length_cons, List.length_singleton,
        List.length_nil] at hx
      omega
    have h0 := hdeep 0 (by simp)
    simp only [List.take_succ_cons, List.take_zero] at h0
    simp only [mk_chain]
    by_cases he : (fs.node (donec ++ [c])).isSome = true
    · simp only [he, if_true]
      obtain ⟨i1, i2⟩ := ih (donec ++ [c]) fs
        (by
          intro k hk
          simp only [List.length_append, List.length_singleton] at hk
          by_cases hk2 : k ≤ donec.length
          · rw [List.take_append_of_le_length hk2]; exact h k hk2
          · rw [List.take_of_length_le (by simp; omega)]; exact h0 he)
        (by
          intro j hj hs
          have := hdeep (j + 1) (by simp; omega)
          simp only [List.take_succ_cons] at this
          simp only [List.append_assoc, List.singleton_append] at hs ⊢
          exact this hs)
      rw [e]
      exact ⟨i1, i2⟩
    · simp only [he, Bool.false_eq_true, if_false]
      obtain ⟨i1, i2⟩ := ih (donec ++ [c])
          (fs.set (donec ++ [c]) (Inode.dir (fs.create_mode mode) 0 0))
        (by
          intro k hk
          simp only [List.length_append, List.length_singleton] at hk
          by_cases hk2 : k ≤ donec.length
          · rw [List.take_append_of_le_length hk2, is_dir_set_ne]
            · exact h k hk2
            · intro e2
              have := congrArg List.length e2
              simp at this
              omega
          · rw [List.take_of_length_le (by simp; omega)]
            exact is_dir_set_self _ _ _ _ _)
        (by
          intro j hj hs
          have hne : donec ++ [c] ++ r.take (j + 1) ≠ donec ++ [c] := by
            intro e2
            have := congrArg List.length e2
            simp only [List.length_append, List.length_take, List.length_singleton,
              List.length_cons, List.length_nil] at this
            omega
          rw [is_dir_set_ne _ _ _ _ hne]
          rw [set_node, if_neg hne] at hs
          have := hdeep (j + 1) (by simp; omega)
          simp only [List.take_succ_cons] at this
          simp only [List.append_assoc, List.singleton_append] at hs ⊢
          exact this hs)
      rw [e]
      refine ⟨i1, ?_⟩
      intro x hx
      rw [i2 x hx, set_node, if_neg]
      exact hlen x (by rw [e]; exact hx)

/-- The first `ensure_dir_all(real_root, 0700)` turns an absent or empty
destination into an empty one. -/
theorem ensure_root_fresh (Rc : List Str) (mode : Nat) (fs : FS) (hne : Rc ≠ [])
    (hv : ∀ c ∈ Rc, valid_name c = true) (hf : FreshDest Rc fs) :
    ∃ fs1, ensure_dir_all (abs_of Rc) mode fs = (true, fs1) ∧ EmptyDest Rc fs1 := by
  obtain ⟨hroot, hdeep, hbelow⟩ := hf
  refine ⟨mk_chain mode [] Rc fs, ?_, ?_⟩
  · exact ensure_dir_all_chain Rc mode fs hne hv hroot
      (fun k hk hk2 hs => hdeep k hk (by omega) hs)
  · obtain ⟨i1, i2⟩ := mk_chain_dirs mode Rc [] fs (by intro k hk; simpa using hroot)
      (by
        intro j hj hs
        simp only [List.nil_append] at hs ⊢
        exact hdeep (j + 1) (by omega) (by omega) hs)
    simp only [List.nil_append] at i1 i2
    refine ⟨fun k hk => i1 k (by omega), ?_, ?_⟩
    · have := i1 Rc.length (le_refl _)
      simpa using this
    · intro q hq
      rw [i2 (Rc ++ q), hbelow q hq]
      have : 0 < q.length := List.length_pos.mpr hq
      simp
      omega

theorem encode_length (r : Rec) : 0 < r.encode.length := by
  cases r <;> simp [Rec.encode, mm01_record, le_encode_length]

theorem encode_all_length (recs : List Rec) : recs.length ≤ (encode_all recs).length := by
  induction recs with
  | nil => simp [encode_all]
  | cons r rs ih =>
    have := encode_length r
    simp only [encode_all, List.length_cons, List.length_append]
    omega

/-- The consumer on a well-formed stream and an absent or empty destination: it
returns success and the destination holds exactly the inodes of the records. -/
theorem restore_tree_stream (g : Nat) (dst root0 rb : Str) (uid : Int) (Rc : List Str)
    (recs : List Rec) (junk : Str) (fs0 : FS)
    (hres : logical_to_real_root dst = some (root0, rb)) (huid : 0 ≤ uid)
    (hR : (restore_ctx g dst root0 uid).real_root = abs_of Rc)
    (hRv : ∀ c ∈ Rc, valid_name c = true) (hRne : Rc ≠ [])
    (hfresh : FreshDest Rc fs0) (hwf : wf_stream [Rec.D []] recs = true) :
    ∃ fs1 r, restore_tree_from_fd g
        (ascii "MM01" ++ encode_all (Rec.D [] :: recs) ++ mm01_end ++ junk) dst uid fs0 =
          some ⟨true, fs1, r⟩ ∧
      Restored (restore_ctx g dst root0 uid) Rc fs1 (Rec.D [] :: recs) := by
  obtain ⟨fsa, ha, hempty⟩ := ensure_root_fresh Rc 0o700 fs0 hRne hRv hfresh
  obtain ⟨fsb, hb, hinv⟩ := restore_entry_root (restore_ctx g dst root0 uid) Rc hR hRv hRne
    (restore_loop (restore_ctx g dst root0 uid)
      (encode_all (Rec.D [] :: recs) ++ mm01_end ++ junk).length)
    (0o770 % 256 ^ 4) (0 % 256 ^ 8) (encode_all recs ++ (mm01_end ++ junk)) fsa hempty
  obtain ⟨fsc, r, hc, hinv2⟩ := restore_loop_stream (restore_ctx g dst root0 uid) Rc hR hRv hRne
    recs [Rec.D []] fsb (encode_all (Rec.D [] :: recs) ++ mm01_end ++ junk).length junk hinv hwf
    (by
      have h1 := encode_all_length recs
      have h2 := encode_length (Rec.D [])
      simp only [encode_all, List.length_append]
      omega)
  refine ⟨fsc, r, ?_, by simpa using hinv2⟩
  unfold restore_tree_from_fd
  rw [hres]
  simp only [not_lt.mpr huid, if_false, hR, ha]
  have hmagic : read_fully 4 (ascii "MM01" ++ encode_all (Rec.D [] :: recs) ++ mm01_end ++ junk) =
      (some (ascii "MM01"), encode_all (Rec.D [] :: recs) ++ mm01_end ++ junk) := by
    have := read_fully_append (ascii "MM01") (encode_all (Rec.D [] :: recs) ++ mm01_end ++ junk)
    simpa [List.append_assoc] using this
  rw [hmagic]
  simp only [ne_eq, not_true_eq_false, if_false]
  have hsplit : encode_all (Rec.D [] :: recs) ++ mm01_end ++ junk =
      mm01_record 'D'.toNat (rel_of []) 0o770 0 0 ++ (encode_all recs ++ (mm01_end ++ junk)) := by
    simp [encode_all, Rec.encode, List.append_assoc]
  conv_lhs => rw [hsplit]
  rw [restore_loop_record _ _ _ _ _ _ _ _ _ (by decide) (by decide) (by decide), ← hsplit, hb, hc]

end Mirrormediad

namespace Mirrormediad

/-! ## Consumer: owners and modes of the restored tree -/

theorem fresh_dest_empty (Rc : List Str) (u : Nat) (hne : Rc ≠ []) :
    FreshDest Rc (FS.empty u) := by
  refine ⟨by simp [FS.is_dir, FS.empty], ?_, ?_⟩
  · intro k hk _ hs
    have : Rc.take k ≠ [] := by
      intro e
      have := congrArg List.length e
      simp at this
      rcases this with h | h
      · omega
      · exact hne h
    simp [FS.empty, this] at hs
  · intro q hq
    simp [FS.empty, hq]

end Mirrormediad

namespace Mirrormediad

end Mirrormediad

namespace Mirrormediad

/-! ## The records of a tree as a stream -/

theorem size_list_cons (n : Str) (t : Tree) (r : List (Str × Tree)) :
    Tree.size.size_list ((n, t) :: r) = t.size + Tree.size.size_list r := by
  rw [Tree.size.size_list]

theorem size_dir (rd : Bool) (es : List (Str × Tree)) :
    (Tree.dir rd es).size = 1 + Tree.size.size_list es := by
  rw [Tree.size]

theorem size_mem (es : List (Str × Tree)) (n : Str) (c : Tree) (h : (n, c) ∈ es) :
    c.size ≤ Tree.size.size_list es := by
  induction es with
  | nil => simp at h
  | cons e r ih =>
    obtain ⟨m, t⟩ := e
    rw [size_list_cons]
    rcases List.mem_cons.mp h with e | e
    · cases e; omega
    · have := ih e; omega

theorem file_records_mem (ns : List Str) :
    ∀ (es : List (Str × Tree)) (x : Rec), x ∈ file_records ns es →
      ∃ n mode mtime rd data, (n, Tree.file mode mtime rd data) ∈ es ∧
        x = Rec.F (ns ++ [n]) (mode &&& 0o777) mtime data := by
  intro es
  induction es with
  | nil => intro x h; simp [file_records] at h
  | cons e r ih =>
    intro x h
    obtain ⟨m, t⟩ := e
    cases t with
    | file a b c d =>
      rw [file_records_file] at h
      rcases List.mem_cons.mp h with e | e
      · exact ⟨m, a, b, c, d, by simp, e⟩
      · obtain ⟨n, mo, mt, rd, da, h1, h2⟩ := ih x e
        exact ⟨n, mo, mt, rd, da, by simp [h1], h2⟩
    | dir rd es2 =>
      rw [file_records_dir] at h
      obtain ⟨n, mo, mt, rd, da, h1, h2⟩ := ih x h
      exact ⟨n, mo, mt, rd, da, by simp [h1], h2⟩
    | other =>
      rw [file_records_other] at h
      obtain ⟨n, mo, mt, rd, da, h1, h2⟩ := ih x h
      exact ⟨n, mo, mt, rd, da, by simp [h1], h2⟩

/-- Every record of a directory is at or below the directory. -/
theorem records_below : ∀ (k : Nat) (t : Tree), t.size ≤ k → ∀ (ns : List Str) (x : Rec),
    x ∈ Tree.records ns t → ∃ rest, x.names = ns ++ rest := by
  intro k
  induction k with
  | zero =>
    intro t ht
    cases t <;> simp [Tree.size] at ht
  | succ k ih =>
    intro t ht ns x hx
    cases t with
    | file a b c d => simp [records_file] at hx
    | other => simp [records_other] at hx
    | dir rd es =>
      rw [records_dir] at hx
      rw [size_dir] at ht
      rcases List.mem_cons.mp hx with e | e
      · exact ⟨[], by simp [e, Rec.names]⟩
      · rcases List.mem_append.mp e with e | e
        · obtain ⟨n, mo, mt, rd2, da, _, h2⟩ := file_records_mem ns es x e
          exact ⟨[n], by simp [h2, Rec.names]⟩
        · have hs : ∀ (es2 : List (Str × Tree)), Tree.size.size_list es2 ≤ k →
              x ∈ Tree.records.subdir_records ns es2 →
              ∃ n c rest, (n, c) ∈ es2 ∧ x.names = ns ++ [n] ++ rest := by
            intro es2
            induction es2 with
            | nil => intro _ h; simp [Tree.records.subdir_records] at h
            | cons e2 r2 ih2 =>
              intro hsz h
              obtain ⟨m, t2⟩ := e2
              rw [size_list_cons] at hsz
              rw [subdir_records_cons] at h
              rcases List.mem_append.mp h with h | h
              · obtain ⟨n, c, rest, h1, h2⟩ := ih2 (by omega) h
                exact ⟨n, c, rest, by simp [h1], h2⟩
              · obtain ⟨rest, h2⟩ := ih t2 (by omega) (ns ++ [m]) x h
                exact ⟨m, t2, rest, by simp, h2⟩
          obtain ⟨n, c, rest, _, h2⟩ := hs es (by omega) e
          exact ⟨n :: rest, by simp [h2]⟩

theorem subdir_records_below (ns : List Str) :
    ∀ (es : List (Str × Tree)) (x : Rec), x ∈ Tree.records.subdir_records ns es →
      ∃ n rd es2 rest, (n, Tree.dir rd es2) ∈ es ∧ x.names = ns ++ [n] ++ rest := by
  intro es
  induction es with
  | nil => intro x h; simp [Tree.records.subdir_records] at h
  | cons e r ih =>
    intro x h
    obtain ⟨m, t⟩ := e
    rw [subdir_records_cons] at h
    rcases List.mem_append.mp h with h | h
    · obtain ⟨n, rd, es2, rest, h1, h2⟩ := ih x h
      exact ⟨n, rd, es2, rest, by simp [h1], h2⟩
    · cases t with
      | file a b c d => simp [records_file] at h
      | other => simp [records_other] at h
      | dir rd es2 =>
        obtain ⟨rest, h2⟩ := records_below _ _ (le_refl _) (ns ++ [m]) x h
        exact ⟨m, rd, es2, rest, by simp, h2⟩

end Mirrormediad

namespace Mirrormediad

/-! ## The records of a portable tree are a well-formed stream -/

theorem wf_stream_append :
    ∀ (a b done : List Rec),
      wf_stream done (a ++ b) = (wf_stream done a && wf_stream (done ++ a) b) := by
  intro a
  induction a with
  | nil => intro b done; simp [wf_stream]
  | cons x xs ih =>
    intro b done
    show (wf_rec done x && wf_stream (done ++ [x]) (xs ++ b)) =
      ((wf_rec done x && wf_stream (done ++ [x]) xs) && wf_stream (done ++ x :: xs) b)
    rw [ih, Bool.and_assoc]
    simp

theorem find_rec_none_iff (done : List Rec) (q : List Str) :
    find_rec done q = none ↔ ∀ x ∈ done, x.names ≠ q := by
  unfold find_rec
  simp [List.find?_eq_none]

theorem find_rec_mono (done more : List Rec) (q : List Str) (r : Rec)
    (h : find_rec done q = some r) : find_rec (done ++ more) q = some r := by
  unfold find_rec at h ⊢
  rw [List.find?_append, h]
  rfl

theorem portable_dir (ns : List Str) (rd : Bool) (es : List (Str × Tree))
    (h : (Tree.dir rd es).portable ns = true) :
    ∀ n c, (n, c) ∈ es → clean_name n = true ∧ (rel_of (ns ++ [n])).length < 65536 ∧
      c.portable (ns ++ [n]) = true := by
  rw [Tree.portable] at h
  induction es with
  | nil => intro n c hm; simp at hm
  | cons e r ih =>
    obtain ⟨m, t⟩ := e
    rw [Tree.portable.portable_list] at h
    simp only [Bool.and_eq_true, decide_eq_true_eq] at h
    intro n c hm
    rcases List.mem_cons.mp hm with e | e
    · cases e
      exact ⟨h.1.1.1, h.1.1.2, h.1.2⟩
    · exact ih h.2 n c e

theorem mem_unique (es : List (Str × Tree)) (n : Str) (c1 c2 : Tree)
    (hnd : (es.map Prod.fst).Nodup) (h1 : (n, c1) ∈ es) (h2 : (n, c2) ∈ es) : c1 = c2 := by
  have e1 := lookup_of_mem_nodup es n c1 hnd h1
  have e2 := lookup_of_mem_nodup es n c2 hnd h2
  rw [e1] at e2
  exact Option.some.inj e2

theorem snoc_clean (ns : List Str) (n : Str) (h : ∀ m ∈ ns, clean_name m = true)
    (hn : clean_name n = true) : ∀ m ∈ ns ++ [n], clean_name m = true := by
  intro m hm
  rcases List.mem_append.mp hm with e | e
  · exact h m e
  · simp only [List.mem_singleton] at e
    rw [e]; exact hn

theorem wf_rec_intro (done : List Rec) (r : Rec) (h1 : r.names ≠ [])
    (h2 : ∀ n ∈ r.names, clean_name n = true) (h3 : (rel_of r.names).length < 65536)
    (h4 : find_rec done r.names = none)
    (h5 : find_rec done r.names.dropLast = some (Rec.D r.names.dropLast))
    (h6 : ∀ ns mode mtime data, r = Rec.F ns mode mtime data →
      mode < 2 ^ 32 ∧ data.length < 2 ^ 64) : wf_rec done r = true := by
  unfold wf_rec
  simp only [Bool.and_eq_true, decide_eq_true_eq, List.all_eq_true,
    Option.isNone_iff_eq_none]
  refine ⟨⟨⟨⟨⟨h1, h2⟩, h3⟩, h4⟩, h5⟩, ?_⟩
  cases r with
  | D ns => rfl
  | F ns mode mtime data =>
    obtain ⟨a, b⟩ := h6 ns mode mtime data rfl
    simp only [Bool.and_eq_true, decide_eq_true_eq]
    exact ⟨a, b⟩

/-- The `F` records of a directory follow any stream that holds the `D` record of
the directory and none of the names of the entries. -/
theorem file_records_wf (ns : List Str) (hns : ∀ n ∈ ns, clean_name n = true) :
    ∀ (es : List (Str × Tree)) (done : List Rec),
      find_rec done ns = some (Rec.D ns) →
      (∀ n c, (n, c) ∈ es → find_rec done (ns ++ [n]) = none) →
      (es.map Prod.fst).Nodup →
      (∀ n c, (n, c) ∈ es → clean_name n = true ∧ (rel_of (ns ++ [n])).length < 65536 ∧
        c.wf = true) →
      wf_stream done (file_records ns es) = true := by
  intro es
  induction es with
  | nil => intro done _ _ _ _; rfl
  | cons e r ih =>
    intro done hD hfresh hnd hprops
    obtain ⟨m, t⟩ := e
    simp only [List.map_cons, List.nodup_cons] at hnd
    have hr_props : ∀ n c, (n, c) ∈ r → clean_name n = true ∧
        (rel_of (ns ++ [n])).length < 65536 ∧ c.wf = true :=
      fun n c h => hprops n c (by simp [h])
    have hr_fresh : ∀ n c, (n, c) ∈ r → find_rec done (ns ++ [n]) = none :=
      fun n c h => hfresh n c (by simp [h])
    cases t with
    | dir rd es2 =>
      rw [file_records_dir]
      exact ih done hD hr_fresh hnd.2 hr_props
    | other =>
      rw [file_records_other]
      exact ih done hD hr_fresh hnd.2 hr_props
    | file a b c d =>
      obtain ⟨p1, p2, p3⟩ := hprops m (Tree.file a b c d) (by simp)
      rw [file_records_file, wf_stream, Bool.and_eq_true]
      constructor
      · apply wf_rec_intro
        · simp [Rec.names]
        · exact snoc_clean ns m hns p1
        · exact p2
        · exact hfresh m (Tree.file a b c d) (by simp)
        · simpa [Rec.names] using hD
        · intro ns2 mode mtime data e
          cases e
          refine ⟨?_, by simpa [Tree.wf] using p3⟩
          have : a &&& 0o777 ≤ 0o777 := Nat.and_le_right
          omega
      · apply ih _ (find_rec_mono done _ ns _ hD) _ hnd.2 hr_props
        intro n c2 hm
        rw [find_rec_append, hr_fresh n c2 hm]
        have hne : m ≠ n := by
          intro e
          subst e
          exact hnd.1 (List.mem_map.mpr ⟨(m, c2), hm, rfl⟩)
        simp [Rec.names, hne]

end Mirrormediad

namespace Mirrormediad

theorem snoc_prefix_cancel (ns : List Str) (n m : Str) (r1 r2 : List Str)
    (h : ns ++ [n] ++ r1 = ns ++ [m] ++ r2) : n = m ∧ r1 = r2 := by
  simp only [List.append_assoc, List.singleton_append] at h
  have := List.append_cancel_left h
  simpa using this

/-- The records of the subdirectories, given that every subdirectory passes
`DirWf`: they follow any stream that holds the `D` record of the directory and
nothing at or below a subdirectory. -/
theorem subdir_records_wf (ns : List Str) (hns : ∀ n ∈ ns, clean_name n = true) :
    ∀ (es : List (Str × Tree)) (done : List Rec),
      (∀ n c, (n, c) ∈ es → DirWf c) →
      find_rec done ns = some (Rec.D ns) →
      (∀ n rd es2, (n, Tree.dir rd es2) ∈ es → ∀ x ∈ done, ∀ rest,
        x.names ≠ ns ++ [n] ++ rest) →
      (es.map Prod.fst).Nodup →
      (∀ n c, (n, c) ∈ es → clean_name n = true ∧ (rel_of (ns ++ [n])).length < 65536 ∧
        c.wf = true ∧ c.portable (ns ++ [n]) = true) →
      wf_stream done (Tree.records.subdir_records ns es) = true := by
  intro es
  induction es with
  | nil => intro done _ _ _ _ _; rfl
  | cons e r ih =>
    intro done hIH hD hfresh hnd hprops
    obtain ⟨m, t⟩ := e
    simp only [List.map_cons, List.nodup_cons] at hnd
    rw [subdir_records_cons, wf_stream_append, Bool.and_eq_true]
    constructor
    · exact ih done (fun n c h => hIH n c (by simp [h])) hD
        (fun n rd es2 h => hfresh n rd es2 (by simp [h])) hnd.2
        (fun n c h => hprops n c (by simp [h]))
    · cases t with
      | file a b c d => rw [records_file]; rfl
      | other => rw [records_other]; rfl
      | dir rd es2 =>
        obtain ⟨p1, p2, p3, p4⟩ := hprops m (Tree.dir rd es2) (by simp)
        apply hIH m (Tree.dir rd es2) (by simp) (ns ++ [m]) _ p3 p4 (by simp)
          (snoc_clean ns m hns p1) p2
        · rw [List.dropLast_concat]
          exact find_rec_mono done _ ns _ hD
        · intro x hx rest
          rcases List.mem_append.mp hx with h | h
          · exact hfresh m rd es2 (by simp) x h rest
          · obtain ⟨n, rd3, es3, rest2, hm, hn⟩ := subdir_records_below ns r x h
            rw [hn]
            intro e
            obtain ⟨e1, _⟩ := snoc_prefix_cancel ns n m rest2 rest e
            subst e1
            exact hnd.1 (List.mem_map.mpr ⟨(n, Tree.dir rd3 es3), hm, rfl⟩)

/-- The records of the contents of a directory, given `DirWf` for its
subdirectories. -/
theorem contents_wf (ns : List Str) (hns : ∀ n ∈ ns, clean_name n = true)
    (rd : Bool) (es : List (Str × Tree)) (done : List Rec)
    (hIH : ∀ n c, (n, c) ∈ es → DirWf c)
    (hwf : (Tree.dir rd es).wf = true) (hport : (Tree.dir rd es).portable ns = true)
    (hD : find_rec done ns = some (Rec.D ns))
    (hfresh : ∀ x ∈ done, ∀ n rest, x.names ≠ ns ++ n :: rest) :
    wf_stream done (file_records ns es ++ Tree.records.subdir_records ns es) = true := by
  obtain ⟨hnd, hv⟩ := tree_wf_dir rd es hwf
  have hp := portable_dir ns rd es hport
  rw [wf_stream_append, Bool.and_eq_true]
  constructor
  · apply file_records_wf ns hns es done hD _ hnd
    · intro n c hm
      exact ⟨(hp n c hm).1, (hp n c hm).2.1, (hv n c hm).2⟩
    · intro n c _
      rw [find_rec_none_iff]
      intro x hx
      have := hfresh x hx n []
      simpa using this
  · apply subdir_records_wf ns hns es _ hIH (find_rec_mono done _ ns _ hD) _ hnd
    · intro n c hm
      exact ⟨(hp n c hm).1, (hp n c hm).2.1, (hv n c hm).2, (hp n c hm).2.2⟩
    · intro n rd2 es2 hm x hx rest
      rcases List.mem_append.mp hx with h | h
      · have := hfresh x h n rest
        simpa using this
      · obtain ⟨m, mo, mt, rd3, da, h1, h2⟩ := file_records_mem ns es x h
        rw [h2]
        simp only [Rec.names]
        intro e
        have e2 : ns ++ [m] ++ [] = ns ++ [n] ++ rest := by simpa using e
        obtain ⟨e3, _⟩ := snoc_prefix_cancel ns m n [] rest e2
        subst e3
        have := mem_unique es m _ _ hnd h1 hm
        cases this

/-- Every directory passes `DirWf`. -/
theorem dir_wf_all : ∀ (k : Nat) (t : Tree), t.size ≤ k → DirWf t := by
  intro k
  induction k with
  | zero =>
    intro t ht
    cases t <;> simp [Tree.size] at ht
  | succ k ih =>
    intro t ht ns done hwf hport hne hns hlen hpar hfresh
    cases t with
    | file a b c d => rw [records_file]; rfl
    | other => rw [records_other]; rfl
    | dir rd es =>
      rw [size_dir] at ht
      rw [records_dir, wf_stream, Bool.and_eq_true]
      have hself : find_rec done ns = none := by
        rw [find_rec_none_iff]
        intro x hx
        have := hfresh x hx []
        simpa using this
      constructor
      · exact wf_rec_intro done (Rec.D ns) hne hns hlen hself hpar
          (fun _ _ _ _ e => by cases e)
      · apply contents_wf ns hns rd es _ _ hwf hport
        · rw [find_rec_append, hself]
          simp [Rec.names]
        · intro x hx n rest
          rcases List.mem_append.mp hx with h | h
          · have := hfresh x h (n :: rest)
            exact this
          · simp only [List.mem_singleton] at h
            rw [h]
            simp only [Rec.names]
            intro e
            have := congrArg List.length e
            simp at this
        · intro n c hm
          have := size_mem es n c hm
          exact ih c (by omega)

/-- The stream body the producer writes for a portable directory is well formed. -/
theorem root_records_wf (rd : Bool) (es : List (Str × Tree))
    (hwf : (Tree.dir rd es).wf = true) (hport : (Tree.dir rd es).portable [] = true) :
    wf_stream [Rec.D []]
      (file_records [] es ++ Tree.records.subdir_records [] es) = true := by
  apply contents_wf [] (by simp) rd es _ _ hwf hport
  · simp [find_rec, Rec.names]
  · intro x hx n rest
    simp only [List.mem_singleton] at hx
    rw [hx]
    simp [Rec.names]
  · intro n c _
    exact dir_wf_all c.size c (le_refl _)

end Mirrormediad

namespace Mirrormediad

/-! ## The records of a tree and its nodes -/

theorem find_rec_cons (x : Rec) (l : List Rec) (p : List Str) :
    find_rec (x :: l) p = if x.names = p then some x else find_rec l p := by
  unfold find_rec
  rw [List.find?_cons]
  by_cases h : x.names = p <;> simp [h]

theorem find_rec_app (a b : List Rec) (p : List Str) :
    find_rec (a ++ b) p = (find_rec a p).or (find_rec b p) := by
  unfold find_rec
  rw [List.find?_append]

theorem lookup_mem (es : List (Str × Tree)) (n : Str) (c : Tree) (h : es.lookup n = some c) :
    (n, c) ∈ es := by
  induction es with
  | nil => simp [List.lookup] at h
  | cons e r ih =>
    obtain ⟨m, t⟩ := e
    by_cases hb : (n == m) = true
    · simp only [List.lookup, hb] at h
      have : n = m := by simpa using hb
      cases h
      simp [this]
    · have hb2 : (n == m) = false := by simpa using hb
      simp only [List.lookup, hb2] at h
      simp [ih h]

theorem lookup_cons (es : List (Str × Tree)) (n m : Str) (t : Tree) :
    List.lookup n ((m, t) :: es) = if n = m then some t else es.lookup n := by
  by_cases h : n = m
  · simp [List.lookup, h]
  · have hb : (n == m) = false := by simpa using h
    simp [List.lookup, hb, h]

theorem lookup_none_of_not_mem (es : List (Str × Tree)) (n : Str)
    (h : n ∉ es.map Prod.fst) : es.lookup n = none := by
  cases hl : es.lookup n with
  | none => rfl
  | some c => exact absurd (List.mem_map.mpr ⟨(n, c), lookup_mem es n c hl, rfl⟩) h

theorem snoc_eq_cons_iff (ns : List Str) (m n : Str) (q : List Str) :
    ns ++ [m] = ns ++ n :: q ↔ m = n ∧ q = [] := by
  constructor
  · intro h
    have := List.append_cancel_left h
    simp at this
    exact ⟨this.1, this.2⟩
  · rintro ⟨rfl, rfl⟩
    rfl

/-- Where the file records of a directory hold the path `ns ++ n :: q`. -/
theorem find_file_records (ns : List Str) (n : Str) (q : List Str) :
    ∀ (es : List (Str × Tree)), (es.map Prod.fst).Nodup →
      find_rec (file_records ns es) (ns ++ n :: q) =
        if q = [] then
          match es.lookup n with
          | some (Tree.file mode mtime _ data) =>
            some (Rec.F (ns ++ [n]) (mode &&& 0o777) mtime data)
          | _ => none
        else none := by
  intro es
  induction es with
  | nil => intro _; simp [file_records, find_rec, List.lookup]
  | cons e r ih =>
    intro hnd
    obtain ⟨m, t⟩ := e
    simp only [List.map_cons, List.nodup_cons] at hnd
    rw [lookup_cons]
    by_cases hnm : n = m
    · subst hnm
      have hr := lookup_none_of_not_mem r n hnd.1
      have ihr := ih hnd.2
      rw [hr] at ihr
      simp only [if_true]
      cases t with
      | file a b c d =>
        rw [file_records_file, find_rec_cons]
        simp only [Rec.names, snoc_eq_cons_iff, true_and]
        by_cases hq : q = []
        · simp [hq]
        · rw [if_neg hq, if_neg hq, ihr]
          simp
      | dir rd es2 =>
        rw [file_records_dir, ihr]
      | other =>
        rw [file_records_other, ihr]
    · rw [if_neg hnm]
      cases t with
      | file a b c d =>
        rw [file_records_file, find_rec_cons]
        simp only [Rec.names, snoc_eq_cons_iff]
        rw [if_neg (fun h => hnm h.1.symm)]
        exact ih hnd.2
      | dir rd es2 =>
        rw [file_records_dir]
        exact ih hnd.2
      | other =>
        rw [file_records_other]
        exact ih hnd.2

/-- Where the records of the subdirectories hold the path `ns ++ n :: q`. -/
theorem find_subdir_records (ns : List Str) (n : Str) (q : List Str) :
    ∀ (es : List (Str × Tree)), (es.map Prod.fst).Nodup →
      find_rec (Tree.records.subdir_records ns es) (ns ++ n :: q) =
        match es.lookup n with
        | some c => find_rec (Tree.records (ns ++ [n]) c) (ns ++ n :: q)
        | none => none := by
  intro es
  induction es with
  | nil => intro _; simp [Tree.records.subdir_records, find_rec, List.lookup]
  | cons e r ih =>
    intro hnd
    obtain ⟨m, t⟩ := e
    simp only [List.map_cons, List.nodup_cons] at hnd
    rw [lookup_cons, subdir_records_cons, find_rec_app]
    by_cases hnm : n = m
    · subst hnm
      have hA : find_rec (Tree.records.subdir_records ns r) (ns ++ n :: q) = none := by
        rw [find_rec_none_iff]
        intro x hx e
        obtain ⟨n2, rd, es2, rest, hm, hn⟩ := subdir_records_below ns r x hx
        rw [hn] at e
        have e2 : ns ++ [n2] ++ rest = ns ++ [n] ++ q := by simpa using e
        obtain ⟨e3, _⟩ := snoc_prefix_cancel ns n2 n rest q e2
        subst e3
        exact hnd.1 (List.mem_map.mpr ⟨(n2, Tree.dir rd es2), hm, rfl⟩)
      rw [hA]
      simp
    · have hB : find_rec (Tree.records (ns ++ [m]) t) (ns ++ n :: q) = none := by
        rw [find_rec_none_iff]
        intro x hx e
        obtain ⟨rest, hn⟩ := records_below _ t (le_refl _) (ns ++ [m]) x hx
        rw [hn] at e
        have e2 : ns ++ [m] ++ rest = ns ++ [n] ++ q := by simpa using e
        exact hnm (snoc_prefix_cancel ns m n rest q e2).1.symm
      rw [hB, if_neg hnm, ih hnd.2]
      simp

/-- The producer writes one record for every directory and regular file of the
tree, under the names that lead to it, and no other record. -/
theorem find_rec_records :
    ∀ (q : List Str) (t : Tree) (ns : List Str), (∃ rd es, t = Tree.dir rd es) →
      t.wf = true →
      find_rec (Tree.records ns t) (ns ++ q) = rec_of (ns ++ q) (t.descend q) := by
  intro q
  induction q with
  | nil =>
    intro t ns ⟨rd, es, he⟩ _
    subst he
    rw [records_dir, find_rec_cons]
    simp [Rec.names, Tree.descend, rec_of]
  | cons n q ih =>
    intro t ns ⟨rd, es, he⟩ hwf
    subst he
    obtain ⟨hnd, hv⟩ := tree_wf_dir rd es hwf
    have hne : ¬ ns = ns ++ n :: q := by
      intro e
      have := congrArg List.length e
      simp at this
    rw [records_dir, find_rec_cons]
    simp only [Rec.names, hne, if_false]
    rw [find_rec_app, find_file_records ns n q es hnd, find_subdir_records ns n q es hnd]
    simp only [Tree.descend]
    cases hl : es.lookup n with
    | none => simp [rec_of]
    | some c =>
      have hcw := (hv n c (lookup_mem es n c hl)).2
      cases c with
      | file a b rd2 d =>
        simp only [records_file]
        cases q with
        | nil => simp [Tree.descend, rec_of, find_rec]
        | cons x xs => simp [Tree.descend, rec_of, find_rec]
      | other =>
        simp only [records_other]
        cases q with
        | nil => simp [Tree.descend, rec_of, find_rec]
        | cons x xs => simp [Tree.descend, rec_of, find_rec]
      | dir rd2 es2 =>
        have e : ns ++ n :: q = (ns ++ [n]) ++ q := by simp
        have := ih (Tree.dir rd2 es2) (ns ++ [n]) ⟨rd2, es2, rfl⟩ hcw
        rw [← e] at this
        simp only [this]
        split_ifs <;> simp

end Mirrormediad

namespace Mirrormediad

/-! ## Producer: order of the records -/

theorem parents_first_append :
    ∀ (a b done : List Rec),
      parents_first done (a ++ b) = (parents_first done a && parents_first (done ++ a) b) := by
  intro a
  induction a with
  | nil => intro b done; simp [parents_first]
  | cons x xs ih =>
    intro b done
    show ((decide (x.names = []) || decide (Rec.D x.names.dropLast ∈ done)) &&
        parents_first (done ++ [x]) (xs ++ b)) =
      (((decide (x.names = []) || decide (Rec.D x.names.dropLast ∈ done)) &&
        parents_first (done ++ [x]) xs) && parents_first (done ++ x :: xs) b)
    rw [ih, Bool.and_assoc]
    simp

theorem parents_first_files (ns : List Str) :
    ∀ (es : List (Str × Tree)) (done : List Rec), Rec.D ns ∈ done →
      parents_first done (file_records ns es) = true := by
  intro es
  induction es with
  | nil => intro done _; rfl
  | cons e r ih =>
    intro done hD
    obtain ⟨m, t⟩ := e
    cases t with
    | dir rd es2 => rw [file_records_dir]; exact ih done hD
    | other => rw [file_records_other]; exact ih done hD
    | file a b c d =>
      rw [file_records_file, parents_first, Bool.and_eq_true]
      refine ⟨?_, ih _ (by simp [hD])⟩
      simp [Rec.names, hD]

/-- In the records of a directory every record comes after the `D` record of its
parent directory. -/
theorem parents_first_records : ∀ (k : Nat) (t : Tree), t.size ≤ k →
    ∀ (ns : List Str) (done : List Rec), (ns = [] ∨ Rec.D ns.dropLast ∈ done) →
      parents_first done (Tree.records ns t) = true := by
  intro k
  induction k with
  | zero =>
    intro t ht
    cases t <;> simp [Tree.size] at ht
  | succ k ih =>
    intro t ht ns done hpar
    cases t with
    | file a b c d => rw [records_file]; rfl
    | other => rw [records_other]; rfl
    | dir rd es =>
      rw [size_dir] at ht
      rw [records_dir, parents_first, Bool.and_eq_true]
      constructor
      · rcases hpar with h | h
        · simp [Rec.names, h]
        · simp [Rec.names, h]
      · rw [parents_first_append, Bool.and_eq_true]
        refine ⟨parents_first_files ns es _ (by simp), ?_⟩
        have hs : ∀ (es2 : List (Str × Tree)) (done2 : List Rec),
            Tree.size.size_list es2 ≤ k → Rec.D ns ∈ done2 →
            parents_first done2 (Tree.records.subdir_records ns es2) = true := by
          intro es2
          induction es2 with
          | nil => intro _ _ _; rfl
          | cons e2 r2 ih2 =>
            intro done2 hsz hD
            obtain ⟨m, t2⟩ := e2
            rw [size_list_cons] at hsz
            rw [subdir_records_cons, parents_first_append, Bool.and_eq_true]
            refine ⟨ih2 done2 (by omega) hD, ?_⟩
            apply ih t2 (by omega)
            right
            rw [List.dropLast_concat]
            simp [hD]
        exact hs es _ (by omega) (by simp)

/-- C7: for a readable, well-formed directory tree `dump_tree_to_fd` returns
success and writes exactly the magic `MM01`, the records of the tree and the `E`
record; the records are a `D` record (mode 0770, mtime 0, size 0, no payload) for
each directory and an `F` record (mode & 0777, mtime, size, then the payload) for
each regular file, under its relative path; the root comes first with the empty
path and every record comes after the `D` record of its parent directory; the
integers are little-endian. For the tree of scenario 1 the output is
`MM01 || D('') || D('files') || F('files/a.bin', 0644, T, 3) || 'abc' || E`. -/
theorem dump_tree_to_fd_writes (src : Tree) (logical_src : Str) (r : Str × Str)
    (es : List (Str × Tree))
    (hres : logical_to_real_root logical_src = some r)
    (h0 : ∀ x ∈ logical_src, x ≠ 0)
    (hbase : src.resolve (base_dir_of r) = some (Tree.dir true es))
    (hwf : (Tree.dir true es).wf = true) (hrd : (Tree.dir true es).readable = true) :
    dump_tree_to_fd src logical_src =
      some (true, ascii "MM01" ++ encode_all (Tree.records [] (Tree.dir true es)) ++
        mm01_end) ∧
    (Tree.records [] (Tree.dir true es)).head? = some (Rec.D []) ∧
    (∀ q, find_rec (Tree.records [] (Tree.dir true es)) q =
      rec_of q ((Tree.dir true es).descend q)) ∧
    parents_first [] (Tree.records [] (Tree.dir true es)) = true ∧
    (∀ ns, (Rec.D ns).encode =
      'D'.toNat :: ((rel_of ns).length % 256) :: ((rel_of ns).length / 256 % 256) ::
        ([0xf8, 0x01, 0, 0] ++ List.replicate 16 0 ++ rel_of ns)) ∧
    (∀ ns mode mtime data, (Rec.F ns mode mtime data).encode =
      'F'.toNat :: (le_encode 2 (rel_of ns).length ++ le_encode 4 mode ++ le_encode 8 mtime ++
        le_encode 8 data.length ++ rel_of ns ++ data)) ∧
    mm01_end = 'E'.toNat :: List.replicate 22 0 ∧
    le_encode 4 0x04030201 = [1, 2, 3, 4] := by
  refine ⟨dump_tree_to_fd_eq src logical_src r es hres h0 hbase hwf hrd, ?_, ?_, ?_, ?_, ?_,
    by decide, by decide⟩
  · rw [records_dir]; rfl
  · intro q
    have := find_rec_records q (Tree.dir true es) [] ⟨true, es, rfl⟩ hwf
    simpa using this
  · exact parents_first_records _ _ (le_refl _) [] [] (Or.inl rfl)
  · intro ns
    simp [Rec.encode, mm01_record, le_encode, ascii]
  · intro ns mode mtime data
    simp [Rec.encode, mm01_record, le_encode]

theorem dump_tree_to_fd_writes_witness :
    dump_tree_to_fd (scenario1_tree 1700000000) (ascii "/data/data/com.example.app") =
      some (true, scenario1_stream 1700000000) := by
  have h := (dump_tree_to_fd_writes (scenario1_tree 1700000000)
    (ascii "/data/data/com.example.app")
    (ascii "/data/user/0", ascii "com.example.app")
    [(ascii "files", Tree.dir true [(ascii "a.bin",
      Tree.file 0o644 1700000000 true (ascii "abc"))])]
    (by decide) (by decide) rfl (by decide) (by decide)).1
  rw [h]
  decide

end Mirrormediad

namespace Mirrormediad

/-! ## Round trip of `DUMP` and `PUTRAW` -/

theorem file_mode_and (mode : Nat) :
    file_mode (mode &&& 0o777) = if mode &&& 0o777 = 0 then 0o600 else mode &&& 0o777 := by
  unfold file_mode
  rw [Nat.and_assoc, Nat.and_self]
  by_cases h : mode &&& 0o777 = 0 <;> simp [h]

theorem inode_of_rec_of (ctx : RestoreCtx) (q : List Str) (t : Option Tree) :
    (rec_of q t).map (inode_of ctx) = restored_inode ctx q t := by
  cases t with
  | none => rfl
  | some t =>
    cases t with
    | dir rd es => rfl
    | other => rfl
    | file mode mtime rd data =>
      show some (Inode.file (file_mode (mode &&& 0o777)) ctx.uid ctx.gid data) = _
      rw [file_mode_and]
      rfl

/-- C6, refuted as stated: the external data directory of `com.example.app` holds
one regular file named `a..b`; `DUMP` of `/sdcard/Android/data/com.example.app`
followed by `PUTRAW` of its output to the same logical path on an empty filesystem
answers success on both sides, and the file is not in the destination. -/
theorem round_trip_loses_dotdot_name :
    dotdot_tree.resolve (ascii "/data/media/0/Android/data/com.example.app/a..b") =
      some (Tree.file 0o644 0 true (ascii "x")) ∧
    ((dump_tree_to_fd dotdot_tree (ascii "/sdcard/Android/data/com.example.app")).map
      (fun o => o.1)) = some true ∧
    ((dump_tree_to_fd dotdot_tree (ascii "/sdcard/Android/data/com.example.app")).bind
      (fun o => (restore_tree_from_fd 1078 o.2 (ascii "/sdcard/Android/data/com.example.app")
        10123 (FS.empty 0o77)).map
          (fun r => (r.ok, r.fs.lookup_path
            (ascii "/data/media/0/Android/data/com.example.app/a..b"))))) =
      some (true, none) := by
  refine ⟨rfl, ?_, ?_⟩ <;> decide

/-- C6 as amended: the source directory is readable and holds only directories and
regular files whose names contain neither `..` nor a NUL byte, with relative paths
shorter than 65536 bytes, and the logical path is one whose `PUTRAW` root is the
`DUMP` base directory `Rc`; then `DUMP` returns success, and `PUTRAW` of its output
to the same logical path with owner `uid`, into an absent or empty destination,
returns success and leaves below `Rc` exactly the directories and regular files of
the source: each file with the same content and the mode `mode & 0777` (0600 when
that is zero), each directory with the mode of its depth, all owned by `uid`. -/
theorem dump_putraw_round_trip (g : Nat) (src : Tree) (logical root0 rb : Str) (uid : Int)
    (es : List (Str × Tree)) (Rc : List Str) (fs0 : FS)
    (hres : logical_to_real_root logical = some (root0, rb))
    (h0 : ∀ x ∈ logical, x ≠ 0)
    (hbase : base_dir_of (root0, rb) = abs_of Rc)
    (hroot : (restore_ctx g logical root0 uid).real_root = abs_of Rc)
    (hRv : ∀ c ∈ Rc, valid_name c = true) (hRne : Rc ≠ [])
    (hsrc : src.resolve (abs_of Rc) = some (Tree.dir true es))
    (hwf : (Tree.dir true es).wf = true) (hrd : (Tree.dir true es).readable = true)
    (hport : (Tree.dir true es).portable [] = true)
    (huid : 0 ≤ uid) (hfresh : FreshDest Rc fs0) :
    ∃ out fs1 r, dump_tree_to_fd src logical = some (true, out) ∧
      restore_tree_from_fd g out logical uid fs0 = some ⟨true, fs1, r⟩ ∧
      (restore_ctx g logical root0 uid).uid = uid.toNat ∧
      ∀ q, fs1.node (Rc ++ q) =
        restored_inode (restore_ctx g logical root0 uid) q ((Tree.dir true es).descend q) := by
  have hd := dump_tree_to_fd_eq src logical (root0, rb) es hres h0 (by rw [hbase]; exact hsrc)
    hwf hrd
  have hrec := records_dir [] true es
  have hw := root_records_wf true es hwf hport
  obtain ⟨fs1, r, hrun, hinv⟩ := restore_tree_stream g logical root0 rb uid Rc _ [] fs0 hres huid
    hroot hRv hRne hfresh hw
  rw [List.append_nil] at hrun
  refine ⟨_, fs1, r, hd, ?_, rfl, ?_⟩
  · rw [hrec]
    exact hrun
  · intro q
    rw [hinv.1 q, ← inode_of_rec_of]
    have := find_rec_records q (Tree.dir true es) [] ⟨true, es, rfl⟩ hwf
    rw [hrec] at this
    simp only [List.nil_append] at this
    rw [this]

theorem dump_putraw_round_trip_witness :
    ∃ out fs1 r, dump_tree_to_fd (scenario3_tree 1700000000)
        (ascii "/sdcard/Android/data/com.example.app") = some (true, out) ∧
      restore_tree_from_fd 1078 out (ascii "/sdcard/Android/data/com.example.app") 10123
        (FS.empty 0o77) = some ⟨true, fs1, r⟩ ∧
      (restore_ctx 1078 (ascii "/sdcard/Android/data/com.example.app")
        (ascii "/data/media/0/Android/data") 10123).uid = (10123 : Int).toNat ∧
      ∀ q, fs1.node (ext_base ++ [ascii "com.example.app"] ++ q) =
        restored_inode (restore_ctx 1078 (ascii "/sdcard/Android/data/com.example.app")
          (ascii "/data/media/0/Android/data") 10123) q
          ((Tree.dir true [(ascii "files", Tree.dir true [(ascii "a.bin",
            Tree.file 0o644 1700000000 true (ascii "abc"))])]).descend q) :=
  dump_putraw_round_trip 1078 (scenario3_tree 1700000000)
    (ascii "/sdcard/Android/data/com.example.app") (ascii "/data/media/0/Android/data")
    (ascii "com.example.app") 10123
    [(ascii "files", Tree.dir true [(ascii "a.bin",
      Tree.file 0o644 1700000000 true (ascii "abc"))])]
    (ext_base ++ [ascii "com.example.app"]) (FS.empty 0o77)
    (by decide) (by decide) (by decide) (by decide) (by decide) (by decide) rfl
    (by decide) (by decide) (by decide) (by decide) (fresh_dest_empty _ _ (by decide))

end Mirrormediad

namespace Mirrormediad

/-! ## Consumer: records of a valid stream, fuel -/

theorem rN_eq (n : Nat) (inp : Str) :
    rN n inp = if n ≤ inp.length then (some (le_decode (inp.take n)), inp.drop n)
      else (none, []) := by
  unfold rN read_fully
  split_ifs <;> rfl

theorem rN_some (n : Nat) (inp : Str) (v : Nat) (rest : Str) (h : rN n inp = (some v, rest)) :
    rest.length + n = inp.length := by
  rw [rN_eq] at h
  split_ifs at h with hl
  · simp only [Prod.mk.injEq] at h
    rw [← h.2, List.length_drop]
    omega
  · simp at h

theorem read_header_some (inp : Str) (a b c d : Nat) (rest : Str)
    (h : read_header inp = some (a, b, c, d, rest)) : rest.length + 22 = inp.length := by
  unfold read_header at h
  cases h1 : rN 2 inp with
  | mk o1 i1 =>
    cases o1 with
    | none => simp [h1] at h
    | some v1 =>
      cases h2 : rN 4 i1 with
      | mk o2 i2 =>
        cases o2 with
        | none => simp [h1, h2] at h
        | some v2 =>
          cases h3 : rN 8 i2 with
          | mk o3 i3 =>
            cases o3 with
            | none => simp [h1, h2, h3] at h
            | some v3 =>
              cases h4 : rN 8 i3 with
              | mk o4 i4 =>
                cases o4 with
                | none => simp [h1, h2, h3, h4] at h
                | some v4 =>
                  simp only [h1, h2, h3, h4, Option.some.injEq, Prod.mk.injEq] at h
                  have e1 := rN_some _ _ _ _ h1
                  have e2 := rN_some _ _ _ _ h2
                  have e3 := rN_some _ _ _ _ h3
                  have e4 := rN_some _ _ _ _ h4
                  rw [← h.2.2.2.2]
                  omega

theorem drain_then_congr (k k2 : Str → FS → Option RestoreResult) (size : Nat) (i2 : Str)
    (fs : FS) (hk : ∀ i fs1, i.length ≤ i2.length → k i fs1 = k2 i fs1) :
    drain_then k size i2 fs = drain_then k2 size i2 fs := by
  unfold drain_then
  rw [payload_loop_eq 4096 (by decide) _ _ _ _ (Nat.lt_succ_self _)]
  by_cases h : size ≤ i2.length
  · simp only [h, if_true]
    exact hk _ _ (by simp)
  · simp only [h, if_false]

theorem drain_then_short (k : Str → FS → Option RestoreResult) (size : Nat) (i2 : Str)
    (fs : FS) (h : i2.length < size) :
    drain_then k size i2 fs = some ⟨false, fs, []⟩ := by
  unfold drain_then
  rw [payload_loop_eq 4096 (by decide) _ _ _ _ (Nat.lt_succ_self _)]
  have : ¬ size ≤ i2.length := by omega
  simp only [this, if_false]

/-- The continuation of `restore_entry` is only applied to what is left of the
input. -/
theorem restore_entry_congr (ctx : RestoreCtx) (k k2 : Str → FS → Option RestoreResult)
    (tag mode size : Nat) (rel i2 : Str) (fs : FS)
    (hk : ∀ i fs1, i.length ≤ i2.length → k i fs1 = k2 i fs1) :
    restore_entry ctx k tag mode size rel i2 fs =
      restore_entry ctx k2 tag mode size rel i2 fs := by
  have hd := fun fs1 => drain_then_congr k k2 size i2 fs1 hk
  have hk0 := fun fs1 => hk i2 fs1 (le_refl _)
  unfold restore_entry
  rw [payload_loop_eq (256 * 1024) (by decide) _ _ _ _ (Nat.lt_succ_self _)]
  simp only [hd, hk0]
  by_cases h : size ≤ i2.length
  · simp only [h, if_true]
    have h3 := fun fs1 => hk (i2.drop size) fs1 (by simp)
    simp only [h3]
  · simp only [h, if_false]

/-- An `F` record whose payload is cut short is fatal, whatever is done with the
record. -/
theorem restore_entry_short (ctx : RestoreCtx) (k : Str → FS → Option RestoreResult)
    (mode size : Nat) (rel i2 : Str) (fs : FS) (h : i2.length < size) :
    ∃ r, restore_entry ctx k 'F'.toNat mode size rel i2 fs = some r ∧ r.ok = false := by
  have hd := fun fs1 => drain_then_short k size i2 fs1 h
  have hne : ¬ size ≤ i2.length := by omega
  have hFD : ¬ 'F'.toNat = 'D'.toNat := by decide
  unfold restore_entry
  rw [payload_loop_eq (256 * 1024) (by decide) _ _ _ _ (Nat.lt_succ_self _), sanitize_rel_eq]
  simp only [hd, hne, if_false, hFD, if_true]
  split_ifs
  · exact ⟨_, rfl, rfl⟩
  · dsimp only
    split
    · exact ⟨_, rfl, rfl⟩
    · split
      · exact ⟨_, rfl, rfl⟩
      · exact ⟨_, rfl, rfl⟩

/-- A complete `D` or `F` record is never fatal: the loop goes on after its last
byte, on a filesystem that depends on the record and the filesystem only. -/
theorem restore_entry_complete (ctx : RestoreCtx) (tag mode size : Nat) (rel payload : Str)
    (fs : FS) (htag : tag = 'D'.toNat ∨ tag = 'F'.toNat)
    (hpay : payload.length = if tag = 'F'.toNat then size else 0) :
    ∃ fs1, ∀ (k : Str → FS → Option RestoreResult) (rest : Str),
      restore_entry ctx k tag mode size rel (payload ++ rest) fs = k rest fs1 := by
  have hFD : ¬ 'F'.toNat = 'D'.toNat := by decide
  have hpl : ∀ rest : Str, tag = 'F'.toNat →
      payload_loop (256 * 1024) ((payload ++ rest).length + 1) size (payload ++ rest) [] =
        some (true, payload, rest) := by
    intro rest hF
    rw [payload_loop_eq (256 * 1024) (by decide) _ _ _ _ (Nat.lt_succ_self _)]
    simp only [hF, if_true] at hpay
    subst hpay
    simp
  by_cases hrej : (sanitize_rel rel).map Prod.fst = some false
  · exact ⟨fs, fun k rest => restore_entry_rejected ctx k tag mode size rel payload rest fs hrej hpay⟩
  · rw [sanitize_rel_eq] at hrej
    have hacc : (str_find (ascii "..") rel).isSome = false := by
      by_contra hc
      simp only [Bool.not_eq_false] at hc
      simp [hc] at hrej
    rcases htag with hD | hF
    · subst hD
      have hp0 : payload = [] := by simpa using hpay
      subst hp0
      cases he : ensure_dir_all (restore_out_path ctx.real_root (collapse_runs (strip_leading rel)))
        (dir_mode ctx (collapse_runs (strip_leading rel))) fs with
      | mk b fs1 =>
        cases b with
        | false =>
          refine ⟨fs1, fun k rest => ?_⟩
          unfold restore_entry
          rw [sanitize_rel_eq]
          simp [hacc, he]
        | true =>
          refine ⟨(fs1.chown (restore_out_path ctx.real_root (collapse_runs (strip_leading rel)))
            ctx.uid ctx.gid).chmod
              (restore_out_path ctx.real_root (collapse_runs (strip_leading rel)))
              (dir_mode ctx (collapse_runs (strip_leading rel))), fun k rest => ?_⟩
          unfold restore_entry
          rw [sanitize_rel_eq]
          simp [hacc, he]
    · subst hF
      have hdr := fun (k : Str → FS → Option RestoreResult) (rest : Str) (fs1 : FS) =>
        drain_then_complete k size payload rest fs1 (by simpa using hpay)
      cases he : ensure_dir_all
        (dirname_of (restore_out_path ctx.real_root (collapse_runs (strip_leading rel))))
        (parent_mode ctx
          (dirname_of (restore_out_path ctx.real_root (collapse_runs (strip_leading rel))))) fs with
      | mk b fs1 =>
        cases b with
        | false =>
          refine ⟨fs1, fun k rest => ?_⟩
          unfold restore_entry
          rw [sanitize_rel_eq]
          simp [hacc, he, hFD, hdr]
        | true =>
          cases ho : ((fs1.chown
              (dirname_of (restore_out_path ctx.real_root (collapse_runs (strip_leading rel))))
              ctx.uid ctx.gid).chmod
              (dirname_of (restore_out_path ctx.real_root (collapse_runs (strip_leading rel))))
              (parent_mode ctx
                (dirname_of (restore_out_path ctx.real_root
                  (collapse_runs (strip_leading rel)))))).open_create
              (restore_out_path ctx.real_root (collapse_runs (strip_leading rel)))
              (file_mode mode) with
          | mk o fs3 =>
            cases o with
            | none =>
              refine ⟨fs3, fun k rest => ?_⟩
              unfold restore_entry
              rw [sanitize_rel_eq]
              simp [hacc, he, hFD, hdr, ho]
            | some ofd =>
              refine ⟨((fs3.write ofd payload).fchown ofd ctx.uid ctx.gid).fchmod ofd
                (file_mode mode), fun k rest => ?_⟩
              unfold restore_entry
              rw [sanitize_rel_eq, hpl rest rfl]
              simp [hacc, he, hFD, ho]

end Mirrormediad

namespace Mirrormediad

theorem restore_loop_fuel (ctx : RestoreCtx) :
    ∀ (f1 : Nat) (inp : Str) (f2 : Nat) (fs : FS), inp.length < f1 → inp.length < f2 →
      restore_loop ctx f1 inp fs = restore_loop ctx f2 inp fs := by
  intro f1
  induction f1 with
  | zero => intro inp f2 fs h; omega
  | succ a ih =>
    intro inp f2 fs h1 h2
    obtain ⟨b, rfl⟩ : ∃ b, f2 = b + 1 := ⟨f2 - 1, by omega⟩
    conv_lhs => rw [restore_loop]
    conv_rhs => rw [restore_loop]
    cases h0 : rN 1 inp with
    | mk o i0 =>
      cases o with
      | none => rfl
      | some tag =>
        have e0 := rN_some _ _ _ _ h0
        dsimp only
        by_cases hE : tag = 'E'.toNat
        · simp only [hE, if_true]
        · simp only [hE, if_false]
          cases hh : read_header i0 with
          | none => rfl
          | some v =>
            obtain ⟨pathLen, mode, mtime, size, i1⟩ := v
            have e1 := read_header_some _ _ _ _ _ _ hh
            dsimp only
            cases hp : (if pathLen ≠ 0 then read_fully pathLen i1 else (some [], i1)) with
            | mk o2 i2 =>
              cases o2 with
              | none => rfl
              | some rel0 =>
                dsimp only
                have e2 : i2.length ≤ i1.length := by
                  split_ifs at hp with hz
                  · unfold read_fully at hp
                    split_ifs at hp with hl
                    · simp only [Prod.mk.injEq] at hp
                      rw [← hp.2]
                      simp
                    · simp at hp
                  · simp only [Prod.mk.injEq] at hp
                    rw [← hp.2]
                apply restore_entry_congr
                intro i fs1 hi
                exact ih i b fs1 (by omega) (by omega)

theorem mm01_record_length (tag : Nat) (path : Str) (mode mtime size : Nat) :
    (mm01_record tag path mode mtime size).length = 23 + path.length := by
  simp only [mm01_record, List.length_append, le_encode_length]

theorem entry_valid_iff (e : Entry) :
    e.valid = true ↔
      (e.tag = 'D'.toNat ∨ e.tag = 'F'.toNat) ∧ e.path.length < 65536 ∧ e.size < 2 ^ 64 ∧
        e.payload.length = if e.tag = 'F'.toNat then e.size else 0 := by
  simp [Entry.valid, and_assoc]

theorem encode_entries_append (A B : List Entry) :
    encode_entries (A ++ B) = encode_entries A ++ encode_entries B := by
  induction A with
  | nil => rfl
  | cons e A ih => simp [encode_entries, ih]

theorem record_tag (tag : Nat) (h : tag = 'D'.toNat ∨ tag = 'F'.toNat) :
    tag < 256 ∧ tag ≠ 'E'.toNat := by
  rcases h with h | h <;> subst h <;> decide

/-- The records of a valid stream are consumed one after the other: the loop
reaches what follows them, on a filesystem that does not depend on what follows. -/
theorem restore_loop_entries (ctx : RestoreCtx) :
    ∀ (A : List Entry), (∀ a ∈ A, a.valid = true) → ∀ fs : FS, ∃ fs1 : FS,
      ∀ (rest : Str) (f f2 : Nat), (encode_entries A ++ rest).length < f → rest.length < f2 →
        restore_loop ctx f (encode_entries A ++ rest) fs = restore_loop ctx f2 rest fs1 := by
  intro A
  induction A with
  | nil =>
    intro _ fs
    exact ⟨fs, fun rest f f2 h1 h2 => restore_loop_fuel ctx f _ f2 fs h1 h2⟩
  | cons e A ih =>
    intro hv fs
    obtain ⟨htag, hlen, hsz, hpay⟩ := (entry_valid_iff e).mp (hv e (List.mem_cons_self _ _))
    obtain ⟨ht1, ht2⟩ := record_tag e.tag htag
    obtain ⟨fse, he⟩ := restore_entry_complete ctx e.tag (e.mode % 256 ^ 4) e.size e.path
      e.payload fs htag hpay
    obtain ⟨fs1, h1⟩ := ih (fun a ha => hv a (List.mem_cons_of_mem _ ha)) fse
    refine ⟨fs1, fun rest f f2 hf hf2 => ?_⟩
    have hform : encode_entries (e :: A) ++ rest =
        mm01_record e.tag e.path e.mode e.mtime e.size ++
          (e.payload ++ (encode_entries A ++ rest)) := by
      simp [encode_entries, Entry.encode, List.append_assoc]
    rw [hform] at hf ⊢
    obtain ⟨f0, rfl⟩ : ∃ f0, f = f0 + 1 := ⟨f - 1, by omega⟩
    have hs : e.size % 256 ^ 8 = e.size := Nat.mod_eq_of_lt (by simpa using hsz)
    rw [restore_loop_record ctx f0 e.tag e.mode e.mtime e.size e.path _ fs ht1 ht2 hlen, hs, he]
    apply h1
    · simp only [List.length_append, mm01_record_length] at hf ⊢
      omega
    · exact hf2

/-- What `restore_tree_from_fd` does before the record loop does not depend on
what follows the magic. -/
theorem restore_tree_magic (g : Nat) (dst : Str) (uid : Int) (fs : FS) :
    (∃ fs1, ∀ X : Str, restore_tree_from_fd g (ascii "MM01" ++ X) dst uid fs =
      some ⟨false, fs1, ascii "MM01" ++ X⟩) ∨
    (∃ root rb fs1, logical_to_real_root dst = some (root, rb) ∧
      ∀ X : Str, restore_tree_from_fd g (ascii "MM01" ++ X) dst uid fs =
        restore_loop (restore_ctx g dst root uid) (X.length + 1) X fs1) := by
  have hm : ∀ X : Str, read_fully 4 (ascii "MM01" ++ X) = (some (ascii "MM01"), X) :=
    fun X => read_fully_append (ascii "MM01") X
  cases hr : logical_to_real_root dst with
  | none =>
    left
    exact ⟨fs, fun X => by simp [restore_tree_from_fd, hr]⟩
  | some v =>
    obtain ⟨root, rb⟩ := v
    by_cases hu : uid < 0
    · left
      exact ⟨fs, fun X => by simp [restore_tree_from_fd, hr, hu]⟩
    · cases he : ensure_dir_all (restore_ctx g dst root uid).real_root 0o700 fs with
      | mk b fs1 =>
        cases b with
        | false =>
          left
          exact ⟨fs1, fun X => by simp [restore_tree_from_fd, hr, hu, he]⟩
        | true =>
          right
          refine ⟨root, rb, fs1, rfl, fun X => ?_⟩
          simp [restore_tree_from_fd, hr, hu, he, hm X]

end Mirrormediad

namespace Mirrormediad

/-! ## `ensure_dir_all`: only new directories, idempotence -/

theorem extends_refl (fs : FS) : fs.extends_to fs := ⟨rfl, fun _ _ => rfl⟩

theorem extends_trans (a b c : FS) (h1 : a.extends_to b) (h2 : b.extends_to c) :
    a.extends_to c := by
  refine ⟨h1.1.trans h2.1, fun p hp => ?_⟩
  have e1 := h1.2 p hp
  rw [h2.2 p (by rw [e1]; exact hp), e1]

theorem extends_set (fs : FS) (t : List Str) (v : Inode) (h : (fs.node t).isSome = false) :
    fs.extends_to (fs.set t v) := by
  refine ⟨rfl, fun p hp => ?_⟩
  have : p ≠ t := by
    rintro rfl
    rw [h] at hp
    exact Bool.false_ne_true hp
  simp [FS.set, this]

theorem is_dir_extends (a b : FS) (h : a.extends_to b) (p : List Str)
    (hp : a.is_dir p = true) : b.is_dir p = true := by
  unfold FS.is_dir at hp ⊢
  cases hn : a.node p with
  | none => simp [hn] at hp
  | some v =>
    rw [h.2 p (by simp [hn]), hn]
    simpa [hn] using hp

theorem walk_step_extends (a b : FS) (h : a.extends_to b) (cur : Option (List Str)) (c : Str)
    (t : List Str) (hw : a.walk_step cur c = some t) : b.walk_step cur c = some t := by
  unfold FS.walk_step at hw ⊢
  cases cur with
  | none => simp at hw
  | some d =>
    dsimp only at hw ⊢
    by_cases hd : a.is_dir d = true
    · rw [if_pos hd] at hw
      rw [if_pos (is_dir_extends a b h d hd)]
      exact hw
    · rw [if_neg hd] at hw
      simp at hw

theorem foldl_walk_step_none (a : FS) (cs : List Str) : cs.foldl a.walk_step none = none := by
  induction cs with
  | nil => rfl
  | cons c cs ih => simpa [List.foldl, FS.walk_step] using ih

theorem foldl_walk_extends (a b : FS) (h : a.extends_to b) :
    ∀ (cs : List Str) (cur : Option (List Str)) (t : List Str),
      cs.foldl a.walk_step cur = some t → cs.foldl b.walk_step cur = some t := by
  intro cs
  induction cs with
  | nil => intro cur t hw; exact hw
  | cons c cs ih =>
    intro cur t hw
    simp only [List.foldl] at hw ⊢
    cases hs : a.walk_step cur c with
    | none =>
      rw [hs, foldl_walk_step_none] at hw
      simp at hw
    | some d =>
      rw [walk_step_extends a b h cur c d hs]
      rw [hs] at hw
      exact ih _ _ hw

theorem walk_extends (a b : FS) (h : a.extends_to b) (cs : List Str) (t : List Str)
    (hw : a.walk cs = some t) : b.walk cs = some t :=
  foldl_walk_extends a b h cs _ t hw

/-- `mkdir` only adds a directory, and once it has answered success or `EEXIST` it
answers `EEXIST` and changes nothing on every later filesystem. -/
theorem mkdir_step (fs : FS) (p : Str) (m : Nat) :
    fs.extends_to (fs.mkdir p m).2 ∧
    ((fs.mkdir p m).1 ≠ Errno.EOTHER → ∀ fs2 : FS, (fs.mkdir p m).2.extends_to fs2 →
      fs2.mkdir p m = (Errno.EEXIST, fs2)) := by
  unfold FS.mkdir
  by_cases hc : c_str p = []
  · simp only [hc, if_true]
    exact ⟨extends_refl fs, fun h => absurd rfl h⟩
  · simp only [hc, if_false]
    cases hw : fs.walk (path_components p) with
    | none => exact ⟨extends_refl fs, fun h => absurd rfl h⟩
    | some t =>
      dsimp only
      by_cases hx : ((fs.node t).isSome || FS.last_is_dot p) = true
      · rw [if_pos hx]
        refine ⟨extends_refl fs, fun _ fs2 h2 => ?_⟩
        dsimp only at h2
        rw [walk_extends fs fs2 h2 _ t hw]
        dsimp only
        have : ((fs2.node t).isSome || FS.last_is_dot p) = true := by
          rcases Bool.or_eq_true _ _ |>.mp hx with h | h
          · rw [h2.2 t h, h]; rfl
          · rw [h]; simp
        rw [if_pos this]
      · rw [if_neg hx]
        have hn : (fs.node t).isSome = false := by
          cases hh : (fs.node t).isSome
          · rfl
          · simp [hh] at hx
        have he := extends_set fs t (Inode.dir (fs.create_mode m) 0 0) hn
        refine ⟨he, fun _ fs2 h2 => ?_⟩
        dsimp only at h2
        rw [walk_extends fs fs2 (extends_trans _ _ _ he h2) _ t hw]
        dsimp only
        have : (fs2.node t).isSome = true := by
          rw [h2.2 t (by simp [FS.set])]
          simp [FS.set]
        rw [this]
        simp

theorem ensure_dir_scan_step (path : Str) (mode : Nat) :
    ∀ (cs pre : Str) (fs : FS),
      fs.extends_to (ensure_dir_scan path mode pre cs fs).2 ∧
      ((ensure_dir_scan path mode pre cs fs).1 = true → ∀ fs2 : FS,
        (ensure_dir_scan path mode pre cs fs).2.extends_to fs2 →
          ensure_dir_scan path mode pre cs fs2 = (true, fs2)) := by
  intro cs
  induction cs with
  | nil =>
    intro pre fs
    unfold ensure_dir_scan
    by_cases hp : path ≠ []
    · simp only [hp, if_true, ne_eq, not_false_eq_true]
      obtain ⟨h1, h2⟩ := mkdir_step fs path mode
      cases hm : fs.mkdir path mode with
      | mk e fs1 =>
        rw [hm] at h1 h2
        cases e with
        | EOTHER => exact ⟨h1, fun h => by simp at h⟩
        | OK =>
          refine ⟨h1, fun _ fs2 hx => ?_⟩
          rw [h2 (by simp) fs2 hx]
        | EEXIST =>
          refine ⟨h1, fun _ fs2 hx => ?_⟩
          rw [h2 (by simp) fs2 hx]
    · simp only [hp, if_false]
      exact ⟨extends_refl fs, fun _ fs2 _ => trivial⟩
  | cons c cs ih =>
    intro pre fs
    unfold ensure_dir_scan
    by_cases hc : c = SLASH
    · simp only [hc, if_true]
      by_cases hp : pre ≠ []
      · simp only [hp, if_true, ne_eq, not_false_eq_true]
        obtain ⟨h1, h2⟩ := mkdir_step fs pre mode
        cases hm : fs.mkdir pre mode with
        | mk e fs1 =>
          rw [hm] at h1 h2
          obtain ⟨i1, i2⟩ := ih (pre ++ [SLASH]) fs1
          cases e with
          | EOTHER => exact ⟨h1, fun h => by simp at h⟩
          | OK =>
            refine ⟨extends_trans _ _ _ h1 i1, fun hok fs2 hx => ?_⟩
            rw [h2 (by simp) fs2 (extends_trans _ _ _ i1 hx)]
            exact i2 hok fs2 hx
          | EEXIST =>
            refine ⟨extends_trans _ _ _ h1 i1, fun hok fs2 hx => ?_⟩
            rw [h2 (by simp) fs2 (extends_trans _ _ _ i1 hx)]
            exact i2 hok fs2 hx
      · simp only [hp, if_false]
        exact ih (pre ++ [SLASH]) fs
    · simp only [hc, if_false]
      exact ih (pre ++ [c]) fs

/-- `ensure_dir_all` adds directories and changes no inode that exists. -/
theorem ensure_dir_all_extends (path : Str) (mode : Nat) (fs : FS) :
    fs.extends_to (ensure_dir_all path mode fs).2 := by
  unfold ensure_dir_all
  split_ifs
  · exact extends_refl fs
  · exact extends_refl fs
  · exact (ensure_dir_scan_step path mode _ _ fs).1

theorem ensure_dir_all_again (path : Str) (mode : Nat) (fs fs1 : FS)
    (h : ensure_dir_all path mode fs = (true, fs1)) :
    ensure_dir_all path mode fs1 = (true, fs1) := by
  unfold ensure_dir_all at h ⊢
  split_ifs at h ⊢ with h1 h2
  · simp at h
  · simp at h
  · have hs := (ensure_dir_scan_step path mode (path.drop 1) (path.take 1) fs).2
    rw [h] at hs
    exact hs rfl fs1 (extends_refl fs1)

end Mirrormediad

namespace Mirrormediad

/-! ## Consumer: truncated payload, bad magic, skipped records, parent of the root -/

/-- C11: a valid stream (the magic, `D` and `F` records, the `E` record) is cut at a
point inside the payload of an `F` record, so that the record has fewer payload
bytes than its declared size; then `restore_tree_from_fd` returns, and it returns
failure. -/
theorem truncated_payload_fails (g : Nat) (dst : Str) (uid : Int) (fs : FS)
    (A B : List Entry) (e : Entry) (n : Nat)
    (hA : ∀ a ∈ A, a.valid = true) (he : e.valid = true) (hF : e.tag = 'F'.toNat)
    (hn1 : payload_start A e ≤ n) (hn2 : n < payload_start A e + e.size) :
    ∃ r, restore_tree_from_fd g ((mm01_stream (A ++ e :: B)).take n) dst uid fs = some r ∧
      r.ok = false := by
  obtain ⟨htag, hlen, hsz, hpay⟩ := (entry_valid_iff e).mp he
  obtain ⟨ht1, ht2⟩ := record_tag e.tag htag
  rw [if_pos hF] at hpay
  have hs : e.size % 256 ^ 8 = e.size := Nat.mod_eq_of_lt (by simpa using hsz)
  have hP : (ascii "MM01" ++ encode_entries A ++
      mm01_record e.tag e.path e.mode e.mtime e.size).length = payload_start A e := by
    simp only [List.length_append, mm01_record_length, payload_start]
    have : (ascii "MM01").length = 4 := rfl
    omega
  have hform : (mm01_stream (A ++ e :: B)).take n =
      ascii "MM01" ++ (encode_entries A ++
        (mm01_record e.tag e.path e.mode e.mtime e.size ++
          e.payload.take (n - payload_start A e))) := by
    have h1 : mm01_stream (A ++ e :: B) =
        (ascii "MM01" ++ encode_entries A ++ mm01_record e.tag e.path e.mode e.mtime e.size) ++
          (e.payload ++ (encode_entries B ++ mm01_end)) := by
      simp [mm01_stream, encode_entries_append, encode_entries, Entry.encode,
        List.append_assoc]
    have h2 : n = (ascii "MM01" ++ encode_entries A ++
        mm01_record e.tag e.path e.mode e.mtime e.size).length + (n - payload_start A e) := by
      rw [hP]
      omega
    rw [h1]
    conv_lhs => rw [h2]
    rw [List.take_append, List.take_append_of_le_length (by omega)]
    simp [List.append_assoc]
  rw [hform]
  rcases restore_tree_magic g dst uid fs with ⟨fs1, h⟩ | ⟨root, rb, fs1, _, h⟩
  · rw [h]
    exact ⟨_, rfl, rfl⟩
  · rw [h]
    obtain ⟨fs2, hl⟩ := restore_loop_entries (restore_ctx g dst root uid) A hA fs1
    rw [hl _ _ ((mm01_record e.tag e.path e.mode e.mtime e.size ++
      e.payload.take (n - payload_start A e)).length + 1) (Nat.lt_succ_self _)
      (Nat.lt_succ_self _)]
    rw [restore_loop_record _ _ e.tag e.mode e.mtime e.size e.path _ fs2 ht1 ht2 hlen, hs, hF]
    apply restore_entry_short
    rw [List.length_take]
    omega

theorem truncated_payload_fails_witness :
    ∃ r, restore_tree_from_fd 1078
        ((mm01_stream ([⟨'D'.toNat, [], 0o770, 0, 0, []⟩] ++
          ⟨'F'.toNat, ascii "a.bin", 0o644, 0, 3, ascii "abc"⟩ :: [])).take 56)
        (ascii "/data/data") 10123 (FS.empty 0o77) = some r ∧ r.ok = false :=
  truncated_payload_fails 1078 (ascii "/data/data") 10123 (FS.empty 0o77)
    [⟨'D'.toNat, [], 0o770, 0, 0, []⟩] [] ⟨'F'.toNat, ascii "a.bin", 0o644, 0, 3, ascii "abc"⟩ 56
    (by decide) (by decide) (by decide) (by decide) (by decide)

/-- C12: when the first four bytes of the input are not `MM01` (also when the input
has fewer than four bytes) `restore_tree_from_fd` returns failure; it has read at
most the four bytes of the magic, so no record; the filesystem is the one it was
given or that one after `ensure_dir_all(real_root, 0700)`, which depends on the
destination only, and no inode that existed has changed. -/
theorem bad_magic_fails (g : Nat) (inp dst : Str) (uid : Int) (fs : FS)
    (h : inp.take 4 ≠ ascii "MM01") :
    ∃ r, restore_tree_from_fd g inp dst uid fs = some r ∧ r.ok = false ∧
      (r.rest = inp ∨ r.rest = inp.drop 4) ∧
      (r.fs = fs ∨ ∃ root rb, logical_to_real_root dst = some (root, rb) ∧
        r.fs = (ensure_dir_all (restore_ctx g dst root uid).real_root 0o700 fs).2) ∧
      fs.extends_to r.fs := by
  unfold restore_tree_from_fd
  cases hr : logical_to_real_root dst with
  | none => exact ⟨_, rfl, rfl, Or.inl rfl, Or.inl rfl, extends_refl fs⟩
  | some v =>
    obtain ⟨root, rb⟩ := v
    dsimp only
    by_cases hu : uid < 0
    · rw [if_pos hu]
      exact ⟨_, rfl, rfl, Or.inl rfl, Or.inl rfl, extends_refl fs⟩
    · rw [if_neg hu]
      have hx := ensure_dir_all_extends (restore_ctx g dst root uid).real_root 0o700 fs
      cases he : ensure_dir_all (restore_ctx g dst root uid).real_root 0o700 fs with
      | mk b fs1 =>
        rw [he] at hx
        cases b with
        | false => exact ⟨_, rfl, rfl, Or.inl rfl, Or.inr ⟨root, rb, rfl, by rw [he]⟩, hx⟩
        | true =>
          dsimp only
          unfold read_fully
          by_cases hl : 4 ≤ inp.length
          · rw [if_pos hl]
            dsimp only
            rw [if_pos h]
            exact ⟨_, rfl, rfl, Or.inr rfl, Or.inr ⟨root, rb, rfl, by rw [he]⟩, hx⟩
          · rw [if_neg hl]
            refine ⟨_, rfl, rfl, Or.inr ?_, Or.inr ⟨root, rb, rfl, by rw [he]⟩, hx⟩
            dsimp only
            rw [List.drop_eq_nil_of_le (by omega)]

theorem bad_magic_fails_witness :
    ∃ r, restore_tree_from_fd 1078 (ascii "MM0") (ascii "/data/data") 10123 (FS.empty 0o77) =
        some r ∧ r.ok = false ∧
      (r.rest = ascii "MM0" ∨ r.rest = (ascii "MM0").drop 4) ∧
      (r.fs = FS.empty 0o77 ∨ ∃ root rb, logical_to_real_root (ascii "/data/data") =
          some (root, rb) ∧
        r.fs = (ensure_dir_all (restore_ctx 1078 (ascii "/data/data") root 10123).real_root
          0o700 (FS.empty 0o77)).2) ∧
      (FS.empty 0o77).extends_to r.fs :=
  bad_magic_fails 1078 (ascii "MM0") (ascii "/data/data") 10123 (FS.empty 0o77) (by decide)

end Mirrormediad

namespace Mirrormediad

/-- C13: an `F` record whose path `sanitize_rel` rejects has its `n` payload bytes
read and discarded and the filesystem is not touched, and a rejected `D` record
consumes nothing after its path, whatever its size field says: the loop goes on
with the bytes that follow; so the record loop, and `restore_tree_from_fd`, give
the same result and filesystem on a stream with the rejected record as on the
stream without it. -/
theorem rejected_record_is_transparent :
    (∀ (ctx : RestoreCtx) (k : Str → FS → Option RestoreResult) (mode n : Nat)
        (path payload rest : Str) (fs : FS),
      (sanitize_rel path).map Prod.fst = some false → payload.length = n →
      restore_entry ctx k 'F'.toNat mode n path (payload ++ rest) fs = k rest fs) ∧
    (∀ (ctx : RestoreCtx) (k : Str → FS → Option RestoreResult) (mode n : Nat)
        (path rest : Str) (fs : FS),
      (sanitize_rel path).map Prod.fst = some false →
      restore_entry ctx k 'D'.toNat mode n path rest fs = k rest fs) ∧
    (∀ (ctx : RestoreCtx) (A : List Entry) (e : Entry) (rest : Str) (fs : FS) (f1 f2 : Nat),
      (∀ a ∈ A, a.valid = true) → e.valid = true →
      (sanitize_rel e.path).map Prod.fst = some false →
      (encode_entries A ++ (e.encode ++ rest)).length < f1 →
      (encode_entries A ++ rest).length < f2 →
      restore_loop ctx f1 (encode_entries A ++ (e.encode ++ rest)) fs =
        restore_loop ctx f2 (encode_entries A ++ rest) fs) ∧
    (∀ (g : Nat) (dst : Str) (uid : Int) (fs : FS) (A : List Entry) (e : Entry) (rest : Str),
      (∀ a ∈ A, a.valid = true) → e.valid = true →
      (sanitize_rel e.path).map Prod.fst = some false →
      (restore_tree_from_fd g (ascii "MM01" ++ (encode_entries A ++ (e.encode ++ rest)))
          dst uid fs).map (fun r => (r.ok, r.fs)) =
        (restore_tree_from_fd g (ascii "MM01" ++ (encode_entries A ++ rest)) dst uid fs).map
          (fun r => (r.ok, r.fs))) := by
  have hloop : ∀ (ctx : RestoreCtx) (A : List Entry) (e : Entry) (rest : Str) (fs : FS)
      (f1 f2 : Nat), (∀ a ∈ A, a.valid = true) → e.valid = true →
      (sanitize_rel e.path).map Prod.fst = some false →
      (encode_entries A ++ (e.encode ++ rest)).length < f1 →
      (encode_entries A ++ rest).length < f2 →
      restore_loop ctx f1 (encode_entries A ++ (e.encode ++ rest)) fs =
        restore_loop ctx f2 (encode_entries A ++ rest) fs := by
    intro ctx A e rest fs f1 f2 hA he hrej h1 h2
    obtain ⟨htag, hlen, hsz, hpay⟩ := (entry_valid_iff e).mp he
    obtain ⟨ht1, ht2⟩ := record_tag e.tag htag
    have hs : e.size % 256 ^ 8 = e.size := Nat.mod_eq_of_lt (by simpa using hsz)
    obtain ⟨fs1, hl⟩ := restore_loop_entries ctx A hA fs
    have hform : e.encode ++ rest =
        mm01_record e.tag e.path e.mode e.mtime e.size ++ (e.payload ++ rest) := by
      simp [Entry.encode, List.append_assoc]
    obtain ⟨F, hF⟩ : ∃ F, F = (e.encode ++ rest).length := ⟨_, rfl⟩
    have hF2 : rest.length < F := by
      rw [hF]
      simp only [List.length_append, Entry.encode, mm01_record_length]
      omega
    rw [hl (e.encode ++ rest) f1 (F + 1) h1 (by omega), hl rest f2 F h2 hF2, hform]
    rw [restore_loop_record _ _ e.tag e.mode e.mtime e.size e.path _ fs1 ht1 ht2 hlen, hs]
    exact restore_entry_rejected ctx _ e.tag _ e.size e.path e.payload rest fs1 hrej hpay
  refine ⟨?_, ?_, hloop, ?_⟩
  · intro ctx k mode n path payload rest fs hrej hp
    exact restore_entry_rejected ctx k 'F'.toNat mode n path payload rest fs hrej
      (by simpa using hp)
  · intro ctx k mode n path rest fs hrej
    have hD : ¬ 'D'.toNat = 'F'.toNat := by decide
    have := restore_entry_rejected ctx k 'D'.toNat mode n path [] rest fs hrej
      (by rw [if_neg hD]; rfl)
    simpa using this
  · intro g dst uid fs A e rest hA he hrej
    rcases restore_tree_magic g dst uid fs with ⟨fs1, h⟩ | ⟨root, rb, fs1, _, h⟩
    · rw [h, h]
      rfl
    · rw [h, h, hloop _ A e rest fs1 _ _ hA he hrej (Nat.lt_succ_self _) (Nat.lt_succ_self _)]

theorem rejected_record_is_transparent_witness :
    (restore_tree_from_fd 1078
        (ascii "MM01" ++ (encode_entries [⟨'D'.toNat, [], 0o770, 0, 0, []⟩] ++
          (Entry.encode ⟨'F'.toNat, ascii "../escape.txt", 0o644, 0, 3, ascii "abc"⟩ ++
            (mm01_record 'D'.toNat (ascii "files") 0o770 0 0 ++ mm01_end))))
        (ascii "/data/data") 10123 (FS.empty 0o77)).map (fun r => (r.ok, r.fs)) =
      (restore_tree_from_fd 1078
        (ascii "MM01" ++ (encode_entries [⟨'D'.toNat, [], 0o770, 0, 0, []⟩] ++
          (mm01_record 'D'.toNat (ascii "files") 0o770 0 0 ++ mm01_end)))
        (ascii "/data/data") 10123 (FS.empty 0o77)).map (fun r => (r.ok, r.fs)) :=
  rejected_record_is_transparent.2.2.2 1078 (ascii "/data/data") 10123 (FS.empty 0o77)
    [⟨'D'.toNat, [], 0o770, 0, 0, []⟩]
    ⟨'F'.toNat, ascii "../escape.txt", 0o644, 0, 3, ascii "abc"⟩
    (mm01_record 'D'.toNat (ascii "files") 0o770 0 0 ++ mm01_end)
    (by decide) (by decide) (by decide)

/-- C18: if `ensure_dir_all(path, mode)` succeeds on a filesystem, the same call on
the resulting filesystem succeeds and leaves it unchanged; the call fails and
leaves the filesystem as it is when `path` is empty or does not begin with a
separator. -/
theorem ensure_dir_all_idempotent :
    (∀ (path : Str) (mode : Nat) (fs fs1 : FS), ensure_dir_all path mode fs = (true, fs1) →
      ensure_dir_all path mode fs1 = (true, fs1)) ∧
    (∀ (path : Str) (mode : Nat) (fs : FS), (path = [] ∨ path.head? ≠ some SLASH) →
      ensure_dir_all path mode fs = (false, fs)) := by
  refine ⟨ensure_dir_all_again, ?_⟩
  intro path mode fs h
  unfold ensure_dir_all
  rcases h with h | h
  · rw [if_pos h]
  · by_cases h1 : path = []
    · rw [if_pos h1]
    · rw [if_neg h1, if_pos h]

theorem ensure_dir_all_idempotent_witness :
    (ensure_dir_all (ascii "/a/b") 0o755 (FS.empty 0o22)).1 = true ∧
    ensure_dir_all (ascii "/a/b") 0o755 (ensure_dir_all (ascii "/a/b") 0o755 (FS.empty 0o22)).2 =
      (true, (ensure_dir_all (ascii "/a/b") 0o755 (FS.empty 0o22)).2) ∧
    ensure_dir_all (ascii "a/b") 0o755 (FS.empty 0o22) = (false, FS.empty 0o22) :=
  ⟨by decide,
   ensure_dir_all_idempotent.1 (ascii "/a/b") 0o755 (FS.empty 0o22) _
     (Prod.ext (by decide) rfl),
   ensure_dir_all_idempotent.2 (ascii "a/b") 0o755 (FS.empty 0o22) (Or.inr (by decide))⟩

/-- C20, the code at the failing input: `PUTRAW /sdcard/Android/data/com.example.app
UID 10123` on a stream whose only record is an `F` record with the empty path. The
path is accepted, `outPath` is the real root and its `dirname_of` is
`/data/media/0/Android/data`, which is neither the real root nor below it; that
directory, owned by uid 1023 with mode 0771 before, is owned by uid 10123 with mode
02700 afterwards, and the consumer returns success. -/
theorem empty_path_file_changes_parent_of_root :
    (restore_ctx 1078 (ascii "/sdcard/Android/data/com.example.app")
      (ascii "/data/media/0/Android/data") 10123).real_root =
        ascii "/data/media/0/Android/data/com.example.app" ∧
    sanitize_rel [] = some (true, []) ∧
    dirname_of (restore_out_path (ascii "/data/media/0/Android/data/com.example.app") []) =
      ascii "/data/media/0/Android/data" ∧
    ascii "/data/media/0/Android/data" ≠ ascii "/data/media/0/Android/data/com.example.app" ∧
    starts_with (ascii "/data/media/0/Android/data")
      (ascii "/data/media/0/Android/data/com.example.app" ++ ascii "/") = false ∧
    ext_root_fs.node ext_base = some (Inode.dir 0o771 1023 1078) ∧
    (restore_tree_from_fd 1078 empty_path_file_stream
        (ascii "/sdcard/Android/data/com.example.app") 10123 ext_root_fs).map
      (fun r => (r.ok, r.fs.node ext_base)) =
        some (true, some (Inode.dir 0o2700 10123 1078)) := by
  decide

end Mirrormediad

namespace Mirrormediad

/-! ## Producer: the paths of the records -/

theorem names_ok_dir (rd : Bool) (es : List (Str × Tree)) (h : (Tree.dir rd es).names_ok = true) :
    ∀ n c, (n, c) ∈ es → entry_name n = true ∧ c.names_ok = true := by
  rw [Tree.names_ok] at h
  induction es with
  | nil => intro n c hm; simp at hm
  | cons e r ih =>
    obtain ⟨m, t⟩ := e
    rw [Tree.names_ok.names_ok_list] at h
    simp only [Bool.and_eq_true] at h
    intro n c hm
    rcases List.mem_cons.mp hm with h1 | h1
    · cases h1
      exact ⟨h.1.1, h.1.2⟩
    · exact ih h.2 n c h1

theorem valid_of_entry_name (n : Str) (h : entry_name n = true) (h1 : n ≠ ascii ".")
    (h2 : n ≠ ascii "..") : valid_name n = true := by
  unfold entry_name at h
  unfold valid_name
  simp only [Bool.and_eq_true] at h ⊢
  exact ⟨⟨h, by simpa using h1⟩, by simpa using h2⟩

theorem tree_walk_step_ok (st : Option (List Tree)) (c : Str) (l : List Tree)
    (hst : ∀ l0, st = some l0 → ∀ t ∈ l0, t.names_ok = true)
    (h : Tree.walk_step st c = some l) : ∀ t ∈ l, t.names_ok = true := by
  unfold Tree.walk_step at h
  split at h
  · rename_i rd es up
    have h0 := hst _ rfl
    split_ifs at h with h1 h2
    · simp only [Option.some.injEq] at h
      rw [← h]
      exact h0
    · cases up with
      | nil =>
        simp only [Option.some.injEq] at h
        rw [← h]
        exact h0
      | cons u us =>
        simp only [Option.some.injEq] at h
        rw [← h]
        intro t ht
        exact h0 t (List.mem_cons_of_mem _ ht)
    · cases hl : es.lookup c with
      | none => simp [hl] at h
      | some ch =>
        simp only [hl, Option.map_some', Option.some.injEq] at h
        rw [← h]
        intro t ht
        rcases List.mem_cons.mp ht with e | e
        · rw [e]
          exact (names_ok_dir rd es (h0 _ (by simp)) c ch (lookup_mem es c ch hl)).2
        · exact h0 t e
  · simp at h

theorem tree_walk_ok : ∀ (cs : List Str) (st : Option (List Tree)) (l : List Tree),
    (∀ l0, st = some l0 → ∀ t ∈ l0, t.names_ok = true) →
    cs.foldl Tree.walk_step st = some l → ∀ t ∈ l, t.names_ok = true := by
  intro cs
  induction cs with
  | nil =>
    intro st l hst h
    exact hst l h
  | cons c cs ih =>
    intro st l hst h
    simp only [List.foldl] at h
    exact ih (Tree.walk_step st c) l (fun l0 h0 => tree_walk_step_ok st c l0 hst h0) h

theorem resolve_names_ok (root : Tree) (path : Str) (t : Tree) (hn : root.names_ok = true)
    (h : root.resolve path = some t) : t.names_ok = true := by
  unfold Tree.resolve at h
  by_cases hc : c_str path = []
  · simp [hc] at h
  rw [if_neg hc] at h
  cases hw : (path_components path).foldl Tree.walk_step (some [root]) with
  | none => simp [hw] at h
  | some l =>
    have hl := tree_walk_ok _ _ l (fun l0 h0 t ht => by
      simp only [Option.some.injEq] at h0
      rw [← h0] at ht
      simp only [List.mem_singleton] at ht
      rw [ht]
      exact hn) hw
    rw [hw] at h
    cases l with
    | nil => simp at h
    | cons a as =>
      cases a with
      | dir rd es =>
        simp only [Option.some.injEq] at h
        rw [← h]
        exact hl _ (by simp)
      | file m mt rd d =>
        simp only at h
        split_ifs at h
        simp only [Option.some.injEq] at h
        rw [← h]
        exact hl _ (by simp)
      | other =>
        simp only at h
        split_ifs at h
        simp only [Option.some.injEq] at h
        rw [← h]
        exact hl _ (by simp)

theorem opendir_names (root : Tree) (path : Str) (names : List Str) (hn : root.names_ok = true)
    (h : root.opendir path = some names) :
    ∀ n ∈ names, n = ascii "." ∨ n = ascii ".." ∨ entry_name n = true := by
  unfold Tree.opendir at h
  cases hr : root.resolve path with
  | none => simp [hr] at h
  | some t =>
    have ht := resolve_names_ok root path t hn hr
    rw [hr] at h
    cases t with
    | file m mt rd d => simp at h
    | other => simp at h
    | dir rd es =>
      cases rd with
      | false => simp at h
      | true =>
        simp only [Option.some.injEq] at h
        rw [← h]
        intro n hm
        simp only [List.mem_cons, List.mem_map, Prod.exists] at hm
        rcases hm with e | e | ⟨a, b, hab, rfl⟩
        · exact Or.inl e
        · exact Or.inr (Or.inl e)
        · exact Or.inr (Or.inr (names_ok_dir true es ht a b hab).1)

theorem split_slash_rel_of (ns : List Str) (h : ∀ n ∈ ns, valid_name n = true) (hne : ns ≠ []) :
    split_slash (rel_of ns) = ns := by
  induction ns using List.reverseRecOn with
  | nil => exact absurd rfl hne
  | append_singleton ms n ih =>
    have hms : ∀ m ∈ ms, valid_name m = true := fun m hm => h m (by simp [hm])
    obtain ⟨_, h2, _, _, _⟩ := (valid_name_iff n).mp (h n (by simp))
    rw [rel_of_snoc]
    unfold child_rel
    by_cases he : rel_of ms = []
    · have hm : ms = [] := by
        by_contra hc
        exact (rel_of_props ms hms).2.2.1 hc he
      rw [if_pos he, hm]
      simpa using split_slash_no_slash n h2
    · have hm : ms ≠ [] := by
        rintro rfl
        exact he rfl
      rw [if_neg he]
      have e : rel_of ms ++ ascii "/" ++ n = rel_of ms ++ SLASH :: n := by simp [ascii_slash1]
      rw [e, split_slash_append, ih hms hm, split_slash_no_slash n h2]

end Mirrormediad

namespace Mirrormediad

theorem good_out_snoc (out : Str) (r : Rec) (h : GoodOut out)
    (hr : (∀ n ∈ r.names, valid_name n = true) ∧ (r.names = [] → r = Rec.D [])) :
    GoodOut (out ++ r.encode) := by
  obtain ⟨recs, h1, h2⟩ := h
  refine ⟨recs ++ [r], ?_, ?_⟩
  · rw [h1, encode_all_append]
    simp [encode_all, List.append_assoc]
  · intro x hx
    rcases List.mem_append.mp hx with e | e
    · exact h2 x e
    · simp only [List.mem_singleton] at e
      rw [e]
      exact hr

theorem send_file_good (root : Tree) (full : Str) (ns : List Str) (ok : Bool) (bytes : Str)
    (h : send_file root (rel_of ns) full = some (ok, bytes)) :
    bytes = [] ∨ ∃ mode mtime data, bytes = (Rec.F ns mode mtime data).encode := by
  unfold send_file Tree.lstat Tree.open_read at h
  cases hr : root.resolve full with
  | none =>
    simp [hr] at h
    exact Or.inl h.2
  | some t =>
    cases t with
    | dir rd es =>
      simp [hr] at h
      exact Or.inl h.2
    | other =>
      simp [hr] at h
      exact Or.inl h.2
    | file mode mtime rd data =>
      cases rd with
      | false =>
        simp [hr] at h
        exact Or.inl h.2
      | true =>
        simp only [hr, Bool.not_true, Bool.false_eq_true, if_false] at h
        rw [payload_loop_eq _ (by decide) _ _ _ _ (Nat.lt_succ_self _)] at h
        have hle : data.length % 2 ^ 64 ≤ data.length := Nat.mod_le _ _
        simp only [hle, if_true, Option.some.injEq, Prod.mk.injEq] at h
        right
        refine ⟨mode &&& 0o777, mtime, data.take (data.length % 2 ^ 64), ?_⟩
        rw [← h.2]
        have hl : (data.take (data.length % 2 ^ 64)).length = data.length % 2 ^ 64 := by
          rw [List.length_take]
          omega
        rw [Rec.encode, hl]
        simp [mm01_record, w8, w16, w32, w64]

theorem dump_entries_good (root : Tree) (dir : Str) (ns : List Str)
    (hns : ∀ n ∈ ns, valid_name n = true) :
    ∀ (names stack : List Str) (out : Str) (b : Bool) (stack1 : List Str) (out1 : Str),
      (∀ n ∈ names, n = ascii "." ∨ n = ascii ".." ∨ entry_name n = true) →
      (∀ s ∈ stack, GoodRel s) → GoodOut out →
      dump_entries root dir (rel_of ns) names stack out = some (b, stack1, out1) →
      (∀ s ∈ stack1, GoodRel s) ∧ GoodOut out1 := by
  intro names
  induction names with
  | nil =>
    intro stack out b stack1 out1 _ hs ho h
    simp only [dump_entries, Option.some.injEq, Prod.mk.injEq] at h
    rw [← h.2.1, ← h.2.2]
    exact ⟨hs, ho⟩
  | cons name names ih =>
    intro stack out b stack1 out1 hnm hs ho h
    have hrest : ∀ n ∈ names, n = ascii "." ∨ n = ascii ".." ∨ entry_name n = true :=
      fun n hn => hnm n (List.mem_cons_of_mem _ hn)
    rw [dump_entries] at h
    by_cases hd : name = ascii "." ∨ name = ascii ".."
    · rw [if_pos hd] at h
      exact ih stack out b stack1 out1 hrest hs ho h
    · rw [if_neg hd] at h
      have hv : valid_name name = true := by
        rcases hnm name (List.mem_cons_self _ _) with e | e | e
        · exact absurd (Or.inl e) hd
        · exact absurd (Or.inr e) hd
        · exact valid_of_entry_name name e (fun c => hd (Or.inl c)) (fun c => hd (Or.inr c))
      have hns1 : ∀ n ∈ ns ++ [name], valid_name n = true := by
        intro n hn
        rcases List.mem_append.mp hn with e | e
        · exact hns n e
        · simp only [List.mem_singleton] at e
          rw [e]
          exact hv
      have hrel : child_rel (rel_of ns) name = rel_of (ns ++ [name]) := (rel_of_snoc ns name).symm
      dsimp only at h
      rw [hrel] at h
      cases hl : root.lstat (join_path dir name) with
      | none =>
        rw [hl] at h
        exact ih stack out b stack1 out1 hrest hs ho h
      | some st =>
        rw [hl] at h
        dsimp only at h
        by_cases h1 : st.is_dir = true
        · rw [if_pos h1] at h
          refine ih _ out b stack1 out1 hrest ?_ ho h
          intro s hsm
          rcases List.mem_cons.mp hsm with e | e
          · exact ⟨ns ++ [name], hns1, e⟩
          · exact hs s e
        · rw [if_neg h1] at h
          by_cases h2 : st.is_reg = true
          · rw [if_pos h2] at h
            cases hsf : send_file root (rel_of (ns ++ [name])) (join_path dir name) with
            | none => simp [hsf] at h
            | some v =>
              obtain ⟨ok, bytes⟩ := v
              have hgo : GoodOut (out ++ bytes) := by
                rcases send_file_good root _ (ns ++ [name]) ok bytes hsf with e | ⟨m, mt, d, e⟩
                · rw [e, List.append_nil]
                  exact ho
                · rw [e]
                  exact good_out_snoc out _ ho ⟨hns1, fun hc => by simp [Rec.names] at hc⟩
              rw [hsf] at h
              cases ok with
              | false =>
                simp only [Option.some.injEq, Prod.mk.injEq] at h
                rw [← h.2.1, ← h.2.2]
                exact ⟨hs, hgo⟩
              | true => exact ih stack _ b stack1 out1 hrest hs hgo h
          · rw [if_neg h2] at h
            exact ih stack out b stack1 out1 hrest hs ho h

theorem dump_loop_good (root : Tree) (base : Str) (hn : root.names_ok = true) :
    ∀ (fuel : Nat) (stack : List Str) (out : Str) (b : Bool) (out1 : Str),
      (∀ s ∈ stack, GoodRel s) → GoodOut out →
      dump_loop root base fuel stack out = some (b, out1) → GoodOut out1 := by
  intro fuel
  induction fuel with
  | zero =>
    intro stack out b out1 hs ho h
    cases stack with
    | nil =>
      simp only [dump_loop, Option.some.injEq, Prod.mk.injEq] at h
      rw [← h.2]
      exact ho
    | cons rel stack => simp [dump_loop] at h
  | succ f ih =>
    intro stack out b out1 hs ho h
    cases stack with
    | nil =>
      simp only [dump_loop, Option.some.injEq, Prod.mk.injEq] at h
      rw [← h.2]
      exact ho
    | cons rel stack =>
      have hs1 : ∀ s ∈ stack, GoodRel s := fun s hm => hs s (List.mem_cons_of_mem _ hm)
      obtain ⟨ns, hns, hrel⟩ := hs rel (List.mem_cons_self _ _)
      rw [dump_loop] at h
      cases ho1 : root.opendir (if rel = [] then base else join_path base rel) with
      | none =>
        rw [ho1] at h
        exact ih stack out b out1 hs1 ho h
      | some names =>
        rw [ho1] at h
        dsimp only at h
        have hnames := opendir_names root _ names hn ho1
        have hgo : GoodOut (out ++ send_dir rel) := by
          rw [hrel, send_dir_eq]
          exact good_out_snoc out _ ho ⟨hns, fun hc => by
            simp only [Rec.names] at hc
            rw [hc]⟩
        cases hde : dump_entries root (if rel = [] then base else join_path base rel) rel names
            stack (out ++ send_dir rel) with
        | none => simp [hde] at h
        | some v =>
          obtain ⟨ok, stack2, out2⟩ := v
          have hres := hde
          rw [hrel] at hres
          obtain ⟨g1, g2⟩ := dump_entries_good root _ ns hns names stack _ ok stack2 out2 hnames
            hs1 (by rw [← hrel]; exact hgo) hres
          rw [hde] at h
          cases ok with
          | false =>
            simp only [Option.some.injEq, Prod.mk.injEq] at h
            rw [← h.2]
            exact g2
          | true => exact ih stack2 out2 b out1 g1 g2 h

theorem good_out_relative (out : Str) (h : GoodOut out) :
    ∃ recs : List Rec, out = ascii "MM01" ++ encode_all recs ∧ ∀ r ∈ recs, RelativePath r := by
  obtain ⟨recs, h1, h2⟩ := h
  refine ⟨recs, h1, fun r hm => ?_⟩
  obtain ⟨a1, a2⟩ := h2 r hm
  refine ⟨a2, ?_, (rel_of_props r.names a1).2.1, split_slash_rel_of r.names a1⟩
  intro n hnm
  obtain ⟨v1, v2, _, v4, v5⟩ := (valid_name_iff n).mp (a1 n hnm)
  exact ⟨v1, fun hc => v2 _ hc rfl, v4, v5⟩

/-- C17: on a source tree whose entry names are not empty and hold no separator
(nor a NUL, as C strings),
every record that `dump_tree_to_fd` writes has a relative path: the path of a list
of entry names joined by separators, empty for a `D` record only (the root), with
no name empty or equal to `.` or `..`, no leading separator, and with exactly those
names as the segments between its separators. The same holds for what the
directory loop has written after any number of iterations. -/
theorem dump_paths_relative (root : Tree) (hn : root.names_ok = true) :
    (∀ (logical_src : Str) (ok : Bool) (out : Str),
      dump_tree_to_fd root logical_src = some (ok, out) →
      out = [] ∨ ∃ recs : List Rec,
        out = ascii "MM01" ++ encode_all recs ++ (if ok then mm01_end else []) ∧
        ∀ r ∈ recs, RelativePath r) ∧
    (∀ (base : Str) (fuel : Nat) (ok : Bool) (out : Str),
      dump_loop root base fuel [[]] (ascii "MM01") = some (ok, out) →
      ∃ recs : List Rec, out = ascii "MM01" ++ encode_all recs ∧ ∀ r ∈ recs, RelativePath r) := by
  have hloop : ∀ (base : Str) (fuel : Nat) (ok : Bool) (out : Str),
      dump_loop root base fuel [[]] (ascii "MM01") = some (ok, out) →
      ∃ recs : List Rec, out = ascii "MM01" ++ encode_all recs ∧
        ∀ r ∈ recs, RelativePath r := by
    intro base fuel ok out hl
    exact good_out_relative out (dump_loop_good root base hn fuel _ _ ok out
      (fun s hs => ⟨[], fun _ hm => by simp at hm, by simpa using hs⟩)
      ⟨[], by simp [encode_all], fun _ hm => by simp at hm⟩ hl)
  refine ⟨?_, hloop⟩
  intro logical_src ok out h
  unfold dump_tree_to_fd at h
  cases hr : logical_to_real_root logical_src with
  | none =>
    simp only [hr, Option.some.injEq, Prod.mk.injEq] at h
    exact Or.inl h.2.symm
  | some v =>
    right
    rw [hr] at h
    dsimp only at h
    cases hl : dump_loop root (base_dir_of v) (root.ndirs + 1) [[]] (ascii "MM01") with
    | none => simp [hl] at h
    | some w =>
      obtain ⟨b, o⟩ := w
      obtain ⟨recs, h1, h2⟩ := hloop _ _ b o hl
      rw [hl] at h
      cases b with
      | false =>
        simp only [Option.some.injEq, Prod.mk.injEq] at h
        refine ⟨recs, ?_, h2⟩
        rw [← h.1, ← h.2, h1]
        simp
      | true =>
        simp only [Option.some.injEq, Prod.mk.injEq] at h
        refine ⟨recs, ?_, h2⟩
        rw [← h.1, ← h.2, h1, ← end_record_eq]
        simp [List.append_assoc]

theorem dump_paths_relative_witness :
    scenario1_stream 1700000000 = [] ∨ ∃ recs : List Rec,
      scenario1_stream 1700000000 =
        ascii "MM01" ++ encode_all recs ++ (if true then mm01_end else []) ∧
      ∀ r ∈ recs, RelativePath r :=
  (dump_paths_relative (scenario1_tree 1700000000) (by decide)).1
    (ascii "/data/data/com.example.app") true (scenario1_stream 1700000000) (by decide)

end Mirrormediad

namespace Mirrormediad

/-! ## Command loop: acknowledgements -/

theorem next_token_length (s tok rest : Str) (h : next_token s = some (tok, rest)) :
    rest.length < s.length := by
  unfold next_token at h
  split_ifs at h with he
  simp only [Option.some.injEq, Prod.mk.injEq] at h
  rw [← h.2]
  have h1 := (List.dropWhile_sublist is_space (l := s)).length_le
  have h2 := List.head?_dropWhile_not is_space s
  cases hs : s.dropWhile is_space with
  | nil => exact absurd hs he
  | cons c cs =>
    rw [hs] at h1 h2
    simp only [List.head?_cons] at h2
    have h3 : (!is_space c) = true := by simp [h2]
    rw [List.dropWhile_cons, if_pos h3]
    have h4 := (List.dropWhile_sublist (fun c => !is_space c) (l := cs)).length_le
    simp only [List.length_cons] at h1
    omega

theorem find_uid_total : ∀ (f : Nat) (s : Str), s.length < f →
    ∃ u, find_uid f s = some u := by
  intro f
  induction f with
  | zero => intro s h; omega
  | succ f ih =>
    intro s h
    rw [find_uid]
    cases hn : next_token s with
    | none => exact ⟨_, rfl⟩
    | some v =>
      obtain ⟨tok, rest⟩ := v
      dsimp only
      split_ifs
      · exact ⟨_, rfl⟩
      · exact ih rest (by have := next_token_length s tok rest hn; omega)

theorem parse_dst_uid_total (line : Str) : ∃ p, parse_dst_uid line = some p := by
  unfold parse_dst_uid
  cases next_token line with
  | none => exact ⟨_, rfl⟩
  | some v =>
    obtain ⟨op, r1⟩ := v
    dsimp only
    cases next_token r1 with
    | none => exact ⟨_, rfl⟩
    | some w =>
      obtain ⟨dst, r2⟩ := w
      dsimp only
      obtain ⟨u, hu⟩ := find_uid_total (r2.length + 1) r2 (Nat.lt_succ_self _)
      rw [hu]
      exact ⟨_, rfl⟩

theorem starts_with_head (line p : Str) (h : starts_with line p = true) (hp : p ≠ []) :
    line.head? = p.head? := by
  obtain ⟨t, rfl⟩ := (starts_with_iff line p).mp h
  cases p with
  | nil => exact absurd rfl hp
  | cons c cs => rfl

theorem prefix_excl (line p q : Str) (h : starts_with line p = true) (hp : p ≠ []) (hq : q ≠ [])
    (hne : p.head? ≠ q.head?) : starts_with line q = false := by
  cases hq2 : starts_with line q with
  | false => rfl
  | true =>
    exact absurd ((starts_with_head line p h hp).symm.trans (starts_with_head line q hq2 hq)) hne

end Mirrormediad

namespace Mirrormediad

/-- The acknowledgement table of the loop body: for every command line it
terminates, closes the passed descriptor once and the connection once; for
`UNZIP `, `DUMP `, `PUTRAW ` and `RESTORE_SMS_DB` it writes one acknowledgement,
`OK\n` when the operation returned success and `ERR\n` otherwise, and when
`target_uid` is negative after the line is parsed it writes `ERR\n` without
calling the consumer; for `ZIP `, `BACKUP_SMS_DB` and every other line it writes
nothing. -/
theorem ack_by_verb (O : Ops) (line : Str) :
    ∃ ev, handle_line O line = some ev ∧
      ev.count Event.close_fd = 1 ∧ ev.count Event.close_conn = 1 ∧
      resp true = ascii "OK\n" ∧ resp false = ascii "ERR\n" ∧
      (starts_with line (ascii "ZIP ") = true →
        calls ev = [Event.call_zip (line.drop 4)] ∧ acks ev = []) ∧
      (starts_with line (ascii "UNZIP ") = true →
        ∃ dst uid, parse_dst_uid line = some (dst, uid) ∧
          (0 ≤ uid → calls ev = [Event.call_unzip dst uid] ∧
            acks ev = [resp (O.do_unzip_from_fd dst uid)]) ∧
          (uid < 0 → calls ev = [] ∧ acks ev = [ascii "ERR\n"])) ∧
      (starts_with line (ascii "DUMP ") = true →
        calls ev = [Event.call_dump (line.drop 5)] ∧
          acks ev = [resp (O.dump_tree_to_fd (line.drop 5))]) ∧
      (starts_with line (ascii "PUTRAW ") = true →
        ∃ dst uid, parse_dst_uid line = some (dst, uid) ∧
          (0 ≤ uid → calls ev = [Event.call_putraw dst uid] ∧
            acks ev = [resp (O.restore_tree_from_fd dst uid)]) ∧
          (uid < 0 → calls ev = [] ∧ acks ev = [ascii "ERR\n"])) ∧
      (starts_with line (ascii "BACKUP_SMS_DB") = true →
        calls ev = [Event.call_backup_sms] ∧ acks ev = []) ∧
      (starts_with line (ascii "RESTORE_SMS_DB") = true →
        calls ev = [Event.call_restore_sms] ∧ acks ev = [resp O.do_restore_sms_db]) ∧
      (starts_with line (ascii "ZIP ") = false → starts_with line (ascii "UNZIP ") = false →
        starts_with line (ascii "DUMP ") = false → starts_with line (ascii "PUTRAW ") = false →
        starts_with line (ascii "BACKUP_SMS_DB") = false →
        starts_with line (ascii "RESTORE_SMS_DB") = false →
        calls ev = [] ∧ acks ev = []) := by
  obtain ⟨⟨dst, uid⟩, hp⟩ := parse_dst_uid_total line
  have ex : ∀ p q : Str, starts_with line p = true → p ≠ [] → q ≠ [] → p.head? ≠ q.head? →
      starts_with line q = false := prefix_excl line
  by_cases hZ : starts_with line (ascii "ZIP ") = true
  · have hU := ex _ (ascii "UNZIP ") hZ (by decide) (by decide) (by decide)
    have hD := ex _ (ascii "DUMP ") hZ (by decide) (by decide) (by decide)
    have hP := ex _ (ascii "PUTRAW ") hZ (by decide) (by decide) (by decide)
    have hB := ex _ (ascii "BACKUP_SMS_DB") hZ (by decide) (by decide) (by decide)
    have hR := ex _ (ascii "RESTORE_SMS_DB") hZ (by decide) (by decide) (by decide)
    refine ⟨_, by rw [handle_line, if_pos hZ], ?_⟩
    simp [hZ, hU, hD, hP, hB, hR, calls, acks, resp, hp, List.count_cons]
  have hZ0 : starts_with line (ascii "ZIP ") = false := by simpa using hZ
  by_cases hU : starts_with line (ascii "UNZIP ") = true
  · have hD := ex _ (ascii "DUMP ") hU (by decide) (by decide) (by decide)
    have hP := ex _ (ascii "PUTRAW ") hU (by decide) (by decide) (by decide)
    have hB := ex _ (ascii "BACKUP_SMS_DB") hU (by decide) (by decide) (by decide)
    have hR := ex _ (ascii "RESTORE_SMS_DB") hU (by decide) (by decide) (by decide)
    by_cases hu : 0 ≤ uid
    · refine ⟨_, by rw [handle_line, if_neg hZ, if_pos hU, hp]; rfl, ?_⟩
      have hu2 : ¬ uid < 0 := by omega
      simp [hZ0, hU, hD, hP, hB, hR, calls, acks, resp, hp, hu, hu2, List.count_cons]
      exact ⟨dst, uid, ⟨rfl, rfl⟩, fun _ => ⟨⟨rfl, rfl⟩, rfl⟩, hu⟩
    · refine ⟨_, by rw [handle_line, if_neg hZ, if_pos hU, hp]; rfl, ?_⟩
      have hu2 : uid < 0 := by omega
      simp [hZ0, hU, hD, hP, hB, hR, calls, acks, resp, hp, hu, hu2, List.count_cons]
      exact ⟨dst, uid, ⟨rfl, rfl⟩, hu2⟩
  have hU0 : starts_with line (ascii "UNZIP ") = false := by simpa using hU
  by_cases hD : starts_with line (ascii "DUMP ") = true
  · have hP := ex _ (ascii "PUTRAW ") hD (by decide) (by decide) (by decide)
    have hB := ex _ (ascii "BACKUP_SMS_DB") hD (by decide) (by decide) (by decide)
    have hR := ex _ (ascii "RESTORE_SMS_DB") hD (by decide) (by decide) (by decide)
    refine ⟨_, by rw [handle_line, if_neg hZ, if_neg hU, if_pos hD], ?_⟩
    simp [hZ0, hU0, hD, hP, hB, hR, calls, acks, resp, hp, List.count_cons]
  have hD0 : starts_with line (ascii "DUMP ") = false := by simpa using hD
  by_cases hP : starts_with line (ascii "PUTRAW ") = true
  · have hB := ex _ (ascii "BACKUP_SMS_DB") hP (by decide) (by decide) (by decide)
    have hR := ex _ (ascii "RESTORE_SMS_DB") hP (by decide) (by decide) (by decide)
    by_cases hu : 0 ≤ uid
    · refine ⟨_, by rw [handle_line, if_neg hZ, if_neg hU, if_neg hD, if_pos hP, hp]; rfl, ?_⟩
      have hu2 : ¬ uid < 0 := by omega
      simp [hZ0, hU0, hD0, hP, hB, hR, calls, acks, resp, hp, hu, hu2, List.count_cons]
      exact ⟨dst, uid, ⟨rfl, rfl⟩, fun _ => ⟨⟨rfl, rfl⟩, rfl⟩, hu⟩
    · refine ⟨_, by rw [handle_line, if_neg hZ, if_neg hU, if_neg hD, if_pos hP, hp]; rfl, ?_⟩
      have hu2 : uid < 0 := by omega
      simp [hZ0, hU0, hD0, hP, hB, hR, calls, acks, resp, hp, hu, hu2, List.count_cons]
      exact ⟨dst, uid, ⟨rfl, rfl⟩, hu2⟩
  have hP0 : starts_with line (ascii "PUTRAW ") = false := by simpa using hP
  by_cases hB : starts_with line (ascii "BACKUP_SMS_DB") = true
  · have hR := ex _ (ascii "RESTORE_SMS_DB") hB (by decide) (by decide) (by decide)
    refine ⟨_, by rw [handle_line, if_neg hZ, if_neg hU, if_neg hD, if_neg hP, if_pos hB], ?_⟩
    simp [hZ0, hU0, hD0, hP0, hB, hR, calls, acks, resp, hp, List.count_cons]
  have hB0 : starts_with line (ascii "BACKUP_SMS_DB") = false := by simpa using hB
  by_cases hR : starts_with line (ascii "RESTORE_SMS_DB") = true
  · refine ⟨_, by rw [handle_line, if_neg hZ, if_neg hU, if_neg hD, if_neg hP, if_neg hB,
      if_pos hR], ?_⟩
    simp [hZ0, hU0, hD0, hP0, hB0, hR, calls, acks, resp, hp, List.count_cons]
  have hR0 : starts_with line (ascii "RESTORE_SMS_DB") = false := by simpa using hR
  refine ⟨_, by rw [handle_line, if_neg hZ, if_neg hU, if_neg hD, if_neg hP, if_neg hB,
    if_neg hR], ?_⟩
  simp [hZ0, hU0, hD0, hP0, hB0, hR0, calls, acks, resp, hp, List.count_cons]

theorem ack_by_verb_no_uid :
    handle_line failing_ops (ascii "PUTRAW /data/data/com.example.app") =
      some [Event.close_fd, Event.write_conn (ascii "ERR\n"), Event.close_conn] ∧
    ∃ ev, handle_line failing_ops (ascii "PUTRAW /data/data/com.example.app") = some ev ∧
      calls ev = [] ∧ acks ev = [ascii "ERR\n"] := by
  obtain ⟨ev, h1, _, _, _, _, _, _, _, h, _⟩ :=
    ack_by_verb failing_ops (ascii "PUTRAW /data/data/com.example.app")
  obtain ⟨dst, uid, hp, _, hneg⟩ := h (by decide)
  have hu : uid < 0 := by
    have e : parse_dst_uid (ascii "PUTRAW /data/data/com.example.app") =
        some (ascii "/data/data/com.example.app", -1) := by decide
    rw [e] at hp
    simp only [Option.some.injEq, Prod.mk.injEq] at hp
    rw [← hp.2]
    decide
  exact ⟨by decide, ev, h1, hneg hu⟩

/-- C16, the code at the failing input: the line `PUTRAW /data/data/u1 UID abc`
has no number after `UID`. The extraction `iss >> target_uid` fails and stores 0,
`target_uid >= 0` holds, the consumer is called with uid 0 and, as it succeeds,
`OK` is written; the same for `UNZIP`. Without the `UID` token, with `UID` as the
last token and with a negative number `ERR` is written and the consumer is not
called. -/
theorem uid_without_number_runs_consumer :
    parse_dst_uid (ascii "PUTRAW /data/data/u1 UID abc") = some (ascii "/data/data/u1", 0) ∧
    handle_line succeeding_ops (ascii "PUTRAW /data/data/u1 UID abc") =
      some [Event.call_putraw (ascii "/data/data/u1") 0, Event.close_fd,
        Event.write_conn (ascii "OK\n"), Event.close_conn] ∧
    handle_line succeeding_ops (ascii "UNZIP /data/data/u1 UID abc") =
      some [Event.call_unzip (ascii "/data/data/u1") 0, Event.close_fd,
        Event.write_conn (ascii "OK\n"), Event.close_conn] ∧
    putraw_ack 1078 (scenario1_stream 1700000000) (ascii "/data/data/u1") 0 (FS.empty 0o77) =
      some (ascii "OK\n") ∧
    handle_line succeeding_ops (ascii "PUTRAW /data/data/u1") =
      some [Event.close_fd, Event.write_conn (ascii "ERR\n"), Event.close_conn] ∧
    handle_line succeeding_ops (ascii "PUTRAW /data/data/u1 UID") =
      some [Event.close_fd, Event.write_conn (ascii "ERR\n"), Event.close_conn] ∧
    handle_line succeeding_ops (ascii "PUTRAW /data/data/u1 UID -5") =
      some [Event.close_fd, Event.write_conn (ascii "ERR\n"), Event.close_conn] ∧
    handle_line succeeding_ops (ascii "PUTRAW /data/data/u1 UID 10123") =
      some [Event.call_putraw (ascii "/data/data/u1") 10123, Event.close_fd,
        Event.write_conn (ascii "OK\n"), Event.close_conn] := by
  decide

end Mirrormediad

namespace Mirrormediad

/-! ## ZIP: the backward scan -/

theorem chunk_scan_none (buf : Str) : ∀ n : Nat,
    (∀ i, i < n → le32_at buf i ≠ EOCD_SIG) → chunk_scan buf n = none := by
  intro n
  induction n with
  | zero => intro _; rfl
  | succ k ih =>
    intro h
    rw [chunk_scan, if_neg (h k (Nat.lt_succ_self k))]
    exact ih (fun i hi => h i (by omega))

theorem chunk_scan_some (buf : Str) (i : Nat) : ∀ n : Nat, i < n → le32_at buf i = EOCD_SIG →
    (∀ j, i < j → j < n → le32_at buf j ≠ EOCD_SIG) → chunk_scan buf n = some i := by
  intro n
  induction n with
  | zero => intro h; omega
  | succ k ih =>
    intro hi hs hj
    rw [chunk_scan]
    by_cases e : i = k
    · rw [← e, if_pos hs]
    · rw [if_neg (hj k (by omega) (Nat.lt_succ_self k))]
      exact ih (by omega) hs (fun j h1 h2 => hj j h1 (by omega))

theorem le32_at_chunk (file : Str) (c want i : Nat) (h : i + 4 ≤ want) :
    le32_at ((file.drop c).take want) i = le32_at file (c + i) := by
  unfold le32_at
  rw [List.drop_take, List.take_take, List.drop_drop]
  congr 2
  omega

theorem pread_fully_some (file : Str) (off len : Nat) (h : off + len ≤ file.length) :
    pread_fully file off len = some ((file.drop off).take len) := by
  unfold pread_fully
  by_cases h0 : len = 0
  · rw [if_pos h0, h0]
    rfl
  · rw [if_neg h0, if_pos h]

/-- The chunk read at `pos` and the rest of the scan. -/
theorem eocd_loop_step (file : Str) (ss f pos : Nat) (h1 : ss < pos) (h2 : pos ≤ file.length) :
    eocd_loop file ss (f + 1) pos =
      match chunk_scan ((file.drop (pos - min (pos - ss) CHUNK)).take (min (pos - ss) CHUNK))
          (min (pos - ss) CHUNK - 3) with
      | some i => some (Scan.found (pos - min (pos - ss) CHUNK + i))
      | none => eocd_loop file ss f (pos - min (pos - ss) CHUNK) := by
  rw [eocd_loop, if_pos h1]
  dsimp only
  rw [pread_fully_some file _ _ (by omega)]
  try rfl

theorem eocd_loop_not_found (file : Str) (ss : Nat) : ∀ (fuel pos : Nat),
    pos ≤ file.length → pos - ss < fuel →
    (∀ o, scanned ss pos o → le32_at file o ≠ EOCD_SIG) →
    eocd_loop file ss fuel pos = some Scan.not_found := by
  intro fuel
  induction fuel with
  | zero => intro pos _ h; omega
  | succ f ih =>
    intro pos hlen hf hno
    by_cases hp : ss < pos
    · rw [eocd_loop_step file ss f pos hp hlen]
      obtain ⟨w, hw⟩ : ∃ w, w = min (pos - ss) CHUNK := ⟨_, rfl⟩
      have hw2 : (w = pos - ss ∧ pos - ss ≤ 4096) ∨ (w = 4096 ∧ 4096 < pos - ss) := by
        rw [hw]
        unfold CHUNK
        omega
      rw [← hw]
      have hc : chunk_scan ((file.drop (pos - w)).take w) (w - 3) = none := by
        apply chunk_scan_none
        intro i hi
        rw [le32_at_chunk file _ _ i (by omega)]
        apply hno
        simp only [scanned, CHUNK]
        omega
      rw [hc]
      apply ih _ (by omega) (by omega)
      intro o ho
      apply hno
      simp only [scanned, CHUNK] at ho ⊢
      omega
    · rw [eocd_loop, if_neg (by omega)]

theorem eocd_loop_found (file : Str) (ss o : Nat) : ∀ (fuel pos : Nat),
    pos ≤ file.length → pos - ss < fuel → scanned ss pos o → le32_at file o = EOCD_SIG →
    (∀ o2, o < o2 → scanned ss pos o2 → le32_at file o2 ≠ EOCD_SIG) →
    eocd_loop file ss fuel pos = some (Scan.found o) := by
  intro fuel
  induction fuel with
  | zero => intro pos _ h; omega
  | succ f ih =>
    intro pos hlen hf hsc hsig hlater
    have hsc2 := hsc
    simp only [scanned, CHUNK] at hsc2
    have hp : ss < pos := by omega
    rw [eocd_loop_step file ss f pos hp hlen]
    obtain ⟨w, hw⟩ : ∃ w, w = min (pos - ss) CHUNK := ⟨_, rfl⟩
    have hw2 : (w = pos - ss ∧ pos - ss ≤ 4096) ∨ (w = 4096 ∧ 4096 < pos - ss) := by
      rw [hw]
      unfold CHUNK
      omega
    rw [← hw]
    by_cases hin : pos - w ≤ o
    · have hc : chunk_scan ((file.drop (pos - w)).take w) (w - 3) = some (o - (pos - w)) := by
        apply chunk_scan_some
        · omega
        · rw [le32_at_chunk file _ _ _ (by omega)]
          rw [show pos - w + (o - (pos - w)) = o by omega]
          exact hsig
        · intro j h1 h2
          rw [le32_at_chunk file _ _ j (by omega)]
          apply hlater
          · omega
          · simp only [scanned, CHUNK]
            omega
      rw [hc]
      dsimp only
      rw [show pos - w + (o - (pos - w)) = o by omega]
    · have hc : chunk_scan ((file.drop (pos - w)).take w) (w - 3) = none := by
        apply chunk_scan_none
        intro i hi
        rw [le32_at_chunk file _ _ i (by omega)]
        apply hlater
        · omega
        · simp only [scanned, CHUNK]
          omega
      rw [hc]
      apply ih _ (by omega) (by omega)
      · simp only [scanned, CHUNK]
        omega
      · exact hsig
      · intro o2 h1 h2
        apply hlater o2 h1
        simp only [scanned, CHUNK] at h2 ⊢
        omega

end Mirrormediad

namespace Mirrormediad

/-! ## ZIP: files without a signature in the window, signatures the scan misses -/

theorem le32_sig_head (file : Str) (o : Nat) (h : le32_at file o = EOCD_SIG) :
    ∃ b, b ∈ file.drop o ∧ b % 256 = 80 := by
  unfold le32_at at h
  cases hd : file.drop o with
  | nil =>
    rw [hd] at h
    exact absurd h (by decide)
  | cons b bs =>
    refine ⟨b, List.mem_cons_self _ _, ?_⟩
    rw [hd] at h
    simp only [List.take_succ_cons, le_decode] at h
    unfold EOCD_SIG at h
    omega

theorem no_sig_after (file : Str) (k : Nat) (h : ∀ b ∈ file.drop k, b % 256 ≠ 80) :
    ∀ o, k ≤ o → le32_at file o ≠ EOCD_SIG := by
  intro o ho hs
  obtain ⟨b, hb, h80⟩ := le32_sig_head file o hs
  have : file.drop o = (file.drop k).drop (o - k) := by
    rw [List.drop_drop]
    congr 1
    omega
  rw [this] at hb
  exact h b (List.mem_of_mem_drop hb) h80

theorem le32_at_append_left (a b : Str) (i : Nat) (h : i + 4 ≤ a.length) :
    le32_at (a ++ b) i = le32_at a i := by
  unfold le32_at
  rw [List.drop_append_of_le_length (by omega), List.take_append_of_le_length]
  rw [List.length_drop]
  omega

theorem search_start_eq (n : Nat) : search_start_of n = n - MAX_BACK := by
  unfold search_start_of
  split_ifs <;> omega

theorem list_zip_not_found (file : Str) (h : eocd_scan file = some Scan.not_found) :
    list_zip_names_from_fd file = some (false, []) := by
  unfold list_zip_names_from_fd
  rw [h]
  split_ifs <;> rfl

theorem list_zip_found (file : Str) (o : Nat) (h22 : 22 ≤ file.length)
    (h : eocd_scan file = some (Scan.found o)) (ho : o + 22 ≤ file.length) :
    list_zip_names_from_fd file =
      if (le32_at ((file.drop o).take 22) 0x10 + le32_at ((file.drop o).take 22) 0x0C) % 2 ^ 32 >
          file.length then some (false, [])
      else cen_walk file
        ((le32_at ((file.drop o).take 22) 0x10 + le32_at ((file.drop o).take 22) 0x0C) % 2 ^ 32)
        100001 (le32_at ((file.drop o).take 22) 0x10) 0 [] := by
  unfold list_zip_names_from_fd
  rw [if_neg (by omega), h]
  dsimp only
  rw [pread_fully_some file o 22 ho]
  try rfl

/-- C15 as amended: a file shorter than 22 bytes, or one whose last 65558 bytes
(`0x10000 + 22`) hold no occurrence of the signature, makes
`list_zip_names_from_fd` fail, with no names. -/
theorem eocd_absent_fails (file : Str)
    (h : file.length < 22 ∨
      ∀ o, file.length - MAX_BACK ≤ o → o + 4 ≤ file.length → le32_at file o ≠ EOCD_SIG) :
    list_zip_names_from_fd file = some (false, []) := by
  rcases h with h | h
  · unfold list_zip_names_from_fd
    rw [if_pos h]
  · apply list_zip_not_found
    unfold eocd_scan
    apply eocd_loop_not_found file _ _ _ (le_refl _) (by omega)
    intro o ho
    unfold scanned at ho
    rw [search_start_eq] at ho
    exact h o ho.1 ho.2.1

theorem eocd_absent_fails_witness :
    list_zip_names_from_fd (List.replicate 30 0) = some (false, []) :=
  eocd_absent_fails (List.replicate 30 0)
    (Or.inr (fun o _ _ => no_sig_after (List.replicate 30 0) 0 (by decide) o (Nat.zero_le o)))

theorem eocd_fields (entries cd_size cd_offset : Nat) (comment rest : Str) :
    ((eocd_record entries cd_size cd_offset comment ++ rest).take 22) =
      le_encode 4 EOCD_SIG ++ le_encode 2 0 ++ le_encode 2 0 ++ le_encode 2 entries ++
        le_encode 2 entries ++ le_encode 4 cd_size ++ le_encode 4 cd_offset ++
        le_encode 2 comment.length := by
  unfold eocd_record
  rw [List.append_assoc _ comment rest]
  apply List.take_left'
  simp only [List.length_append, le_encode_length]

/-- The scan on a record at offset 0 followed by bytes that begin no signature. -/
theorem zip_record_at_zero (comment pad : Str)
    (hpad : ∀ b ∈ comment ++ pad, b % 256 ≠ 80) (hc : comment.length % 256 ≠ 80)
    (hc2 : comment.length / 256 % 256 ≠ 80) :
    le32_at (eocd_record 0 0 0 comment ++ pad) 0 = EOCD_SIG ∧
    ∀ o, 1 ≤ o → le32_at (eocd_record 0 0 0 comment ++ pad) o ≠ EOCD_SIG := by
  have hform : eocd_record 0 0 0 comment ++ pad =
      (le_encode 4 EOCD_SIG ++ le_encode 2 0 ++ le_encode 2 0 ++ le_encode 2 0 ++
        le_encode 2 0 ++ le_encode 4 0 ++ le_encode 4 0) ++
        (le_encode 2 comment.length ++ (comment ++ pad)) := by
    simp [eocd_record, List.append_assoc]
  constructor
  · rw [hform, le32_at_append_left _ _ 0 (by decide)]
    decide
  · apply no_sig_after
    rw [hform]
    rw [List.drop_append_of_le_length (by decide)]
    intro b hb
    rcases List.mem_append.mp hb with e | e
    · have hall : ∀ x ∈ List.drop 1 (le_encode 4 EOCD_SIG ++ le_encode 2 0 ++ le_encode 2 0 ++
          le_encode 2 0 ++ le_encode 2 0 ++ le_encode 4 0 ++ le_encode 4 0), x % 256 ≠ 80 := by
        decide
      exact hall b e
    · rcases List.mem_append.mp e with e2 | e2
      · simp only [le_encode, List.mem_cons, List.mem_singleton, List.not_mem_nil,
          or_false] at e2
        rcases e2 with e3 | e3
        · rw [e3]
          omega
        · rw [e3]
          omega
      · exact hpad b e2

end Mirrormediad

namespace Mirrormediad

theorem eocd_record_length (entries cd_size cd_offset : Nat) (comment : Str) :
    (eocd_record entries cd_size cd_offset comment).length = 22 + comment.length := by
  simp only [eocd_record, List.length_append, le_encode_length]

theorem le32_at_append_right (a b : Str) (n i : Nat) (h : a.length = n) :
    le32_at (a ++ b) (n + i) = le32_at b i := by
  unfold le32_at
  rw [← h, List.drop_append]

theorem cen_walk_done (file : Str) (cd_end fuel p parsed : Nat) (names : List Str)
    (h : ¬ p < cd_end) : cen_walk file cd_end fuel p parsed names = some (true, names) := by
  unfold cen_walk
  rw [if_neg h]

/-- The scan on a file of 4097 bytes that is one record with a comment of 4075
bytes: the four bytes of the signature lie across the boundary of the first chunk
read, and the scan does not find them. -/
theorem straddle_scan (comment : Str) (hl : comment.length = 4075)
    (hb : ∀ b ∈ comment, b % 256 ≠ 80) :
    (eocd_record 0 0 0 comment).length = 4097 ∧
    le32_at (eocd_record 0 0 0 comment) 0 = EOCD_SIG ∧
    (∀ o, 1 ≤ o → le32_at (eocd_record 0 0 0 comment) o ≠ EOCD_SIG) ∧
    eocd_scan (eocd_record 0 0 0 comment) = some Scan.not_found ∧
    list_zip_names_from_fd (eocd_record 0 0 0 comment) = some (false, []) := by
  have hlen : (eocd_record 0 0 0 comment).length = 4097 := by
    rw [eocd_record_length, hl]
  obtain ⟨h1, h2⟩ := zip_record_at_zero comment []
    (by rw [List.append_nil]; exact hb) (by rw [hl]; decide) (by rw [hl]; decide)
  rw [List.append_nil] at h1 h2
  have hs : eocd_scan (eocd_record 0 0 0 comment) = some Scan.not_found := by
    have hss : search_start_of 4097 = 0 := by decide
    unfold eocd_scan
    rw [hlen, hss]
    apply eocd_loop_not_found _ _ _ _ (by rw [hlen]) (by omega)
    intro o ho
    apply h2
    simp only [scanned, CHUNK] at ho
    omega
  exact ⟨hlen, h1, h2, hs, list_zip_not_found _ hs⟩

/-- C14, the code at the failing input: a ZIP file of 4097 bytes, the record at
offset 0 with a comment of 4075 bytes. The signature is in the file once, at
offset 0, within the last 65557 bytes; the first chunk read is `[1, 4097)`, the
second is the single byte at offset 0, and no chunk holds the four bytes of the
signature: the scan ends without `eocd_off` and the function fails. -/
theorem scan_misses_record_across_chunks :
    straddle_zip.length = 4097 ∧
    le32_at straddle_zip 0 = EOCD_SIG ∧
    (∀ o, 1 ≤ o → le32_at straddle_zip o ≠ EOCD_SIG) ∧
    eocd_scan straddle_zip = some Scan.not_found ∧
    list_zip_names_from_fd straddle_zip = some (false, []) :=
  straddle_scan (List.replicate 4075 65) (List.length_replicate _ _)
    (fun b hb => by rw [List.eq_of_mem_replicate hb]; decide)

/-- The scan on a file of 65558 bytes with a record at offset 0 and no signature
after it: the record is found and the listing succeeds, without names. -/
theorem window_edge_scan (pad : Str) (hl : pad.length = 65536)
    (hb : ∀ b ∈ pad, b % 256 ≠ 80) :
    (eocd_record 0 0 0 [] ++ pad).length = 65558 ∧
    (∀ o, 1 ≤ o → le32_at (eocd_record 0 0 0 [] ++ pad) o ≠ EOCD_SIG) ∧
    eocd_scan (eocd_record 0 0 0 [] ++ pad) = some (Scan.found 0) ∧
    list_zip_names_from_fd (eocd_record 0 0 0 [] ++ pad) = some (true, []) := by
  have hlen : (eocd_record 0 0 0 [] ++ pad).length = 65558 := by
    rw [List.length_append, eocd_record_length, hl]
    rfl
  obtain ⟨h1, h2⟩ := zip_record_at_zero [] pad
    (by rw [List.nil_append]; exact hb) (by decide) (by decide)
  have hs : eocd_scan (eocd_record 0 0 0 [] ++ pad) = some (Scan.found 0) := by
    have hss : search_start_of 65558 = 0 := by decide
    unfold eocd_scan
    rw [hlen, hss]
    apply eocd_loop_found _ _ _ _ _ (by rw [hlen]) (by omega) _ h1
    · intro o2 ho _
      exact h2 o2 ho
    · simp only [scanned, CHUNK]
      omega
  refine ⟨hlen, h2, hs, ?_⟩
  rw [list_zip_found _ 0 (by omega) hs (by omega), List.drop_zero, eocd_fields]
  have e1 : le32_at (le_encode 4 EOCD_SIG ++ le_encode 2 0 ++ le_encode 2 0 ++ le_encode 2 0 ++
      le_encode 2 0 ++ le_encode 4 0 ++ le_encode 4 0 ++ le_encode 2 ([] : Str).length) 0x10 =
        0 := by decide
  have e2 : le32_at (le_encode 4 EOCD_SIG ++ le_encode 2 0 ++ le_encode 2 0 ++ le_encode 2 0 ++
      le_encode 2 0 ++ le_encode 4 0 ++ le_encode 4 0 ++ le_encode 2 ([] : Str).length) 0x0C =
        0 := by decide
  rw [e1, e2, if_neg (by omega)]
  exact cen_walk_done _ _ _ _ _ _ (by omega)

/-- C15, refuted as stated: a file of 65558 bytes whose only occurrence of the
signature is at offset 0, so that its last 65557 bytes hold none; the scan reads
back `0x10000 + 22 = 65558` bytes, finds the signature, and
`list_zip_names_from_fd` returns success. -/
theorem signature_before_last_65557_bytes_found :
    window_edge_file.length = 65558 ∧
    (∀ o, window_edge_file.length - 65557 ≤ o → le32_at window_edge_file o ≠ EOCD_SIG) ∧
    eocd_scan window_edge_file = some (Scan.found 0) ∧
    list_zip_names_from_fd window_edge_file = some (true, []) ∧
    list_zip_names_from_fd window_edge_file ≠ some (false, []) := by
  obtain ⟨h1, h2, h3, h4⟩ := window_edge_scan (List.replicate 65536 0) (List.length_replicate _ _)
    (fun b hb => by rw [List.eq_of_mem_replicate hb]; decide)
  refine ⟨h1, ?_, h3, h4, ?_⟩
  · intro o ho
    apply h2
    have e : window_edge_file.length = 65558 := h1
    rw [e] at ho
    omega
  · have e : list_zip_names_from_fd window_edge_file = some (true, []) := h4
    rw [e]
    decide

end Mirrormediad

namespace Mirrormediad

/-! ## ZIP: a central directory that ends at offset `2 ^ 32` -/

/-- The listing of a file whose central directory is the 51 bytes before offset
`2 ^ 32`: the 32-bit sum `cd_offset + cd_size` is 0, the range check passes, the
loop over the central directory is not entered and no name is returned. -/
theorem wrap_listing (pad : Str) (hl : pad.length = 2 ^ 32 - 51) :
    (pad ++ cen_header (List.replicate 24 0) (List.replicate 12 0) (ascii "a.txt") [] [] ++
      eocd_record 1 51 (2 ^ 32 - 51) []).length = 2 ^ 32 + 22 ∧
    ((pad ++ cen_header (List.replicate 24 0) (List.replicate 12 0) (ascii "a.txt") [] [] ++
      eocd_record 1 51 (2 ^ 32 - 51) []).drop (2 ^ 32 - 51)).take 51 =
        cen_header (List.replicate 24 0) (List.replicate 12 0) (ascii "a.txt") [] [] ∧
    eocd_scan (pad ++ cen_header (List.replicate 24 0) (List.replicate 12 0) (ascii "a.txt") [] [] ++
      eocd_record 1 51 (2 ^ 32 - 51) []) = some (Scan.found (2 ^ 32)) ∧
    list_zip_names_from_fd
      (pad ++ cen_header (List.replicate 24 0) (List.replicate 12 0) (ascii "a.txt") [] [] ++
        eocd_record 1 51 (2 ^ 32 - 51) []) = some (true, []) := by
  obtain ⟨hdr, hhdr⟩ : ∃ hdr, hdr =
      cen_header (List.replicate 24 0) (List.replicate 12 0) (ascii "a.txt") [] [] := ⟨_, rfl⟩
  obtain ⟨rec, hrec⟩ : ∃ rec, rec = eocd_record 1 51 (2 ^ 32 - 51) [] := ⟨_, rfl⟩
  have hH : hdr.length = 51 := by rw [hhdr]; decide
  have hE : rec.length = 22 := by rw [hrec]; decide
  rw [← hhdr, ← hrec]
  have hpre : (pad ++ hdr).length = 2 ^ 32 := by
    rw [List.length_append, hl, hH]
    decide
  have hlen : (pad ++ hdr ++ rec).length = 2 ^ 32 + 22 := by
    rw [List.length_append, hpre, hE]
  have hsig : le32_at (pad ++ hdr ++ rec) (2 ^ 32) = EOCD_SIG := by
    have := le32_at_append_right (pad ++ hdr) rec (2 ^ 32) 0 hpre
    rw [Nat.add_zero] at this
    rw [this, hrec]
    decide
  have hlater : ∀ o2, 2 ^ 32 < o2 → le32_at (pad ++ hdr ++ rec) o2 ≠ EOCD_SIG := by
    intro o2 ho
    apply no_sig_after _ (2 ^ 32 + 1) _ o2 ho
    rw [← hpre, List.drop_append, hrec]
    decide
  have hs : eocd_scan (pad ++ hdr ++ rec) = some (Scan.found (2 ^ 32)) := by
    have hss : search_start_of (2 ^ 32 + 22) = 2 ^ 32 + 22 - 65558 := by decide
    unfold eocd_scan
    rw [hlen, hss]
    apply eocd_loop_found _ _ _ _ _ (by rw [hlen]) (by omega) _ hsig
    · intro o2 ho _
      exact hlater o2 ho
    · simp only [scanned, CHUNK]
      omega
  have hrd : ((pad ++ hdr ++ rec).drop (2 ^ 32)).take 22 = rec := by
    rw [List.drop_left' hpre, ← hE, List.take_length]
  refine ⟨hlen, ?_, hs, ?_⟩
  · rw [List.append_assoc, List.drop_left' hl, ← hH, List.take_left' rfl]
  · rw [list_zip_found _ (2 ^ 32) (by omega) hs (by omega), hrd]
    have e1 : le32_at rec 0x10 = 2 ^ 32 - 51 := by rw [hrec]; decide
    have e2 : le32_at rec 0x0C = 51 := by rw [hrec]; decide
    have e3 : (2 ^ 32 - 51 + 51) % 2 ^ 32 = 0 := by decide
    rw [e1, e2, e3, if_neg (by omega)]
    exact cen_walk_done _ _ _ _ _ _ (by omega)

/-- C19, the code at the failing input: a staged file of `2 ^ 32 + 22` bytes whose
end-of-central-directory record gives `cd_offset = 2 ^ 32 - 51` and `cd_size = 51`;
the region lies inside the file and is one well-formed central header, of the
entry `a.txt`. The function succeeds and returns no name. -/
theorem listing_drops_entries_when_sum_wraps :
    wrap_zip.length = 2 ^ 32 + 22 ∧
    (wrap_zip.drop (2 ^ 32 - 51)).take 51 =
      cen_header (List.replicate 24 0) (List.replicate 12 0) (ascii "a.txt") [] [] ∧
    eocd_scan wrap_zip = some (Scan.found (2 ^ 32)) ∧
    list_zip_names_from_fd wrap_zip = some (true, []) :=
  wrap_listing (List.replicate (2 ^ 32 - 51) 0) (List.length_replicate _ _)

end Mirrormediad

namespace Mirrormediad

/-! ## ZIP: the walk over well-formed central headers -/

theorem le16_at_mid (a b : Str) (v : Nat) (n : Nat) (h : a.length = n) (hv : v < 65536) :
    le16_at (a ++ (le_encode 2 v ++ b)) n = v := by
  unfold le16_at
  rw [List.drop_left' h, List.take_left' (le_encode_length 2 v), le_decode_encode]
  exact Nat.mod_eq_of_lt (by simpa using hv)

theorem cen_header_split (e : CenEntry) (rest : Str) :
    e.bytes ++ rest =
      (le_encode 4 CEN_SIG ++ e.f1 ++ le_encode 2 e.name.length ++ le_encode 2 e.extra.length ++
        le_encode 2 e.comment.length ++ e.f2) ++ (e.name ++ (e.extra ++ (e.comment ++ rest))) := by
  simp [CenEntry.bytes, cen_header, List.append_assoc]

theorem cen_fixed (e : CenEntry) (h : e.wf) :
    (le_encode 4 CEN_SIG ++ e.f1 ++ le_encode 2 e.name.length ++ le_encode 2 e.extra.length ++
      le_encode 2 e.comment.length ++ e.f2).length = 46 ∧
    le32_at (le_encode 4 CEN_SIG ++ e.f1 ++ le_encode 2 e.name.length ++
      le_encode 2 e.extra.length ++ le_encode 2 e.comment.length ++ e.f2) 0 = CEN_SIG ∧
    le16_at (le_encode 4 CEN_SIG ++ e.f1 ++ le_encode 2 e.name.length ++
      le_encode 2 e.extra.length ++ le_encode 2 e.comment.length ++ e.f2) 28 = e.name.length ∧
    le16_at (le_encode 4 CEN_SIG ++ e.f1 ++ le_encode 2 e.name.length ++
      le_encode 2 e.extra.length ++ le_encode 2 e.comment.length ++ e.f2) 30 = e.extra.length ∧
    le16_at (le_encode 4 CEN_SIG ++ e.f1 ++ le_encode 2 e.name.length ++
      le_encode 2 e.extra.length ++ le_encode 2 e.comment.length ++ e.f2) 32 =
        e.comment.length := by
  obtain ⟨h1, h2, h3, h4, h5⟩ := h
  refine ⟨?_, ?_, ?_, ?_, ?_⟩
  · simp only [List.length_append, le_encode_length, h1, h2]
  · simp only [List.append_assoc]
    rw [le32_at_append_left _ _ 0 (by rw [le_encode_length])]
    decide
  · have := le16_at_mid (le_encode 4 CEN_SIG ++ e.f1)
      (le_encode 2 e.extra.length ++ le_encode 2 e.comment.length ++ e.f2) e.name.length 28
      (by simp only [List.length_append, le_encode_length, h1]) h3
    simpa [List.append_assoc] using this
  · have := le16_at_mid (le_encode 4 CEN_SIG ++ e.f1 ++ le_encode 2 e.name.length)
      (le_encode 2 e.comment.length ++ e.f2) e.extra.length 30
      (by simp only [List.length_append, le_encode_length, h1]) h4
    simpa [List.append_assoc] using this
  · have := le16_at_mid (le_encode 4 CEN_SIG ++ e.f1 ++ le_encode 2 e.name.length ++
      le_encode 2 e.extra.length) e.f2 e.comment.length 32
      (by simp only [List.length_append, le_encode_length, h1]) h5
    simpa [List.append_assoc] using this

theorem cen_bytes_length (e : CenEntry) (h : e.wf) :
    e.bytes.length = 46 + e.name.length + e.extra.length + e.comment.length := by
  have h0 := cen_header_split e []
  rw [List.append_nil] at h0
  rw [h0, List.length_append, (cen_fixed e h).1]
  simp only [List.length_append, List.length_nil]
  omega

/-- One iteration of the walk on a well-formed header. -/
theorem cen_walk_header (pre post : Str) (e : CenEntry) (h : e.wf) (cd_end f parsed : Nat)
    (names : List Str) (hend : pre.length < cd_end) :
    cen_walk (pre ++ (e.bytes ++ post)) cd_end (f + 1) pre.length parsed names =
      if parsed + 1 > 100000 then some (false, names ++ [e.name])
      else cen_walk (pre ++ (e.bytes ++ post)) cd_end f (pre.length + e.bytes.length)
        (parsed + 1) (names ++ [e.name]) := by
  obtain ⟨g1, g2, g3, g4, g5⟩ := cen_fixed e h
  have hb := cen_bytes_length e h
  obtain ⟨fx, hfx⟩ : ∃ fx, fx = le_encode 4 CEN_SIG ++ e.f1 ++ le_encode 2 e.name.length ++
      le_encode 2 e.extra.length ++ le_encode 2 e.comment.length ++ e.f2 := ⟨_, rfl⟩
  rw [← hfx] at g1 g2 g3 g4 g5
  have hsplit : e.bytes ++ post = fx ++ (e.name ++ (e.extra ++ (e.comment ++ post))) := by
    rw [hfx]
    exact cen_header_split e post
  have hr1 : pread_fully (pre ++ (e.bytes ++ post)) pre.length 46 = some fx := by
    rw [pread_fully_some _ _ _ (by simp only [List.length_append]; omega), List.drop_left' rfl,
      hsplit, List.take_left' g1]
  have hr2 : pread_fully (pre ++ (e.bytes ++ post)) (pre.length + 46) e.name.length =
      some e.name := by
    rw [pread_fully_some _ _ _ (by simp only [List.length_append]; omega), hsplit,
      ← List.append_assoc pre fx, List.drop_left' (by rw [List.length_append, g1]),
      List.take_left' rfl]
  conv_lhs => rw [cen_walk]
  rw [if_pos hend]
  dsimp only
  rw [hr1]
  dsimp only
  rw [if_neg (by rw [g2]; exact fun hc => hc rfl), g3, g4, g5, hr2]
  dsimp only
  rw [hb]
  congr 2
  omega

/-- The walk over `k` well-formed central headers returns their names in order. -/
theorem cen_walk_headers : ∀ (es : List CenEntry), (∀ e ∈ es, e.wf) →
    ∀ (pre post : Str) (fuel parsed : Nat) (names : List Str),
      es.length < fuel → parsed + es.length ≤ 100000 →
      cen_walk (pre ++ (cd_bytes es ++ post)) (pre.length + (cd_bytes es).length) fuel
        pre.length parsed names = some (true, names ++ es.map (fun e => e.name)) := by
  intro es
  induction es with
  | nil =>
    intro _ pre post fuel parsed names _ _
    rw [cen_walk_done _ _ _ _ _ _ (by simp [cd_bytes])]
    simp
  | cons e es ih =>
    intro hwf pre post fuel parsed names hf hp
    have he := hwf e (List.mem_cons_self _ _)
    have hb := cen_bytes_length e he
    obtain ⟨f, rfl⟩ : ∃ f, fuel = f + 1 := ⟨fuel - 1, by omega⟩
    simp only [List.length_cons] at hf hp
    have hform : pre ++ (cd_bytes (e :: es) ++ post) =
        pre ++ (e.bytes ++ (cd_bytes es ++ post)) := by
      simp [cd_bytes, List.append_assoc]
    rw [hform, cen_walk_header pre _ e he _ f parsed names
      (by simp only [cd_bytes, List.length_append]; omega), if_neg (by omega)]
    have h2 := ih (fun x hx => hwf x (List.mem_cons_of_mem _ hx)) (pre ++ e.bytes) post f
      (parsed + 1) (names ++ [e.name]) (by omega) (by omega)
    simp only [List.append_assoc, List.length_append] at h2
    simp only [cd_bytes, List.length_append, List.map_cons]
    rw [← Nat.add_assoc]
    rw [h2]
    simp

end Mirrormediad

namespace Mirrormediad

/-- More than 100000 well-formed headers: the walk fails. -/
theorem cen_walk_too_many : ∀ (es : List CenEntry), (∀ e ∈ es, e.wf) →
    ∀ (pre post : Str) (fuel parsed : Nat) (names : List Str),
      parsed ≤ 100000 → 100000 < parsed + es.length → 100000 - parsed < fuel →
      ∃ ns, cen_walk (pre ++ (cd_bytes es ++ post)) (pre.length + (cd_bytes es).length) fuel
        pre.length parsed names = some (false, ns) := by
  intro es
  induction es with
  | nil =>
    intro _ pre post fuel parsed names h1 h2 _
    simp only [List.length_nil] at h2
    omega
  | cons e es ih =>
    intro hwf pre post fuel parsed names h1 h2 h3
    have he := hwf e (List.mem_cons_self _ _)
    have hb := cen_bytes_length e he
    obtain ⟨f, rfl⟩ : ∃ f, fuel = f + 1 := ⟨fuel - 1, by omega⟩
    simp only [List.length_cons] at h2
    have hform : pre ++ (cd_bytes (e :: es) ++ post) =
        pre ++ (e.bytes ++ (cd_bytes es ++ post)) := by
      simp [cd_bytes, List.append_assoc]
    rw [hform, cen_walk_header pre _ e he _ f parsed names
      (by simp only [cd_bytes, List.length_append]; omega)]
    by_cases hp : parsed + 1 > 100000
    · rw [if_pos hp]
      exact ⟨_, rfl⟩
    · rw [if_neg hp]
      have h4 := ih (fun x hx => hwf x (List.mem_cons_of_mem _ hx)) (pre ++ e.bytes) post f
        (parsed + 1) (names ++ [e.name]) (by omega) (by omega) (by omega)
      simp only [List.append_assoc, List.length_append] at h4
      simp only [cd_bytes, List.length_append]
      rw [← Nat.add_assoc]
      exact h4

/-- A header whose signature is wrong is fatal. -/
theorem cen_walk_bad_signature (file hdr : Str) (cd_end f p parsed : Nat) (names : List Str)
    (hp : p < cd_end) (hr : pread_fully file p 46 = some hdr) (hs : le32_at hdr 0 ≠ CEN_SIG) :
    cen_walk file cd_end (f + 1) p parsed names = some (false, names) := by
  rw [cen_walk, if_pos hp]
  dsimp only
  rw [hr]
  dsimp only
  rw [if_pos hs]

/-- The listing of a file in which the scan locates the record at `o`, whose
central directory is `k ≤ 100000` well-formed headers inside the file and ends
below offset `2 ^ 32`: success, with the `k` names in order. -/
theorem list_zip_names_located (file pre post : Str) (es : List CenEntry) (o : Nat)
    (hfile : file = pre ++ (cd_bytes es ++ post)) (hwf : ∀ e ∈ es, e.wf)
    (hk : es.length ≤ 100000)
    (hscan : eocd_scan file = some (Scan.found o)) (ho : o + 22 ≤ file.length)
    (hoff : le32_at ((file.drop o).take 22) 0x10 = pre.length)
    (hsz : le32_at ((file.drop o).take 22) 0x0C = (cd_bytes es).length)
    (hsum : pre.length + (cd_bytes es).length < 2 ^ 32) :
    list_zip_names_from_fd file = some (true, es.map (fun e => e.name)) := by
  have hin : pre.length + (cd_bytes es).length ≤ file.length := by
    rw [hfile]
    simp only [List.length_append]
    omega
  rw [list_zip_found file o (by omega) hscan ho, hoff, hsz, Nat.mod_eq_of_lt hsum,
    if_neg (by omega)]
  have := cen_walk_headers es hwf pre post 100001 0 [] (by omega) (by omega)
  rw [← hfile] at this
  rw [this]
  rfl

end Mirrormediad

namespace Mirrormediad

/-! ## ZIP: the range check on the central directory -/

/-- What the range check of line 518 gives on success: the record was located at
some offset and the 32-bit sum of the two fields is at most the file size. -/
theorem list_zip_success_range (file : Str) (names : List Str)
    (h : list_zip_names_from_fd file = some (true, names)) :
    ∃ o, eocd_scan file = some (Scan.found o) ∧
      (le32_at ((file.drop o).take 22) 0x10 + le32_at ((file.drop o).take 22) 0x0C) % 2 ^ 32 ≤
        file.length := by
  unfold list_zip_names_from_fd at h
  by_cases h22 : file.length < 22
  · rw [if_pos h22] at h
    simp at h
  · rw [if_neg h22] at h
    cases hs : eocd_scan file with
    | none => simp [hs] at h
    | some sc =>
      rw [hs] at h
      cases sc with
      | not_found => simp at h
      | read_failed => simp at h
      | found o =>
        dsimp only at h
        unfold pread_fully at h
        rw [if_neg (by decide)] at h
        by_cases hr : o + 22 ≤ file.length
        · rw [if_pos hr] at h
          dsimp only at h
          refine ⟨o, rfl, ?_⟩
          by_contra hc
          rw [if_pos (by omega)] at h
          simp at h
        · rw [if_neg hr] at h
          simp at h

/-- C21, the code at the failing input: a staged file of 22 bytes whose record gives
`cd_offset = 0xFFFFFFFF` and `cd_size = 1`. The 32-bit sum is 0, the range check
passes, and `list_zip_names_from_fd` returns success, while `cd_offset + cd_size`
as an unbounded integer is `2 ^ 32`, far above the file size of 22. -/
theorem range_check_defeated_by_wrap :
    wrap_eocd_file.length = 22 ∧
    eocd_scan wrap_eocd_file = some (Scan.found 0) ∧
    le32_at ((wrap_eocd_file.drop 0).take 22) 0x10 = 0xFFFFFFFF ∧
    le32_at ((wrap_eocd_file.drop 0).take 22) 0x0C = 1 ∧
    (0xFFFFFFFF + 1) % 2 ^ 32 = 0 ∧
    list_zip_names_from_fd wrap_eocd_file = some (true, []) ∧
    ¬ (0xFFFFFFFF + 1 ≤ wrap_eocd_file.length) := by
  decide

end Mirrormediad
